import Mathlib

/-!
Verification of the nutils basis / topology / mesh-parsing layer.

Shallow embedding of `src/nutils/function.py` (the Basis family),
`src/nutils/topology.py` (edge_search, boundary, hierarchical basis,
trimmed topologies) and `src/nutils/mesh.py` (the Gmsh parser), with
theorems settling the specification's claims about them.

Numeric helpers (`numeric.sorted_index`, `numeric.sorted_contains`,
`numpy.searchsorted`, `numpy.unique`) are not shipped in `src/nutils`,
but their exact semantics is pinned by the repository's own tests
(`src/tests/test_numeric.py`); the embeddings below follow those tests.
-/

namespace Nutils

/-- Python sequence indexing `xs[i]`: a negative index counts from the end,
an index out of `[-len, len)` raises IndexError (modelled as `none`). -/
def pyGet {α : Type} (xs : List α) (i : Int) : Option α :=
  if 0 ≤ i then xs.get? i.toNat
  else if i + xs.length < 0 then none
  else xs.get? (i + xs.length).toNat

/-- Semantics of `numeric.sorted_index(a, b, missing='mask')` as pinned by
`src/tests/test_numeric.py`: `[a.index(v) for v in b if v in a]`. -/
def sorted_index_mask (a b : List Nat) : List Nat :=
  (b.filter fun v => a.contains v).map fun v => a.indexOf v

/-- Semantics of `numeric.sorted_contains(a, b)` as pinned by
`src/tests/test_numeric.py`: `[v in a for v in b]`. -/
def sorted_contains (a b : List Nat) : List Bool :=
  b.map fun v => a.contains v

/-- Numpy boolean-mask indexing `xs[mask]`: keep the entries at positions
where the mask is true, preserving order. -/
def boolMask {α : Type} (xs : List α) (mask : List Bool) : List α :=
  ((xs.zip mask).filter fun p => p.2).map Prod.fst

/-- `numpy.searchsorted(a, v, side='right')` for a sorted array `a`: the
number of entries of `a` not exceeding `v`. -/
def searchsortedRight {α : Type} [LinearOrder α] (a : List α) (v : α) : Nat :=
  a.countP fun x => decide (x ≤ v)

/-- `numpy.arange(a, b)` on integers. -/
def intArange (a b : Int) : List Int :=
  (List.range (b - a).toNat).map fun (k : Nat) => a + (k : Int)

/-- `numpy.unique` on an integer list: the sorted list of distinct values. -/
def npUnique (l : List Int) : List Int :=
  (l.insertionSort (· ≤ ·)).dedup

-- ### PlainBasis (src/nutils/function.py lines 326-374)

/-- `PlainBasis`: dofs and coefficients given as explicit per-element tables.
A coefficient array is modelled by its list of leading-axis rows; a row is an
opaque `Int` identifier, faithful to everything the claims inspect. -/
structure PlainBasis where
  coeffs : List (List Int)
  dofs : List (List Nat)
  ndofs : Nat

/-- Number of elements of a `PlainBasis`: `len(coefficients)`. -/
def PlainBasis.nelems (b : PlainBasis) : Nat := b.coeffs.length

/-- The assertions of `PlainBasis.__init__`: equally many coefficient tables
and dof tables, and per element equally many rows and dofs. -/
def PlainBasis.valid (b : PlainBasis) : Prop :=
  b.coeffs.length = b.dofs.length ∧
    ∀ i < b.dofs.length, (b.coeffs.getD i []).length = (b.dofs.getD i []).length

instance (b : PlainBasis) : Decidable b.valid := by
  unfold PlainBasis.valid; infer_instance

/-- `PlainBasis.get_dofs` for a scalar in-range element index: table lookup. -/
def PlainBasis.get_dofs (b : PlainBasis) (e : Nat) : List Nat := b.dofs.getD e []

/-- `PlainBasis.get_coefficients`: table lookup. -/
def PlainBasis.get_coefficients (b : PlainBasis) (e : Nat) : List Int :=
  b.coeffs.getD e []

/-- `Basis._computed_support` (function.py lines 184-190): scan all elements
in increasing order and record, per dof, the elements whose dofs contain it;
the sorted set built by the scan is the ordered filter of the element range.
Faithful to the Python dict-of-sets construction whenever every table entry
lies in `[0, ndofs)` (out-of-range entries make the Python code raise or wrap
instead). -/
def computedSupport (nelems : Nat) (getdofs : Nat → List Nat) (d : Nat) : List Nat :=
  (List.range nelems).filter fun e => (getdofs e).contains d

-- ### DiscontBasis (src/nutils/function.py lines 376-425)

/-- Offsets array of `DiscontBasis.__init__`:
`numpy.cumsum([0, *map(len, coeffs)])`, i.e. `offsets[i]` is the total number
of rows of the first `i` coefficient tables. -/
def offsetsOf (lens : List Nat) : List Nat :=
  (List.range (lens.length + 1)).map fun i => (lens.take i).sum

/-- `DiscontBasis`: per-element coefficient tables; dofs are the contiguous
partition induced by the table lengths. -/
structure DiscontBasis where
  coeffs : List (List Int)

/-- Number of elements of a `DiscontBasis`. -/
def DiscontBasis.nelems (b : DiscontBasis) : Nat := b.coeffs.length

/-- The offsets array of a `DiscontBasis`. -/
def DiscontBasis.offsets (b : DiscontBasis) : List Nat :=
  offsetsOf (b.coeffs.map List.length)

/-- Total dof count of a `DiscontBasis`: `offsets[-1]`. -/
def DiscontBasis.ndofs (b : DiscontBasis) : Nat :=
  (b.coeffs.map List.length).sum

/-- `DiscontBasis.get_dofs` for a scalar in-range element index:
`numpy.arange(offsets[ielem], offsets[ielem+1])`. -/
def DiscontBasis.get_dofs (b : DiscontBasis) (e : Nat) : List Nat :=
  List.range' (b.offsets.getD e 0) (b.offsets.getD (e+1) 0 - b.offsets.getD e 0)

/-- `DiscontBasis.get_support` for a scalar in-range dof (function.py lines
399-403): `[searchsorted(offsets[:-1], dof, side='right') - 1]`. -/
def DiscontBasis.get_support (b : DiscontBasis) (d : Nat) : List Nat :=
  [searchsortedRight b.offsets.dropLast d - 1]

/-- `DiscontBasis.get_coefficients`: table lookup. -/
def DiscontBasis.get_coefficients (b : DiscontBasis) (e : Nat) : List Int :=
  b.coeffs.getD e []

/-- Python's `sorted` on a list. -/
def sortedList {α : Type} [LinearOrder α] (l : List α) : List α :=
  l.insertionSort (· ≤ ·)

-- ### MaskedBasis and PrunedBasis (src/nutils/function.py lines 427-466, 569-610)

/-- Interface record of an arbitrary parent `Basis` as seen by the wrapping
variants: scalar `get_dofs`, scalar `get_support` and `get_coefficients`. -/
structure ParentBasis where
  ndofs : Nat
  nelems : Nat
  get_dofs : Nat → List Nat
  get_support : Nat → List Nat
  get_coefficients : Nat → List Int

/-- The round-trip contract of a basis: an element is in the support of a dof
exactly when the dof is on the element. -/
def ParentBasis.roundtrip (p : ParentBasis) : Prop :=
  ∀ e < p.nelems, ∀ d < p.ndofs, (e ∈ p.get_support d ↔ d ∈ p.get_dofs e)

/-- `MaskedBasis`: an order preserving subset of a parent basis. -/
structure MaskedBasis where
  parent : ParentBasis
  indices : List Nat

/-- The `ValueError` checks of `MaskedBasis.__init__` at list level: `indices`
strictly monotonic increasing and within `[0, len(parent))` (the code checks
only the first and last entry, which is equivalent under monotonicity; the
one-dimensionality check is part of the array-shape model below). -/
def MaskedBasis.valid (m : MaskedBasis) : Prop :=
  m.indices.Pairwise (· < ·) ∧ ∀ v ∈ m.indices, v < m.parent.ndofs

/-- Number of dofs of a `MaskedBasis`: `len(indices)`. -/
def MaskedBasis.ndofs (m : MaskedBasis) : Nat := m.indices.length

/-- `MaskedBasis.get_dofs`:
`numeric.sorted_index(self._indices, self._parent.get_dofs(ielem), missing='mask')`. -/
def MaskedBasis.get_dofs (m : MaskedBasis) (e : Nat) : List Nat :=
  sorted_index_mask m.indices (m.parent.get_dofs e)

/-- `MaskedBasis.get_coefficients`: the parent coefficients restricted by the
boolean mask `numeric.sorted_contains(self._indices, self._parent.get_dofs(ielem))`. -/
def MaskedBasis.get_coefficients (m : MaskedBasis) (e : Nat) : List Int :=
  boolMask (m.parent.get_coefficients e) (sorted_contains m.indices (m.parent.get_dofs e))

/-- `MaskedBasis.get_support` for a scalar dof: `self._parent.get_support(self._indices[dof])`. -/
def MaskedBasis.get_support (m : MaskedBasis) (d : Nat) : List Nat :=
  m.parent.get_support (m.indices.getD d 0)

/-- Specification-side form of the `MaskedBasis` coefficients: the rows of the
parent coefficient array whose same-position parent dof is a member of the
index set, in the parent's order. -/
def maskedCoefficientsSpec (indices pdofs : List Nat) (pcoeffs : List Int) : List Int :=
  ((pcoeffs.zip pdofs).filter fun q => decide (q.2 ∈ indices)).map Prod.fst

/-- `numpy.searchsorted(a, v)` (side `'left'`) for a sorted array `a`: the
number of entries strictly below `v`. -/
def searchsortedLeft (a : List Nat) (v : Nat) : Nat :=
  a.countP fun x => decide (x < v)

/-- `numpy.unique` on a list of naturals. -/
def npUniqueNat (l : List Nat) : List Nat := (l.insertionSort (· ≤ ·)).dedup

/-- `PrunedBasis`: a parent basis restricted to the elements listed in
`transmap`. -/
structure PrunedBasis where
  parent : ParentBasis
  transmap : List Nat

/-- The `_dofmap` of `PrunedBasis.__init__`: `parent.get_dofs(self._transmap)`,
which by the array branch of `Basis.get_dofs` (function.py lines 254-262) is
the sorted unique union of the parent dofs over the kept elements. -/
def PrunedBasis.dofmap (b : PrunedBasis) : List Nat :=
  npUniqueNat (b.transmap.flatMap b.parent.get_dofs)

/-- `PrunedBasis.get_dofs` for a scalar element index:
`numpy.searchsorted(self._dofmap, self._parent.get_dofs(self._transmap[ielem]))`. -/
def PrunedBasis.get_dofs (b : PrunedBasis) (e : Nat) : List Nat :=
  (b.parent.get_dofs (b.transmap.getD e 0)).map fun v => searchsortedLeft b.dofmap v

/-- `PrunedBasis.get_coefficients`: `self._parent.get_coefficients(self._transmap[ielem])`. -/
def PrunedBasis.get_coefficients (b : PrunedBasis) (e : Nat) : List Int :=
  b.parent.get_coefficients (b.transmap.getD e 0)

/-- `PrunedBasis.get_support` for a scalar dof:
`numeric.sorted_index(self._transmap, self._parent.get_support(self._dofmap[dof]), missing='mask')`. -/
def PrunedBasis.get_support (b : PrunedBasis) (d : Nat) : List Nat :=
  sorted_index_mask b.transmap (b.parent.get_support (b.dofmap.getD d 0))

-- ### StructuredBasis (src/nutils/function.py lines 468-567)

/-- `StructuredBasis`: a tensor-product basis over a structured grid.  Per
dimension: the per-axis-element coefficient tables (a coefficient array is its
list of leading-axis rows), the dof of the first entry (`start_dofs`) and one
plus the dof of the last entry (`stop_dofs`); `dofs_shape` and
`transforms_shape` are the tensor shapes of dofs and elements. -/
structure StructuredBasis where
  coeffs : List (List (List (List Int)))
  start_dofs : List (List Int)
  stop_dofs : List (List Int)
  dofs_shape : List Nat
  transforms_shape : List Nat

/-- Total dof count: `util.product(dofs_shape)`. -/
def StructuredBasis.ndofs (b : StructuredBasis) : Nat := b.dofs_shape.prod

/-- Total element count: `util.product(transforms_shape)`. -/
def StructuredBasis.nelems (b : StructuredBasis) : Nat := b.transforms_shape.prod

/-- The divmod loop of `StructuredBasis._get_indices`: peel the reversed shape
off the flat element index, returning the per-axis indices (in axis order) and
the final quotient (the code raises IndexError unless that quotient is zero,
which holds for every in-range element index). -/
def getIndicesAux : List Nat → Nat → List Nat × Nat
  | [], q => ([], q)
  | n :: rest, q0 =>
    let p := getIndicesAux rest q0
    ((p.2 % n) :: p.1, p.2 / n)

/-- The per-axis dofs of `StructuredBasis.get_dofs`:
`numpy.arange(start_dofs_i[index_i], stop_dofs_i[index_i]) % ndofs_i`. -/
def axisDofs (st sp : List Int) (nd : Nat) (ix : Nat) : List Int :=
  (intArange (st.getD ix 0) (sp.getD ix 0)).map fun j => j % (nd : Int)

/-- The outer-sum accumulation loop of `StructuredBasis.get_dofs`:
`dofs = numpy.add.outer(dofs*ndofs_i, dofs_i)` per axis, starting from the
scalar 0 and ravelled row-major. -/
def structDofs : List (List Int × List Int × Nat × Nat) → List Nat → List Int → List Int
  | (st, sp, nd, _) :: axes, ix :: ixs, acc =>
    structDofs axes ixs (acc.flatMap fun a => (axisDofs st sp nd ix).map fun v => a * nd + v)
  | _, _, acc => acc

/-- The per-dimension data of a `StructuredBasis` zipped as in the Python
loops: `(start_dofs_i, stop_dofs_i, ndofs_i, ntransforms_i)` per axis. -/
def StructuredBasis.axes4 (b : StructuredBasis) :
    List (List Int × List Int × Nat × Nat) :=
  b.start_dofs.zip (b.stop_dofs.zip (b.dofs_shape.zip b.transforms_shape))

/-- `StructuredBasis.get_dofs` for a scalar in-range element index. -/
def StructuredBasis.get_dofs (b : StructuredBasis) (e : Nat) : List Int :=
  structDofs b.axes4 (getIndicesAux b.transforms_shape e).1 [0]

/-- The while loop of `StructuredBasis.get_support` for one axis: for each
`v = dof_i + k*ndofs_i` below `stop_dofs_i[-1]`, the element indices
`numpy.arange(searchsorted(stop_dofs_i, v, 'right'), searchsorted(start_dofs_i, v, 'right'))`,
concatenated and made unique.  (The model of `numpy.concatenate` over zero
arrays is the empty list; the Python call would raise there, which cannot
happen when `stop_dofs_i[-1]` covers every axis dof.) -/
def axisSupportNiter (sp : List Int) (nd : Nat) (d0 : Nat) : Nat :=
  if (d0 : Int) < sp.getD (sp.length - 1) 0 then
    ((sp.getD (sp.length - 1) 0 - d0).toNat + nd - 1) / nd
  else 0

def axisSupport (st sp : List Int) (nd : Nat) (d0 : Nat) : List Nat :=
  npUniqueNat ((List.range (axisSupportNiter sp nd d0)).flatMap fun (k : Nat) =>
    List.range' (searchsortedRight sp ((d0 : Int) + (k : Int) * nd))
      (searchsortedRight st ((d0 : Int) + (k : Int) * nd) -
        searchsortedRight sp ((d0 : Int) + (k : Int) * nd)))

/-- The reversed-axis loop of `StructuredBasis.get_support`: peel the dof into
per-axis dofs (last axis first), collect each axis's support scaled by the
accumulated transforms stride, and return the final quotient (asserted zero in
the code). -/
def structSupportAux : List (List Int × List Int × Nat × Nat) → Nat → Nat →
    List (List Nat) × Nat
  | [], dof, _ => ([], dof)
  | (st, sp, nd, nt) :: axes, dof, scale =>
    let sup := (axisSupport st sp nd (dof % nd)).map fun s => s * scale
    let p := structSupportAux axes (dof / nd) (scale * nt)
    (sup :: p.1, p.2)

/-- `functools.reduce(numpy.add.outer, ...).ravel()` over a list of index
arrays: all sums of one element per array, ravelled row-major. -/
def outerSum : List (List Nat) → List Nat
  | [] => []
  | s :: rest => rest.foldl (fun acc t => acc.flatMap fun a => t.map fun v => a + v) s

/-- `StructuredBasis.get_support` for a scalar in-range dof. -/
def StructuredBasis.get_support (b : StructuredBasis) (d : Nat) : List Nat :=
  outerSum (structSupportAux b.axes4.reverse d 1).1.reverse

/-- `numeric.poly_outer_product` at the level of leading-axis rows: the

outer product pairs every row of the first array with every row of the second
(row contents concatenated as an opaque encoding of the tensor product). -/
def poly_outer_product (a b : List (List Int)) : List (List Int) :=
  a.flatMap fun ra => b.map fun rb => ra ++ rb

/-- `StructuredBasis.get_coefficients`:
`functools.reduce(numeric.poly_outer_product, map(operator.getitem, self._coeffs, self._get_indices(ielem)))`. -/
def StructuredBasis.get_coefficients (b : StructuredBasis) (e : Nat) : List (List Int) :=
  match (b.coeffs.zip (getIndicesAux b.transforms_shape e).1).map
      (fun p => p.1.getD p.2 []) with
  | [] => []
  | c :: cs => cs.foldl poly_outer_product c

-- ### Mixed-radix combination lemmas for StructuredBasis

/-- Product of the per-axis dof counts of a list of axis quadruples. -/
def prodND (quads : List (List Int × List Int × Nat × Nat)) : Nat :=
  (quads.map fun q => q.2.2.1).prod

/-- Forward composition of `StructuredBasis.get_dofs`: a value is composed of
one per-axis dof choice per axis, in mixed radix over the dof shape. -/
def dofsChain : List (List Int × List Int × Nat × Nat) → List Nat → Int → Prop
  | (st, sp, nd, _) :: rest, ix :: ixs, x =>
    ∃ v y, v ∈ axisDofs st sp nd ix ∧ dofsChain rest ixs y ∧
      x = v * (prodND rest : Int) + y
  | _, _, x => x = 0

/-- Axis-by-axis form of the dof membership, peeling the least significant
(last) axis first: at each step the dof digit of the current axis must be
among the axis dofs of the element digit of the current axis. -/
def dofsCond : List (List Int × List Int × Nat × Nat) → Nat → Nat → Prop
  | [], d, _ => d = 0
  | (st, sp, nd, nt) :: rest, d, e =>
    ((d % nd : Nat) : Int) ∈ axisDofs st sp nd (e % nt) ∧ dofsCond rest (d / nd) (e / nt)

/-- Axis-by-axis form of the support membership, peeling the last axis
first, mirroring the reversed loop of `StructuredBasis.get_support`. -/
def suppCond : List (List Int × List Int × Nat × Nat) → Nat → Nat → Prop
  | [], _, e => e = 0
  | (st, sp, nd, nt) :: rest, d, e =>
    (e % nt) ∈ axisSupport st sp nd (d % nd) ∧ suppCond rest (d / nd) (e / nt)

/-- Product of the per-axis element counts of a list of axis quadruples. -/
def prodNT (quads : List (List Int × List Int × Nat × Nat)) : Nat :=
  (quads.map fun q => q.2.2.2).prod

-- Concrete basis instances from src/tests/test_function.py, used as witnesses.

def plainT : PlainBasis :=
  { coeffs := [[1],[2,3],[4,5],[6]], dofs := [[0],[2,3],[1,3],[2]], ndofs := 4 }

def discontT : DiscontBasis := { coeffs := [[1],[2,3],[4,5],[6]] }

def parentT : ParentBasis :=
  { ndofs := 4, nelems := 4, get_dofs := plainT.get_dofs,
    get_support := computedSupport 4 plainT.get_dofs,
    get_coefficients := plainT.get_coefficients }

def maskedT : MaskedBasis := { parent := parentT, indices := [0, 2] }

def structT : StructuredBasis :=
  { coeffs := [[[[1],[2]],[[3],[4]],[[5],[6]],[[7],[8]]]],
    start_dofs := [[0,1,2,3]], stop_dofs := [[2,3,4,5]],
    dofs_shape := [4], transforms_shape := [4] }

def prunedT : PrunedBasis := { parent := parentT, transmap := [0, 2] }

/-- C2 counterexample: a `PlainBasis` built from an arbitrary per-element
table with a duplicate dof passes every constructor assertion, yet
`sorted(get_dofs(0))` is not strictly increasing. -/
def c2cex : PlainBasis := { coeffs := [[10, 11]], dofs := [[0, 0]], ndofs := 1 }

-- ### C6: index-argument dispatch of Basis.get_support and the MaskedBasis
-- constructor checks (src/nutils/function.py lines 211-230, 441-451, 463-466)

/-- Python exception kinds raised by the basis index checks. -/
inductive PyErr where
  | indexError (msg : String)
  | valueError (msg : String)

/-- The possible arguments of `Basis.get_support`: a scalar integer, an
integer array (carrying its declared number of dimensions and its entries),
a boolean array (carrying its shape and entries), or a value of any other
type. -/
inductive DofArg where
  | scalar (i : Int)
  | intarr (ndim : Nat) (entries : List Int)
  | boolarr (shape : List Nat) (entries : List Bool)
  | other

/-- The integer-array branch of `Basis.get_support` (lines 213-224):
dimensionality check, empty shortcut, `numpy.unique`, range check on the
first and last entry of the sorted unique array, then the default support
scan over all elements. -/
def getSupportIntArr (ndofs nelems : Nat) (gd : Nat → List Nat)
    (ndim : Nat) (entries : List Int) : Except PyErr (List Nat) :=
  if ndim ≠ 1 then .error (.indexError "dof has invalid number of dimensions")
  else if entries.isEmpty then .ok []
  else if (npUnique entries).headI < 0 ∨ (ndofs : Int) ≤ (npUnique entries).getLastD 0 then
    .error (.indexError "dof out of bounds")
  else
    .ok (npUniqueNat ((List.range nelems).filter fun e =>
      (gd e).any fun dd => (npUnique entries).contains ((dd : Nat) : Int)))

/-- The positions of the true entries of a boolean mask (`numpy.where`). -/
def trueIndices (bs : List Bool) : List Int :=
  ((List.range bs.length).filter fun k => bs.getD k false).map fun (k : Nat) => (k : Int)

/-- `Basis.get_support` dispatch (src/nutils/function.py lines 211-230) for a
basis with the default support computation: a scalar indexes the
`_computed_support` tuple with Python semantics (a negative index counts from
the end, out of range raises IndexError), an integer array goes through
`getSupportIntArr`, a boolean array is shape-checked and converted to the
indices of its true entries, and any other value raises IndexError. -/
def getSupportDispatch (ndofs nelems : Nat) (gd : Nat → List Nat)
    (arg : DofArg) : Except PyErr (List Nat) :=
  match arg with
  | .scalar i =>
      match pyGet ((List.range ndofs).map (computedSupport nelems gd)) i with
      | none => .error (.indexError "tuple index out of range")
      | some s => .ok s
  | .intarr ndim entries => getSupportIntArr ndofs nelems gd ndim entries
  | .boolarr shape entries =>
      if shape ≠ [ndofs] then .error (.indexError "dof has invalid shape")
      else getSupportIntArr ndofs nelems gd 1 (trueIndices entries)
  | .other => .error (.indexError "invalid dof")

/-- The ValueError checks of `MaskedBasis.__init__` (lines 441-451) on the
raw indices array: one-dimensionality, strict monotonicity via `numpy.diff`,
then the range of the first and last entry against the parent length. -/
def maskedBasisInitChecks (parentLen : Nat) (ndim : Nat) (indices : List Int) :
    Except PyErr Unit :=
  if ndim ≠ 1 then
    .error (.valueError "indices should have one dimension")
  else if ¬ indices.isEmpty ∧ ¬ List.Chain' (· < ·) indices then
    .error (.valueError "indices should be strictly monotonic increasing")
  else if ¬ indices.isEmpty ∧
      (indices.headI < 0 ∨ (parentLen : Int) ≤ indices.getLastD 0) then
    .error (.valueError "indices out of range")
  else .ok ()

/-- Numpy fancy indexing `xs[idxs]`: each index picked with Python negative
wrapping, the whole operation raising IndexError (`none`) if any index is out
of range. -/
def fancyIndex (xs : List Int) (idxs : List Int) : Option (List Int) :=
  idxs.mapM (pyGet xs)

/-- The array branch of `MaskedBasis.get_support` (lines 463-466): a
one-dimensional integer array with any negative entry is rejected with
IndexError up front; otherwise the argument fancy-indexes `_indices` and the
result is passed to the parent dispatch. -/
def maskedGetSupportIntArr (m : MaskedBasis)
    (parentDispatch : DofArg → Except PyErr (List Nat))
    (ndim : Nat) (entries : List Int) : Except PyErr (List Nat) :=
  if ndim = 1 ∧ entries.any (fun v => decide (v < 0)) then
    .error (.indexError "dof out of bounds")
  else
    match fancyIndex (m.indices.map fun (n : Nat) => (n : Int)) entries with
    | none => .error (.indexError "index out of bounds")
    | some picked => parentDispatch (.intarr ndim picked)

-- ### C4: facet matching (src/nutils/topology.py lines 42-64)

/-- A facet produced by the `edge_search` element loop: `key` stands for the
sorted tuple of vertex identifiers, `ref` for the edge reference compared by
the assertion, `edge` for the identity of the edge element. -/
structure Facet where
  key : Nat
  ref : Nat
  edge : Nat

/-- Number of entries of an edge dictionary with a given key. -/
def keyCount (k : Nat) (l : List (Nat × Facet)) : Nat :=
  l.countP fun p => decide (p.1 = k)

/-- Number of facets of a list with a given key. -/
def facetCount (k : Nat) (l : List Facet) : Nat :=
  l.countP fun x => decide (x.key = k)

/-- Number of interface pairs with a given key (of the first component). -/
def ifaceCount (k : Nat) (l : List (Facet × Facet)) : Nat :=
  l.countP fun pr => decide (pr.1.key = k)

/-- `edges.pop(edgekey)` on an insertion-ordered dictionary: remove and
return the first entry with the given key, or `none` (KeyError). -/
def dictPop (k : Nat) : List (Nat × Facet) → Option (Facet × List (Nat × Facet))
  | [] => none
  | (k0, v0) :: rest =>
      if k0 = k then some (v0, rest)
      else
        match dictPop k rest with
        | none => none
        | some (r, rest2) => some (r, (k0, v0) :: rest2)

/-- The loop of `Topology.edge_search` (lines 45-59): for each facet in
element order, pop a previously stored facet with the same key and pair them
as an interface (checking the references are equal, the assertion), or store
the facet; at the end the stored facets are the boundary edges. -/
def edgeScan : List Facet → List (Nat × Facet) → List (Facet × Facet) →
    Except String (List Facet × List (Facet × Facet))
  | [], edges, ifaces => .ok (edges.map Prod.snd, ifaces)
  | f :: rest, edges, ifaces =>
      match dictPop f.key edges with
      | none => edgeScan rest (edges ++ [(f.key, f)]) ifaces
      | some (opp, edges2) =>
          if f.ref = opp.ref then edgeScan rest edges2 (ifaces ++ [(f, opp)])
          else .error "edge.reference equals oppedge.reference"

-- ### C7: boundary of a boundary (src/nutils/topology.py lines 35-41, 61-64,
-- 703-729)

/-- A one-dimensional boundary element (a segment), identified by its two
endpoint vertex numbers. -/
structure Seg where
  a : Nat
  b : Nat

/-- The two point facets of a segment contributed to `edge_search`:
`edge2vertex` of a one-dimensional element selects each single endpoint, so
the facet key is that vertex and the reference is the unique point
reference (identifier 0). -/
def segFacets (s : Seg) : List Facet :=
  [⟨s.a, 0, s.a⟩, ⟨s.b, 0, s.b⟩]

/-- `Topology.__init__` (lines 35-41): stores the elements; when `ndims` is
not passed it reads `self.elements[0].ndims`, which raises IndexError
(modelled as `none`) on an empty element tuple. -/
def topologyInit {α : Type} (dims : α → Nat) (elements : List α)
    (ndims : Option Nat) : Option (List α × Nat) :=
  match ndims with
  | some nd => some (elements, nd)
  | none =>
      match elements with
      | [] => none
      | e :: _ => some (elements, dims e)

/-- The generic `Topology.boundary` property (lines 61-64) applied to a
topology of segments: run `edge_search` over the segments' point facets,
then build `Topology(edges)` without passing `ndims`. -/
def boundaryOfBoundary (segs : List Seg) :
    Except String (Option (List Facet × Nat)) :=
  match edgeScan (segs.flatMap segFacets) [] [] with
  | .error e => .error e
  | .ok (bnd, _) => .ok (topologyInit (fun _ => 0) bnd none)

/-- Modelled from the spec: cyclic enumeration of the boundary vertices of an
`m x n` structured grid with vertex numbering `vertices[i][j] = i*(n+1)+j`
(the `numpy.arange` reshape of `StructuredTopology.boundary`): walk up the
column `j = 0`, along the row `i = m`, down the column `j = n`, and back
along the row `i = 0`. -/
def rectLoop (m n t : Nat) : Nat :=
  if t ≤ m then t * (n + 1)
  else if t ≤ m + n then m * (n + 1) + (t - m)
  else if t ≤ 2 * m + n then (2 * m + n - t) * (n + 1) + n
  else n - (t - (2 * m + n))

/-- Modelled from the spec: the boundary of an `m x n` structured topology
(`StructuredTopology.boundary`, lines 703-729) is the closed loop of the
`2*(m+n)` segments joining consecutive boundary vertices of the vertex grid;
the per-segment endpoint vertices come from the element edge machinery
outside `src/`. -/
def structBoundarySegs (m n : Nat) : List Seg :=
  (List.range (2 * (m + n))).map fun t =>
    ⟨rectLoop m n t, rectLoop m n ((t + 1) % (2 * (m + n)))⟩

-- ### C8/C10: TrimmedTopology (src/nutils/topology.py lines 106-115, 561-567,
-- 1242-1260)

/-- Modelled from the spec: an element reference is identified with the
finite set of its atomic pieces; reference subtraction is set difference, the
empty reference is the empty set, truthiness is nonemptiness, and the volume
of a reference is the sum of the measures of its pieces (the Reference class
lives in `element.py`, outside `src/`). -/
structure Element where
  reference : Finset Nat
  transform : Nat
  opposite : Nat

/-- A Python value handed to `TrimmedTopology.__init__` as a reference entry:
either an `element.Reference` or a value of another type. -/
inductive RefVal where
  | ref (r : Finset Nat)
  | other

/-- Whether a reference entry passes the `isinstance(ref, element.Reference)`
check. -/
def RefVal.isRef : RefVal → Bool
  | .ref _ => true
  | .other => false

/-- The underlying reference of an entry (meaningful after `isRef`). -/
def RefVal.toRef : RefVal → Finset Nat
  | .ref r => r
  | .other => ∅

/-- The element list built by `TrimmedTopology.__init__` (line 1251): one
element per base element with a nonempty (truthy) trimmed reference, in base
order, keeping the base transform and opposite and carrying the trimmed
reference. -/
def trimmedTopologyElements (basetopo : List Element) (rs : List (Finset Nat)) :
    List Element :=
  ((basetopo.zip rs).filter fun p => decide (p.2 ≠ ∅)).map
    fun p => ⟨p.2, p.1.transform, p.1.opposite⟩

/-- `TrimmedTopology.__init__` (lines 1245-1252): assert one reference per
base element, assert every entry is a Reference, then build the filtered
element list (`none` models an assertion failure). -/
def trimmedTopologyInit (basetopo : List Element) (refs : List RefVal) :
    Option (List Element) :=
  if refs.length ≠ basetopo.length then none
  else if ¬ refs.all RefVal.isRef then none
  else some (trimmedTopologyElements basetopo (refs.map RefVal.toRef))

/-- `Topology.trim` (lines 561-567) composed with `TrimmedTopology.__init__`
on already-computed per-element trimmed references. -/
def trimmedTopology (basetopo : List Element) (rs : List (Finset Nat)) :
    Option (List Element) :=
  if rs.length = basetopo.length then some (trimmedTopologyElements basetopo rs)
  else none

/-- The reference list of `TrimmedTopology._inverse` (lines 1255-1258): the
per-element set difference of the base reference and the trimmed
reference. -/
def trimmedInverseRefs (basetopo : List Element) (rs : List (Finset Nat)) :
    List (Finset Nat) :=
  (basetopo.zip rs).map fun p => p.1.reference \ p.2

/-- The volume of a topology for a measure on atomic pieces: the sum over
elements of the measure of their reference. -/
def topoVolume (mu : Nat → Int) (elems : List Element) : Int :=
  (elems.map fun el => el.reference.sum mu).sum

-- ### C9: gmsh parsing errors (src/nutils/mesh.py lines 316-358, 474-516)

/-- Python exceptions raised by the gmsh parser. -/
inductive MeshErr where
  | valueError (msg : String)
  | keyError (key : String)
  | assertError (msg : String)

/-- Which of the two format parsers `parsegmsh` dispatches to. -/
inductive GmshDispatch where
  | msh2
  | msh4

/-- Assoc-list lookup, modelling Python dictionary access. -/
def lookupAssoc {k : Type} {a : Type} [DecidableEq k] (key : k) :
    List (k × a) → Option a
  | [] => none
  | (k0, v) :: rest => if k0 = key then some v else lookupAssoc key rest

/-- Assoc-list update-or-append, modelling Python dictionary assignment
(a fresh key is inserted at the end, preserving insertion order). -/
def setAssoc {k : Type} {a : Type} [DecidableEq k] (key : k) (v : a) :
    List (k × a) → List (k × a)
  | [] => [(key, v)]
  | (k0, v0) :: rest =>
      if k0 = key then (key, v) :: rest else (k0, v0) :: setAssoc key v rest

/-- Whitespace characters for Python `str.split()`. -/
def isWS (c : Char) : Bool :=
  c == ' ' || c == '\n' || c == '\t' || c == '\r'

/-- Helper of `splitWS`: scan the characters, accumulating the current
token in reverse. -/
def splitWSAux : List Char → List Char → List String
  | [], acc => if acc = [] then [] else [String.mk acc.reverse]
  | c :: rest, acc =>
      if isWS c then
        if acc = [] then splitWSAux rest []
        else String.mk acc.reverse :: splitWSAux rest []
      else splitWSAux rest (c :: acc)

/-- Python `str.split()` with no separator: split on whitespace runs,
discarding empty tokens. -/
def splitWS (s : String) : List String :=
  splitWSAux s.data []

/-- Python `str.startswith`. -/
def pyStartsWith (s pre : String) : Bool :=
  List.isPrefixOf pre.data s.data

/-- The MeshFormat handling of `parsegmsh` (lines 493-508): pop the section
(a missing or empty section is a ValueError), split it into version, file
type and data size (a ValueError if the arity differs), reject binary file
types, then dispatch on the version family, rejecting anything outside 2.x
and 4.x. -/
def parsegmshFormat (sections : List (String × String)) :
    Except MeshErr GmshDispatch :=
  match lookupAssoc "MeshFormat" sections with
  | none => .error (.valueError "invalid or incomplete gmsh data")
  | some content =>
      if content = "" then .error (.valueError "invalid or incomplete gmsh data")
      else
        match splitWS content with
        | [version, filetype, _] =>
            if filetype ≠ "0" then
              .error (.valueError "binary gmsh data is not supported")
            else if pyStartsWith version "2." then .ok .msh2
            else if pyStartsWith version "4." then .ok .msh4
            else .error (.valueError "gmsh version is not supported")
        | _ => .error (.valueError "cannot unpack MeshFormat")

/-- One line of the Elements section of a msh2 file, split into its fields:
element number, element type code, tag count (`int(t)`), first tag, and the
remaining tokens. -/
structure ElemLine where
  num : String
  etype : String
  ntags : Nat
  tagid : String
  rest : List String

/-- `_parsegmsh2`: the element type code to topological dimension table
(line 348). -/
def etype2nd : List (String × Nat) :=
  [("15", 0), ("1", 1), ("2", 2), ("4", 3), ("8", 1), ("9", 2), ("11", 3),
    ("26", 1), ("21", 2), ("23", 2), ("27", 1)]

/-- The Elements loop of `_parsegmsh2` (lines 349-358): for each line look up
the element dimension (an unknown type code is a KeyError), check the tag
count, drop the tag tokens, deduplicate consecutive repeated node tuples, and
record the element index under its dimension and first tag. -/
def elemScan : List ElemLine → List (Nat × List (List String)) →
    List ((Nat × String) × List Nat) →
    Except MeshErr (List (Nat × List (List String)) × List ((Nat × String) × List Nat))
  | [], nodes, tagmap => .ok (nodes, tagmap)
  | line :: rest, nodes, tagmap =>
      match lookupAssoc line.etype etype2nd with
      | none => .error (.keyError line.etype)
      | some nd =>
          if line.ntags < 1 then .error (.assertError "ntags is nonnegative")
          else
            let inodes := line.rest.drop (line.ntags - 1)
            let l := (lookupAssoc nd nodes).getD []
            let l2 := if l.getLast? = some inodes then l else l ++ [inodes]
            elemScan rest (setAssoc nd l2 nodes)
              (setAssoc (nd, line.tagid)
                (((lookupAssoc (nd, line.tagid) tagmap).getD []) ++
                  [l2.length - 1]) tagmap)

-- ### C3: the hierarchical basis law (src/nutils/topology.py lines 1145-1221)

/-- Classification of a level element against the hierarchical selection
(lines 1174-1183): `inSelf` when its transform belongs to the selection,
`finer` when a proper ancestor of it belongs to the selection, `coarser`
otherwise. -/
inductive ElemClass where
  | inSelf
  | finer
  | coarser
deriving DecidableEq

/-- An element of one refinement level: its level-local dof indices and its
classification against the selection. -/
structure HElem where
  dofs : List Nat
  cls : ElemClass

/-- One refinement level: the number of level basis functions and the level
elements. -/
structure HLevel where
  nfuncs : Nat
  elems : List HElem

/-- `supported[d]` after the element loop (lines 1163, 1181): true unless a
level element finer than the selection has `d` among its dofs. -/
def supported (elems : List HElem) (d : Nat) : Bool :=
  ! elems.any fun e => decide (e.cls = ElemClass.finer) && e.dofs.contains d

/-- `touchtopo[d]` after the element loop (lines 1164, 1178): true when an
element of exactly the selection has `d` among its dofs. -/
def touched (elems : List HElem) (d : Nat) : Bool :=
  elems.any fun e => decide (e.cls = ElemClass.inSelf) && e.dofs.contains d

/-- `keep = numpy.logical_and(supported, touchtopo)` (line 1185). -/
def keep (elems : List HElem) (d : Nat) : Bool :=
  supported elems d && touched elems d

/-- `keep.cumsum()[d]`. -/
def cumsumKeep (elems : List HElem) (d : Nat) : Nat :=
  (List.range (d + 1)).countP (keep elems)

/-- `renumber[d] = (ndofs-1) + keep.cumsum()[d]` (line 1186): the new global
dof index of a kept level dof `d` when `ndofs0` dofs were assigned on
previous levels. -/
def renumber (ndofs0 : Nat) (elems : List HElem) (d : Nat) : Int :=
  (ndofs0 : Int) - 1 + (cumsumKeep elems d : Int)

/-- `int(keep.sum())` (line 1209): the number of kept dofs of one level. -/
def levelKeepCount (lvl : HLevel) : Nat :=
  (List.range lvl.nfuncs).countP (keep lvl.elems)

/-- The renumbered kept dofs of all levels in level order, threading the
running dof count `ndofs` exactly as the level loop does. -/
def hierarchicalDofs : List HLevel → Nat → List Int
  | [], _ => []
  | lvl :: rest, ndofs0 =>
      ((List.range lvl.nfuncs).filter (keep lvl.elems)).map
        (renumber ndofs0 lvl.elems) ++
        hierarchicalDofs rest (ndofs0 + levelKeepCount lvl)

/-- The total number of dofs of the hierarchical basis. -/
def totalKeep : List HLevel → Nat
  | [] => 0
  | lvl :: rest => levelKeepCount lvl + totalKeep rest

/-- A two-level hierarchical selection used as witness data. -/
def hlvl0 : HLevel := ⟨2, [⟨[0, 1], ElemClass.inSelf⟩, ⟨[1], ElemClass.finer⟩]⟩

/-- The finer level of the witness selection. -/
def hlvl1 : HLevel := ⟨3, [⟨[0, 2], ElemClass.inSelf⟩]⟩

/-- The integer-array branch of `Basis.get_dofs` (lines 254-262):
dimensionality check, empty shortcut, `numpy.unique`, range check on the
first and last entry of the sorted unique array against `nelems`, then the
sorted-unique union of the per-element dofs. -/
def getDofsIntArr (b : PlainBasis) (ndim : Nat) (entries : List Int) :
    Except PyErr (List Nat) :=
  if ndim ≠ 1 then .error (.indexError "invalid ielem")
  else if entries.isEmpty then .ok []
  else if (npUnique entries).headI < 0 ∨
      (b.nelems : Int) ≤ (npUnique entries).getLastD 0 then
    .error (.indexError "ielem out of bounds")
  else
    .ok (npUniqueNat ((npUnique entries).flatMap fun e => b.get_dofs e.toNat))

/-- `PlainBasis.get_dofs` (lines 358-361) together with the base-class
dispatch of `Basis.get_dofs` (lines 243-268): a scalar indexes the `_dofs`
tuple with Python semantics (a negative index counts from the end, out of
range raises IndexError), an integer array goes through `getDofsIntArr`, a
boolean array is shape-checked against `(nelems,)` and converted to the
indices of its true entries, and any other value raises IndexError. -/
def getDofsDispatch (b : PlainBasis) (arg : DofArg) : Except PyErr (List Nat) :=
  match arg with
  | .scalar i =>
      match pyGet b.dofs i with
      | none => .error (.indexError "tuple index out of range")
      | some ds => .ok ds
  | .intarr ndim entries => getDofsIntArr b ndim entries
  | .boolarr shape entries =>
      if shape ≠ [b.nelems] then .error (.indexError "ielem has invalid shape")
      else getDofsIntArr b 1 (trueIndices entries)
  | .other => .error (.indexError "invalid index")

/-- A selected element of the hierarchical counterexample scenario: its
refinement level and, per level, the list of that level's basis functions
whose support contains the element. -/
structure SelElem where
  level : Nat
  supportsAt : List (Nat × List Nat)

/-- Whether the selected element lies in the support of level-`L` basis
function `d`. -/
def SelElem.supports (s : SelElem) (L d : Nat) : Bool :=
  ((lookupAssoc L s.supportsAt).getD []).contains d

/-- The claim's retention predicate, following the claim's words: a level-`L`
basis function is retained iff no selected element finer than level `L`
supports it and at least one selected element of exactly level `L` supports
it. -/
def claimKeep (sel : List SelElem) (L d : Nat) : Bool :=
  (! sel.any fun s => decide (L < s.level) && s.supports L d) &&
    (sel.any fun s => decide (s.level = L) && s.supports L d)

/-- Modelled from the spec: a one-dimensional two-level scenario with base
elements A = [0,1] and B = [1,2], B refined into B1 = [1,1.5] and
B2 = [1.5,2], the selection consisting of A, B1 and B2, and linear hat
functions (level 0: hats at the nodes 0, 1, 2; level 1: hats at 0, 0.5, 1,
1.5, 2).  Each entry records, per level, the level dofs whose support
contains the selected element. -/
def cexSelection : List SelElem :=
  [⟨0, [(0, [0, 1]), (1, [0, 1, 2])]⟩,
    ⟨1, [(0, [1, 2]), (1, [2, 3])]⟩,
    ⟨1, [(0, [1, 2]), (1, [3, 4])]⟩]

/-- The level-0 data the code's element loop produces for the scenario:
A is in the selection, B has no selected ancestor (coarser). -/
def cexLvl0 : HLevel :=
  ⟨3, [⟨[0, 1], ElemClass.inSelf⟩, ⟨[1, 2], ElemClass.coarser⟩]⟩

/-- The level-1 data of the scenario: the two children of A have the
selected proper ancestor A (finer), B1 and B2 are in the selection. -/
def cexLvl1 : HLevel :=
  ⟨5, [⟨[0, 1], ElemClass.finer⟩, ⟨[1, 2], ElemClass.finer⟩,
    ⟨[2, 3], ElemClass.inSelf⟩, ⟨[3, 4], ElemClass.inSelf⟩]⟩

-- ### Generic counting lemmas

theorem countP_range_succ (p : Nat → Bool) (n : Nat) :
    (List.range (n+1)).countP p = (List.range n).countP p + (if p n then 1 else 0) := by
  rw [List.range_succ, List.countP_append]
  simp [List.countP_cons]

/-- Counting a downward-closed predicate over `List.range n` yields a prefix:
membership below the count characterises the predicate. -/
theorem countP_downward_closed_iff {p : Nat → Bool} :
    ∀ n, (∀ i j, i ≤ j → j < n → p j = true → p i = true) →
      ∀ i < n, (p i = true ↔ i < (List.range n).countP p) := by
  intro n
  induction n with
  | zero => intro _ i hi; omega
  | succ n ih =>
    intro hdc i hi
    rw [countP_range_succ]
    by_cases hpn : p n = true
    · have hall : ∀ j < n + 1, p j = true := fun j hj =>
        hdc j n (by omega) (by omega) hpn
      have hcnt : (List.range n).countP p = n := by
        rw [List.countP_eq_length.mpr]
        · exact List.length_range n
        · intro a ha; exact hall a (by simp at ha; omega)
      simp [hpn, hcnt]
      constructor
      · intro _; omega
      · intro _; exact hall i hi
    · have hpn' : p n = false := by simpa using hpn
      simp [hpn']
      rcases Nat.lt_succ_iff_lt_or_eq.mp hi with h | h
      · exact ih (fun a c hac hcn => hdc a c hac (by omega)) i h
      · subst h
        have : (List.range i).countP p ≤ i := by
          calc (List.range i).countP p ≤ (List.range i).length := List.countP_le_length _
          _ = i := List.length_range i
        constructor
        · intro hc; exact absurd hc hpn
        · intro hc; omega

theorem offsetsOf_getD (lens : List Nat) (i : Nat) (hi : i < lens.length + 1) :
    (offsetsOf lens).getD i 0 = (lens.take i).sum := by
  unfold offsetsOf
  rw [List.getD_eq_getElem?_getD, List.getElem?_map]
  simp [List.getElem?_range hi]

theorem offsetsOf_mono (lens : List Nat) : Monotone fun i => (lens.take i).sum := by
  intro a b hab
  have : lens.take b = lens.take a ++ (lens.drop a).take (b - a) := by
    rw [← List.take_add]; congr 1; omega
  simp only [this, List.sum_append]
  omega

theorem contains_true_iff {l : List Nat} {v : Nat} : l.contains v = true ↔ v ∈ l := by
  simp [List.contains, List.elem_iff]

theorem indexOf_pairwise_lt {l : List Nat} (hl : l.Pairwise (· < ·)) :
    ∀ {i : Nat}, (hi : i < l.length) → l.indexOf (l.get ⟨i, hi⟩) = i := by
  induction l with
  | nil => intro i hi; simp at hi
  | cons a t ih =>
    intro i hi
    match i with
    | 0 => simp [List.indexOf_cons]
    | Nat.succ j =>
      have hat : ∀ x ∈ t, a < x := fun x hx => (List.pairwise_cons.mp hl).1 x hx
      have hj : j < t.length := by simpa using hi
      have hmem : t.get ⟨j, hj⟩ ∈ t := List.get_mem t j hj
      have hne : (a == t.get ⟨j, hj⟩) = false := by
        simp only [beq_eq_false_iff_ne]
        exact Nat.ne_of_lt (hat _ hmem)
      simp only [List.get_cons_succ, List.indexOf_cons, hne, cond_false]
      rw [ih (List.pairwise_cons.mp hl).2 hj]

theorem countP_lt_pairwise {l : List Nat} (hl : l.Pairwise (· < ·)) {v : Nat}
    (hv : v ∈ l) : l.countP (fun x => decide (x < v)) = l.indexOf v := by
  induction l with
  | nil => simp at hv
  | cons a t ih =>
    have hat : ∀ x ∈ t, a < x := fun x hx => (List.pairwise_cons.mp hl).1 x hx
    rcases List.mem_cons.mp hv with rfl | hvt
    · have : t.countP (fun x => decide (x < v)) = 0 := by
        rw [List.countP_eq_zero]
        intro x hx
        have := hat x hx
        simp only [decide_eq_true_eq]
        omega
      simp [List.countP_cons, this, List.indexOf_cons]
    · have hav : a < v := hat v hvt
      have hne : (a == v) = false := by
        simp only [beq_eq_false_iff_ne]; exact Nat.ne_of_lt hav
      simp only [List.countP_cons, List.indexOf_cons, hne, cond_false,
        ih (List.pairwise_cons.mp hl).2 hvt, decide_eq_true_eq]
      simp [hav, Nat.add_comm]

theorem mem_sorted_index_mask {a b : List Nat} (ha : a.Pairwise (· < ·))
    {d : Nat} (hd : d < a.length) :
    d ∈ sorted_index_mask a b ↔ a.get ⟨d, hd⟩ ∈ b := by
  unfold sorted_index_mask
  simp only [List.mem_map, List.mem_filter, contains_true_iff]
  constructor
  · rintro ⟨v, ⟨hvb, hva⟩, hidx⟩
    subst hidx
    rw [List.indexOf_get hd]
    exact hvb
  · intro hmem
    exact ⟨a.get ⟨d, hd⟩, ⟨hmem, List.get_mem a d hd⟩, indexOf_pairwise_lt ha hd⟩

theorem pairwise_lt_sortedList_iff {α : Type} [LinearOrder α] (l : List α) :
    (sortedList l).Pairwise (· < ·) ↔ l.Nodup := by
  have hperm : l.Perm (sortedList l) := (List.perm_insertionSort (· ≤ ·) l).symm
  have hsorted : (sortedList l).Pairwise (· ≤ ·) :=
    List.sorted_insertionSort (· ≤ ·) l
  constructor
  · intro h
    have hnd : (sortedList l).Nodup := h.imp fun hab => ne_of_lt hab
    exact hperm.nodup_iff.mpr hnd
  · intro h
    have hnd : (sortedList l).Nodup := hperm.nodup_iff.mp h
    exact (hsorted.and hnd).imp fun hab => lt_of_le_of_ne hab.1 hab.2

-- ### Round-trip and sortedness for PlainBasis (default get_support)

/-- Round trip for the default `Basis.get_support` implementation used by
`PlainBasis`: an element is in the computed support of a dof exactly when the
dof is among the element's dofs. -/
theorem computedSupport_roundtrip (nelems : Nat) (getdofs : Nat → List Nat)
    (e d : Nat) (he : e < nelems) :
    e ∈ computedSupport nelems getdofs d ↔ d ∈ getdofs e := by
  unfold computedSupport
  simp [List.mem_filter, List.mem_range, he, contains_true_iff]

/-- The computed support is strictly increasing (sorted and duplicate-free). -/
theorem computedSupport_pairwise (nelems : Nat) (getdofs : Nat → List Nat)
    (d : Nat) : (computedSupport nelems getdofs d).Pairwise (· < ·) :=
  List.Pairwise.sublist (List.filter_sublist _) (List.pairwise_lt_range nelems)

-- ### Round-trip for DiscontBasis

theorem DiscontBasis.offsets_getD (b : DiscontBasis) (i : Nat) (hi : i < b.nelems + 1) :
    b.offsets.getD i 0 = ((b.coeffs.map List.length).take i).sum := by
  unfold DiscontBasis.offsets
  exact offsetsOf_getD _ i (by simpa [DiscontBasis.nelems] using hi)

theorem DiscontBasis.offsets_dropLast (b : DiscontBasis) :
    b.offsets.dropLast =
      (List.range b.nelems).map fun i => ((b.coeffs.map List.length).take i).sum := by
  unfold DiscontBasis.offsets offsetsOf
  have hlen : (b.coeffs.map List.length).length = b.nelems := by
    simp [DiscontBasis.nelems]
  rw [hlen, List.range_succ, List.map_append, List.map_singleton, List.dropLast_concat]

/-- Round trip for `DiscontBasis`: the single element returned by the
closed-form `get_support` is exactly the element whose dof range contains the
dof. -/
theorem DiscontBasis.discont_roundtrip (b : DiscontBasis) (e d : Nat)
    (he : e < b.nelems) (hd : d < b.ndofs) :
    e ∈ b.get_support d ↔ d ∈ b.get_dofs e := by
  set lens := b.coeffs.map List.length with hlens
  set off := fun i => (lens.take i).sum with hoff
  have hlen : lens.length = b.nelems := by simp [hlens, DiscontBasis.nelems]
  set p := fun i => decide (off i ≤ d) with hp
  have hdc : ∀ i j, i ≤ j → p j = true → p i = true := by
    intro i j hij hj
    simp only [hp, decide_eq_true_eq] at hj ⊢
    exact le_trans (offsetsOf_mono lens hij) hj
  set c := (List.range b.nelems).countP p with hc
  have hchar : ∀ i < b.nelems, (p i = true ↔ i < c) :=
    countP_downward_closed_iff b.nelems fun i j hij _ => hdc i j hij
  have hcle : c ≤ b.nelems := by
    calc c ≤ (List.range b.nelems).length := List.countP_le_length p
    _ = b.nelems := List.length_range _
  have hcpos : 0 < c := by
    have h0 : p 0 = true := by simp [hp, hoff]
    exact (hchar 0 (by omega)).mp h0
  have hsupp : b.get_support d = [c - 1] := by
    unfold DiscontBasis.get_support searchsortedRight
    rw [b.offsets_dropLast, List.countP_map]
    rfl
  have hofftotal : off b.nelems = b.ndofs := by
    simp only [hoff, ← hlen, List.take_length]
    simp [hlens, DiscontBasis.ndofs]
  have hdofs : d ∈ b.get_dofs e ↔ off e ≤ d ∧ d < off (e+1) := by
    unfold DiscontBasis.get_dofs
    rw [b.offsets_getD e (by omega), b.offsets_getD (e+1) (by omega)]
    rw [List.mem_range'_1]
    simp only [← hlens, hoff]
    have hmono : (lens.take e).sum ≤ (lens.take (e+1)).sum := offsetsOf_mono lens (by omega)
    omega
  rw [hsupp, hdofs]
  simp only [List.mem_singleton]
  constructor
  · intro heq
    have hec : e < c := by omega
    have h1 : off e ≤ d := by
      have := (hchar e he).mpr hec
      simpa [hp] using this
    refine ⟨h1, ?_⟩
    by_cases hen : e + 1 < b.nelems
    · have h3 : ¬ (off (e+1) ≤ d) := by
        intro hcon
        have hpt : p (e+1) = true := by simp [hp, hcon]
        have := (hchar (e+1) hen).mp hpt
        omega
      omega
    · have hen' : e + 1 = b.nelems := by omega
      rw [hen', hofftotal]
      exact hd
  · rintro ⟨h1, h2⟩
    have hec : e < c := (hchar e he).mp (by simp [hp, h1])
    by_cases hen : e + 1 < b.nelems
    · have : ¬ (e + 1 < c) := by
        intro hcon
        have hptrue := (hchar (e+1) hen).mpr hcon
        simp only [hp, decide_eq_true_eq] at hptrue
        omega
      omega
    · omega

/-- `DiscontBasis.get_support` returns a strictly increasing array. -/
theorem DiscontBasis.discont_support_pairwise (b : DiscontBasis) (d : Nat) :
    (b.get_support d).Pairwise (· < ·) := by
  unfold DiscontBasis.get_support
  simp

theorem MaskedBasis.masked_roundtrip (m : MaskedBasis) (hv : m.valid)
    (hpar : m.parent.roundtrip) (e d : Nat) (he : e < m.parent.nelems)
    (hd : d < m.ndofs) : e ∈ m.get_support d ↔ d ∈ m.get_dofs e := by
  obtain ⟨hinc, hrange⟩ := hv
  have hd' : d < m.indices.length := hd
  have hgetD : m.indices.getD d 0 = m.indices.get ⟨d, hd'⟩ := by
    rw [List.getD_eq_getElem?_getD, List.getElem?_eq_getElem hd']
    rfl
  unfold MaskedBasis.get_support MaskedBasis.get_dofs
  rw [hgetD, hpar e he _ (hrange _ (List.get_mem m.indices d hd')),
    mem_sorted_index_mask hinc hd']

theorem boolMask_map_eq_filter_zip {α β : Type} (p : β → Bool) :
    ∀ (xs : List α) (ys : List β), xs.length = ys.length →
      boolMask xs (ys.map p) = ((xs.zip ys).filter fun q => p q.2).map Prod.fst := by
  intro xs
  induction xs with
  | nil => intro ys _; simp [boolMask]
  | cons x xs ih =>
    intro ys hlen
    cases ys with
    | nil => simp at hlen
    | cons y ys =>
      have hlen' : xs.length = ys.length := by simpa using hlen
      by_cases hp : p y = true
      · simp [boolMask, List.filter_cons, hp, ← ih ys hlen', boolMask]
      · have hp' : p y = false := by simpa using hp
        simp [boolMask, List.filter_cons, hp', ← ih ys hlen', boolMask]

/-- The `MaskedBasis` coefficient computation agrees with its specification:
rows survive exactly when their parent dof is one of the kept indices. -/
theorem MaskedBasis.coefficients_spec (m : MaskedBasis) (e : Nat)
    (hlen : (m.parent.get_coefficients e).length = (m.parent.get_dofs e).length) :
    m.get_coefficients e =
      maskedCoefficientsSpec m.indices (m.parent.get_dofs e) (m.parent.get_coefficients e) := by
  unfold MaskedBasis.get_coefficients maskedCoefficientsSpec sorted_contains
  rw [boolMask_map_eq_filter_zip _ _ _ hlen]
  congr 1
  apply List.filter_congr
  intro q _
  simp [contains_true_iff]

theorem npUniqueNat_mem {l : List Nat} {v : Nat} : v ∈ npUniqueNat l ↔ v ∈ l := by
  simp [npUniqueNat, List.mem_dedup, List.mem_insertionSort]

theorem npUniqueNat_pairwise (l : List Nat) : (npUniqueNat l).Pairwise (· < ·) := by
  have hle : (npUniqueNat l).Pairwise (· ≤ ·) :=
    List.Pairwise.sublist (List.dedup_sublist _) (List.sorted_insertionSort (· ≤ ·) l)
  have hnd : (npUniqueNat l).Nodup := List.nodup_dedup _
  exact (hle.and hnd).imp fun hab => lt_of_le_of_ne hab.1 hab.2

theorem PrunedBasis.pruned_roundtrip (b : PrunedBasis)
    (htm : b.transmap.Pairwise (· < ·))
    (htb : ∀ t ∈ b.transmap, t < b.parent.nelems)
    (hpd : ∀ e < b.parent.nelems, ∀ v ∈ b.parent.get_dofs e, v < b.parent.ndofs)
    (hpar : b.parent.roundtrip) (e d : Nat)
    (he : e < b.transmap.length) (hd : d < b.dofmap.length) :
    e ∈ b.get_support d ↔ d ∈ b.get_dofs e := by
  have hdm : b.dofmap.Pairwise (· < ·) := npUniqueNat_pairwise _
  have hgetDd : b.dofmap.getD d 0 = b.dofmap.get ⟨d, hd⟩ := by
    rw [List.getD_eq_getElem?_getD, List.getElem?_eq_getElem hd]; rfl
  have hgetDe : b.transmap.getD e 0 = b.transmap.get ⟨e, he⟩ := by
    rw [List.getD_eq_getElem?_getD, List.getElem?_eq_getElem he]; rfl
  have hdmmem : b.dofmap.get ⟨d, hd⟩ ∈ b.dofmap := List.get_mem _ d hd
  have hdmlt : b.dofmap.get ⟨d, hd⟩ < b.parent.ndofs := by
    rcases List.mem_flatMap.mp (npUniqueNat_mem.mp hdmmem) with ⟨t, htmem, hvd⟩
    exact hpd t (htb t htmem) _ hvd
  have htmlt : b.transmap.get ⟨e, he⟩ < b.parent.nelems :=
    htb _ (List.get_mem _ e he)
  unfold PrunedBasis.get_support PrunedBasis.get_dofs
  rw [hgetDd, hgetDe, mem_sorted_index_mask htm he, hpar _ htmlt _ hdmlt]
  simp only [List.mem_map]
  constructor
  · intro hmem
    refine ⟨b.dofmap.get ⟨d, hd⟩, hmem, ?_⟩
    rw [show searchsortedLeft b.dofmap (b.dofmap.get ⟨d, hd⟩) =
        b.dofmap.countP (fun x => decide (x < b.dofmap.get ⟨d, hd⟩)) from rfl,
      countP_lt_pairwise hdm hdmmem, indexOf_pairwise_lt hdm hd]
  · rintro ⟨v, hvmem, hidx⟩
    have hvdm : v ∈ b.dofmap := by
      unfold PrunedBasis.dofmap
      exact npUniqueNat_mem.mpr (List.mem_flatMap.mpr ⟨_, List.get_mem _ e he, hvmem⟩)
    have hvd : v = b.dofmap.get ⟨d, hd⟩ := by
      have h1 : searchsortedLeft b.dofmap v = b.dofmap.indexOf v :=
        countP_lt_pairwise hdm hvdm
      have h2 : b.dofmap.indexOf v = d := by rw [← h1, hidx]
      have h3 : b.dofmap.indexOf v < b.dofmap.length := List.indexOf_lt_length.mpr hvdm
      have h4 := List.indexOf_get h3
      rw [← h4]
      congr 1
      exact Fin.ext h2
    rw [← hvd]
    exact hvmem

theorem sorted_index_mask_pairwise {a b : List Nat} (ha : a.Pairwise (· < ·))
    (hb : b.Pairwise (· < ·)) : (sorted_index_mask a b).Pairwise (· < ·) := by
  unfold sorted_index_mask
  rw [List.pairwise_map]
  have hfp : (b.filter fun v => a.contains v).Pairwise (· < ·) :=
    List.Pairwise.sublist (List.filter_sublist _) hb
  refine List.Pairwise.imp_of_mem ?_ hfp
  intro x y hx hy hxy
  have hxa : x ∈ a := contains_true_iff.mp (List.of_mem_filter hx)
  have hya : y ∈ a := contains_true_iff.mp (List.of_mem_filter hy)
  have hix : a.indexOf x < a.length := List.indexOf_lt_length.mpr hxa
  have hiy : a.indexOf y < a.length := List.indexOf_lt_length.mpr hya
  by_contra hcon
  push_neg at hcon
  rcases Nat.lt_or_ge (a.indexOf y) (a.indexOf x) with h | h
  · have := (List.pairwise_iff_get.mp ha) ⟨a.indexOf y, hiy⟩ ⟨a.indexOf x, hix⟩ h
    rw [List.indexOf_get hiy, List.indexOf_get hix] at this
    omega
  · have heq : a.indexOf x = a.indexOf y := by omega
    have hgx : a.get ⟨a.indexOf x, hix⟩ = x := List.indexOf_get hix
    have hgy : a.get ⟨a.indexOf y, hiy⟩ = y := List.indexOf_get hiy
    have hxyeq : x = y := by
      rw [← hgx, ← hgy]
      congr 1
      exact Fin.ext heq
    omega

-- ### Per-axis characterisation lemmas for StructuredBasis

theorem mem_intArange {a b j : Int} : j ∈ intArange a b ↔ a ≤ j ∧ j < b := by
  unfold intArange
  rw [List.mem_map]
  constructor
  · rintro ⟨k, hk, rfl⟩
    rw [List.mem_range] at hk
    omega
  · intro ⟨h1, h2⟩
    refine ⟨(j - a).toNat, List.mem_range.mpr (by omega), by omega⟩

theorem countP_eq_range_countP {α : Type} (l : List α) (p : α → Bool) (d₀ : α) :
    l.countP p = (List.range l.length).countP fun i => p (l.getD i d₀) := by
  induction l with
  | nil => simp
  | cons a t ih =>
    rw [List.countP_cons, List.length_cons, List.range_succ_eq_map, List.countP_cons,
      List.countP_map]
    simp only [List.getD_cons_zero, List.getD_cons_succ, Function.comp]
    rw [ih]
    have hfun : ((fun i => p ((a :: t).getD i d₀)) ∘ Nat.succ) =
        (fun i => p (t.getD i d₀)) := by
      funext i
      simp [List.getD_cons_succ]
    rw [hfun]

theorem getD_mono_of_pairwise_le {l : List Int} (h : l.Pairwise (· ≤ ·))
    {i j : Nat} (hij : i ≤ j) (hj : j < l.length) : l.getD i 0 ≤ l.getD j 0 := by
  rcases Nat.lt_or_ge i j with hlt | hge
  · have hi : i < l.length := by omega
    have := (List.pairwise_iff_get.mp h) ⟨i, hi⟩ ⟨j, hj⟩ hlt
    rwa [List.getD_eq_getElem?_getD, List.getElem?_eq_getElem hi,
      List.getD_eq_getElem?_getD, List.getElem?_eq_getElem hj]
  · have : i = j := by omega
    subst this
    exact le_refl _

/-- For a sorted array, `searchsorted(..., side='right')` counts a prefix: an
index is below the count exactly when its entry does not exceed the value. -/
theorem searchsortedRight_char {l : List Int} (hl : l.Pairwise (· ≤ ·)) (v : Int)
    {e : Nat} (he : e < l.length) :
    l.getD e 0 ≤ v ↔ e < searchsortedRight l v := by
  unfold searchsortedRight
  rw [countP_eq_range_countP l _ 0]
  have := @countP_downward_closed_iff (fun i => decide (l.getD i 0 ≤ v)) l.length
    (fun i j hij hj hpj => by
      simp only [decide_eq_true_eq] at hpj ⊢
      exact le_trans (getD_mono_of_pairwise_le hl hij hj) hpj) e he
  simpa using this

theorem searchsortedRight_le_length {α : Type} [LinearOrder α] (l : List α) (v : α) :
    searchsortedRight l v ≤ l.length := List.countP_le_length _

theorem mem_axisDofs_iff {st sp : List Int} {nd : Nat} {ix : Nat} {x : Int} :
    x ∈ axisDofs st sp nd ix ↔
      ∃ j : Int, st.getD ix 0 ≤ j ∧ j < sp.getD ix 0 ∧ j % (nd : Int) = x := by
  unfold axisDofs
  simp only [List.mem_map, mem_intArange]
  constructor
  · rintro ⟨j, ⟨h1, h2⟩, rfl⟩
    exact ⟨j, h1, h2, rfl⟩
  · rintro ⟨j, h1, h2, h3⟩
    exact ⟨j, ⟨h1, h2⟩, h3⟩

/-- Characterisation of the while-loop iteration count of
`StructuredBasis.get_support`: iteration `k` happens exactly when
`dof_i + k*ndofs_i` is below `stop_dofs_i[-1]`. -/
theorem axisSupportNiter_char {sp : List Int} {nd : Nat} {d0 : Nat} (hnd : 0 < nd)
    (k : Nat) : k < axisSupportNiter sp nd d0 ↔
      (d0 : Int) + k * nd < sp.getD (sp.length - 1) 0 := by
  unfold axisSupportNiter
  set SL := sp.getD (sp.length - 1) 0 with hSL
  by_cases hbr : (d0 : Int) < SL
  · rw [if_pos hbr]
    set M := (SL - d0).toNat with hM
    have hMpos : 0 < M := by omega
    have hMint : (M : Int) = SL - d0 := by omega
    have hiff : k * nd < M ↔ (d0 : Int) + k * nd < SL := by
      have h1 : ((k * nd : Nat) : Int) = (k : Int) * nd := by push_cast; ring
      constructor
      · intro h
        have h2 : ((k * nd : Nat) : Int) < M := by exact_mod_cast h
        rw [h1] at h2
        omega
      · intro h
        have h2 : ((k * nd : Nat) : Int) < M := by rw [h1]; omega
        exact_mod_cast h2
    rw [← hiff]
    constructor
    · intro hk
      have h1 : (k + 1) * nd ≤ M + nd - 1 :=
        (Nat.le_div_iff_mul_le hnd).mp (by omega)
      have h2 : (k + 1) * nd = k * nd + nd := by ring
      omega
    · intro hk
      have h2 : (k + 1) * nd = k * nd + nd := by ring
      have h1 : (k + 1) * nd ≤ M + nd - 1 := by omega
      have := (Nat.le_div_iff_mul_le hnd).mpr h1
      omega
  · rw [if_neg hbr]
    push_neg at hbr
    constructor
    · intro h; omega
    · intro h
      exfalso
      have hge : (0:Int) ≤ (k : Int) * nd := by positivity
      omega

/-- The per-axis support computed by searchsorted agrees with per-axis dof
membership: axis element `e` supports axis dof `d0` exactly when `d0` is among
the (wrapped) dofs of `e`. -/
theorem mem_axisSupport_iff {st sp : List Int} {nd nt : Nat} {d0 e : Nat}
    (hlen : st.length = nt) (hlen2 : sp.length = nt)
    (hst : st.Pairwise (· ≤ ·)) (hsp : sp.Pairwise (· ≤ ·))
    (hnn : ∀ x ∈ st, 0 ≤ x) (hnd : 0 < nd) (hd0 : d0 < nd) (he : e < nt) :
    e ∈ axisSupport st sp nd d0 ↔ ((d0 : Int) ∈ axisDofs st sp nd e) := by
  have hnt : 0 < nt := by omega
  have hestlen : e < st.length := by omega
  have hesplen : e < sp.length := by omega
  unfold axisSupport
  rw [npUniqueNat_mem, List.mem_flatMap, mem_axisDofs_iff]
  constructor
  · rintro ⟨k, hk, hmem⟩
    rw [List.mem_range] at hk
    rw [List.mem_range'_1] at hmem
    obtain ⟨h1, h2a⟩ := hmem
    have h2 : e < searchsortedRight st ((d0 : Int) + k * nd) := by omega
    have hstv : st.getD e 0 ≤ (d0 : Int) + k * nd :=
      (searchsortedRight_char hst _ hestlen).mpr h2
    have hspv : (d0 : Int) + k * nd < sp.getD e 0 := by
      by_contra hcon
      push_neg at hcon
      have := (searchsortedRight_char hsp _ hesplen).mp hcon
      omega
    refine ⟨(d0 : Int) + (k : Int) * nd, hstv, hspv, ?_⟩
    rw [Int.add_mul_emod_self]
    exact Int.emod_eq_of_lt (by omega) (by omega)
  · rintro ⟨j, h1, h2, h3⟩
    have hstmem : st.getD e 0 ∈ st := by
      rw [List.getD_eq_getElem?_getD, List.getElem?_eq_getElem hestlen]
      exact List.getElem_mem _
    have hj0 : 0 ≤ j := le_trans (hnn _ hstmem) h1
    set k : Nat := (j / nd).toNat with hk
    have hjdiv : (0:Int) ≤ j / nd := Int.ediv_nonneg hj0 (by omega)
    have hkint : (k : Int) = j / nd := Int.toNat_of_nonneg hjdiv
    have h5 : (nd : Int) * (j / nd) + j % nd = j := Int.ediv_add_emod j nd
    have hjeq : (d0 : Int) + k * nd = j := by
      rw [hkint]
      rw [h3] at h5
      linarith [mul_comm (nd : Int) (j / nd)]
    have hjSL : j < sp.getD (sp.length - 1) 0 := by
      have := getD_mono_of_pairwise_le hsp
        (show e ≤ sp.length - 1 by omega) (show sp.length - 1 < sp.length by omega)
      omega
    refine ⟨k, List.mem_range.mpr ((axisSupportNiter_char hnd k).mpr (by omega)),
      List.mem_range'_1.mpr ⟨?_, ?_⟩⟩
    · by_contra hcon
      push_neg at hcon
      have := (searchsortedRight_char hsp ((d0:Int) + k * nd) hesplen).mpr
        (by omega : e < searchsortedRight sp ((d0:Int) + k * nd))
      omega
    · have := (searchsortedRight_char hst ((d0:Int) + k * nd) hestlen).mp (by omega)
      omega

theorem axisDofs_bounds {st sp : List Int} {nd : Nat} {ix : Nat} (hnd : 0 < nd) :
    ∀ v ∈ axisDofs st sp nd ix, 0 ≤ v ∧ v < nd := by
  intro v hv
  unfold axisDofs at hv
  rcases List.mem_map.mp hv with ⟨j, _, rfl⟩
  constructor
  · exact Int.emod_nonneg j (by omega)
  · have := Int.emod_lt_of_pos j (show (0:Int) < nd by omega)
    omega

theorem axisSupport_lt_length {st sp : List Int} {nd : Nat} {d0 : Nat} :
    ∀ x ∈ axisSupport st sp nd d0, x < st.length := by
  intro x hx
  unfold axisSupport at hx
  rcases List.mem_flatMap.mp (npUniqueNat_mem.mp hx) with ⟨k, _, hmem⟩
  rw [List.mem_range'_1] at hmem
  have hle : searchsortedRight st ((d0 : Int) + (k : Int) * nd) ≤ st.length :=
    searchsortedRight_le_length st _
  omega

theorem dofsChain_nonneg :
    ∀ (quads : List (List Int × List Int × Nat × Nat)) (ixs : List Nat) (x : Int),
      (∀ q ∈ quads, 0 < q.2.2.1) → dofsChain quads ixs x → 0 ≤ x := by
  intro quads
  induction quads with
  | nil => intro ixs x _ h; rw [show dofsChain [] ixs x = (x = 0) from rfl] at h; omega
  | cons q rest ih =>
    intro ixs x hnd h
    obtain ⟨st, sp, nd, nt⟩ := q
    cases ixs with
    | nil => rw [show dofsChain ((st,sp,nd,nt) :: rest) [] x = (x = 0) from rfl] at h; omega
    | cons ix ixs =>
      obtain ⟨v, y, hv, hy, rfl⟩ := h
      have h1 := @axisDofs_bounds st sp nd ix
        (show 0 < nd from hnd (st,sp,nd,nt) (by simp)) v hv
      have h2 := ih ixs y (fun q hq => hnd q (by simp [hq])) hy
      have : (0:Int) ≤ v * (prodND rest : Int) :=
        mul_nonneg h1.1 (by positivity)
      omega

theorem dofsChain_lt :
    ∀ (quads : List (List Int × List Int × Nat × Nat)) (ixs : List Nat) (x : Int),
      (∀ q ∈ quads, 0 < q.2.2.1) → quads.length = ixs.length →
      dofsChain quads ixs x → x < (prodND quads : Int) := by
  intro quads
  induction quads with
  | nil =>
    intro ixs x _ _ h
    rw [show dofsChain [] ixs x = (x = 0) from rfl] at h
    simp [prodND]
    omega
  | cons q rest ih =>
    intro ixs x hnd hlen h
    obtain ⟨st, sp, nd, nt⟩ := q
    cases ixs with
    | nil => simp at hlen
    | cons ix ixs =>
      obtain ⟨v, y, hv, hy, rfl⟩ := h
      have h1 := @axisDofs_bounds st sp nd ix
        (show 0 < nd from hnd (st,sp,nd,nt) (by simp)) v hv
      have h2 := ih ixs y (fun q hq => hnd q (by simp [hq])) (by simpa using hlen) hy
      have h3 := dofsChain_nonneg rest ixs y (fun q hq => hnd q (by simp [hq])) hy
      have hexp : prodND ((st,sp,nd,nt) :: rest) = nd * prodND rest := by
        simp [prodND]
      rw [hexp]
      have hvP : v * (prodND rest : Int) ≤ (nd - 1) * (prodND rest : Int) := by
        apply mul_le_mul_of_nonneg_right _ (by positivity)
        omega
      have hring : ((nd : Int) - 1) * (prodND rest : Int) + (prodND rest : Int) =
          (nd : Int) * (prodND rest : Int) := by ring
      have hcast : ((nd * prodND rest : Nat) : Int) = (nd : Int) * (prodND rest : Int) := by
        push_cast; ring
      omega

-- ### Characterising structDofs and the dof digits

theorem structDofs_acc_mem
    (quads : List (List Int × List Int × Nat × Nat)) :
    ∀ (ixs : List Nat) (acc : List Int) (x : Int), quads.length = ixs.length →
      (x ∈ structDofs quads ixs acc ↔
        ∃ a ∈ acc, ∃ y, dofsChain quads ixs y ∧ x = a * (prodND quads : Int) + y) := by
  induction quads with
  | nil =>
    intro ixs acc x hlen
    have hix : ixs = [] := by
      cases ixs with
      | nil => rfl
      | cons _ _ => simp at hlen
    subst hix
    rw [show structDofs [] [] acc = acc from rfl]
    simp only [show ∀ y, dofsChain [] [] y = (y = 0) from fun y => rfl]
    constructor
    · intro hx
      exact ⟨x, hx, 0, rfl, by simp [prodND]⟩
    · rintro ⟨a, ha, y, rfl, rfl⟩
      simpa [prodND] using ha
  | cons q rest ih =>
    intro ixs acc x hlen
    obtain ⟨st, sp, nd, nt⟩ := q
    cases ixs with
    | nil => simp at hlen
    | cons ix ixs =>
      rw [show structDofs ((st,sp,nd,nt) :: rest) (ix :: ixs) acc =
        structDofs rest ixs (acc.flatMap fun a =>
          (axisDofs st sp nd ix).map fun v => a * nd + v) from rfl]
      rw [ih ixs _ x (by simpa using hlen)]
      constructor
      · rintro ⟨a', ha', y, hy, rfl⟩
        rcases List.mem_flatMap.mp ha' with ⟨a, ha, hmem⟩
        rcases List.mem_map.mp hmem with ⟨v, hv, rfl⟩
        refine ⟨a, ha, v * (prodND rest : Int) + y, ⟨v, y, hv, hy, rfl⟩, ?_⟩
        have : prodND ((st,sp,nd,nt) :: rest) = nd * prodND rest := by simp [prodND]
        rw [this]
        push_cast
        ring
      · rintro ⟨a, ha, y', ⟨v, y, hv, hy, rfl⟩, rfl⟩
        refine ⟨a * nd + v, List.mem_flatMap.mpr ⟨a, ha, List.mem_map.mpr ⟨v, hv, rfl⟩⟩,
          y, hy, ?_⟩
        have : prodND ((st,sp,nd,nt) :: rest) = nd * prodND rest := by simp [prodND]
        rw [this]
        push_cast
        ring

/-- Peeling the last axis off the digit decomposition. -/
theorem getIndicesAux_append (ns : List Nat) (n : Nat) (e : Nat) :
    getIndicesAux (ns ++ [n]) e =
      ((getIndicesAux ns (e / n)).1 ++ [e % n], (getIndicesAux ns (e / n)).2) := by
  induction ns generalizing e with
  | nil => rfl
  | cons m ms ih =>
    show ((getIndicesAux (ms ++ [n]) e).2 % m :: (getIndicesAux (ms ++ [n]) e).1,
      (getIndicesAux (ms ++ [n]) e).2 / m) = _
    rw [ih e]
    rfl

theorem getIndicesAux_length (ns : List Nat) (e : Nat) :
    (getIndicesAux ns e).1.length = ns.length := by
  induction ns generalizing e with
  | nil => rfl
  | cons m ms ih =>
    show ((getIndicesAux ms e).2 % m :: (getIndicesAux ms e).1).length = ms.length + 1
    simp [ih e]

/-- Splitting a `dofsChain` at its last axis. -/
theorem dofsChain_append (q : List Int × List Int × Nat × Nat) :
    ∀ (quads : List (List Int × List Int × Nat × Nat)) (ixs : List Nat)
      (ix : Nat) (x : Int), quads.length = ixs.length →
      (dofsChain (quads ++ [q]) (ixs ++ [ix]) x ↔
        ∃ y v, dofsChain quads ixs y ∧ v ∈ axisDofs q.1 q.2.1 q.2.2.1 ix ∧
          x = y * (q.2.2.1 : Int) + v) := by
  intro quads
  induction quads with
  | nil =>
    intro ixs ix x hlen
    have hix : ixs = [] := by
      cases ixs with
      | nil => rfl
      | cons _ _ => simp at hlen
    subst hix
    obtain ⟨st, sp, nd, nt⟩ := q
    show (∃ v y, v ∈ axisDofs st sp nd ix ∧ (y = 0) ∧ x = v * (prodND [] : Int) + y) ↔ _
    constructor
    · rintro ⟨v, y, hv, rfl, rfl⟩
      exact ⟨0, v, rfl, hv, by simp [prodND]⟩
    · rintro ⟨y, v, hy, hv, rfl⟩
      rw [show dofsChain [] [] y = (y = 0) from rfl] at hy
      subst hy
      exact ⟨v, 0, hv, rfl, by simp [prodND]⟩
  | cons p rest ih =>
    intro ixs ix x hlen
    obtain ⟨pst, psp, pnd, pnt⟩ := p
    cases ixs with
    | nil => simp at hlen
    | cons jx ixs =>
      obtain ⟨st, sp, nd, nt⟩ := q
      show (∃ v y, v ∈ axisDofs pst psp pnd jx ∧
          dofsChain (rest ++ [(st,sp,nd,nt)]) (ixs ++ [ix]) y ∧
          x = v * (prodND (rest ++ [(st,sp,nd,nt)]) : Int) + y) ↔ _
      have hprod : prodND (rest ++ [(st,sp,nd,nt)]) = prodND rest * nd := by
        simp [prodND]
      constructor
      · rintro ⟨v, y, hv, hy, rfl⟩
        rcases (ih ixs ix y (by simpa using hlen)).mp hy with ⟨y2, w, hy2, hw, rfl⟩
        refine ⟨v * (prodND rest : Int) + y2, w,
          ⟨v, y2, hv, hy2, rfl⟩, hw, ?_⟩
        rw [hprod]
        push_cast
        ring
      · rintro ⟨y2, w, ⟨v, y3, hv, hy3, rfl⟩, hw, rfl⟩
        refine ⟨v, y3 * (nd : Int) + w,
          hv, (ih ixs ix _ (by simpa using hlen)).mpr ⟨y3, w, hy3, hw, rfl⟩, ?_⟩
        rw [hprod]
        push_cast
        ring

/-- The forward dof composition with the digit decomposition of the element
index is equivalent to the reversed axis-by-axis dof condition. -/
theorem dofsChain_digits_iff (quads : List (List Int × List Int × Nat × Nat)) :
    ∀ (d e : Nat), (∀ q ∈ quads, 0 < q.2.2.1) →
      (dofsChain quads (getIndicesAux (quads.map fun q => q.2.2.2) e).1 (d : Int) ↔
        dofsCond quads.reverse d e) := by
  induction quads using List.reverseRecOn with
  | nil =>
    intro d e _
    simp only [List.map_nil, List.reverse_nil]
    rw [show (getIndicesAux ([] : List Nat) e).1 = [] from rfl]
    rw [show dofsChain [] [] (d : Int) = ((d : Int) = 0) from rfl]
    rw [show dofsCond [] d e = (d = 0) from rfl]
    exact ⟨fun h => by exact_mod_cast h, fun h => by exact_mod_cast h⟩
  | append_singleton qs q ih =>
    intro d e hnd
    obtain ⟨st, sp, nd, nt⟩ := q
    have hndq : 0 < nd := hnd (st,sp,nd,nt) (by simp)
    have hndqs : ∀ p ∈ qs, 0 < p.2.2.1 := fun p hp => hnd p (by simp [hp])
    rw [List.map_append, show [((st,sp,nd,nt) : List Int × List Int × Nat × Nat)].map
        (fun q => q.2.2.2) = [nt] from rfl,
      getIndicesAux_append]
    have hlen : qs.length = (getIndicesAux (qs.map fun q => q.2.2.2) (e / nt)).1.length := by
      rw [getIndicesAux_length, List.length_map]
    rw [dofsChain_append (st,sp,nd,nt) qs _ _ _ hlen]
    rw [List.reverse_append, show [((st,sp,nd,nt) : List Int × List Int × Nat × Nat)].reverse =
      [(st,sp,nd,nt)] from rfl]
    rw [show ([((st,sp,nd,nt) : List Int × List Int × Nat × Nat)] ++ qs.reverse) =
      (st,sp,nd,nt) :: qs.reverse from rfl]
    rw [show dofsCond ((st,sp,nd,nt) :: qs.reverse) d e =
      (((d % nd : Nat) : Int) ∈ axisDofs st sp nd (e % nt) ∧
        dofsCond qs.reverse (d / nd) (e / nt)) from rfl]
    constructor
    · rintro ⟨y, v, hy, hv, heq⟩
      have hynn : 0 ≤ y := dofsChain_nonneg qs _ y hndqs hy
      have hvb : 0 ≤ v ∧ v < (nd : Int) := @axisDofs_bounds _ _ nd _ hndq v hv
      set yn := y.toNat with hyn
      set vn := v.toNat with hvn
      have hyc : (yn : Int) = y := Int.toNat_of_nonneg hynn
      have hvc : (vn : Int) = v := Int.toNat_of_nonneg hvb.1
      have hdn : d = yn * nd + vn := by
        have : (d : Int) = (yn : Int) * nd + vn := by rw [hyc, hvc]; exact heq
        exact_mod_cast this
      have hvnlt : vn < nd := by
        have := hvb.2
        omega
      have hmc : vn + nd * yn = d := by
        have : nd * yn = yn * nd := Nat.mul_comm nd yn
        omega
      have hdu := (Nat.div_mod_unique hndq).mpr ⟨hmc, hvnlt⟩
      constructor
      · rw [hdu.2, hvc]
        exact hv
      · rw [hdu.1]
        apply (ih yn (e / nt) hndqs).mp
        rwa [hyc]
    · rintro ⟨hv, hrest⟩
      refine ⟨((d / nd : Nat) : Int), ((d % nd : Nat) : Int),
        (ih (d / nd) (e / nt) hndqs).mpr hrest, hv, ?_⟩
      show (d : Int) = ((d / nd : Nat) : Int) * (nd : Int) + ((d % nd : Nat) : Int)
      have h := Nat.div_add_mod d nd
      have h2 : ((nd : Int)) * ((d / nd : Nat) : Int) + ((d % nd : Nat) : Int) = (d : Int) := by
        exact_mod_cast congrArg (fun n : Nat => (n : Int)) h
      linarith [mul_comm ((nd : Int)) (((d / nd : Nat) : Nat) : Int)]

-- ### Characterising structSupportAux and get_support membership

theorem outerSum_append_singleton (s : List Nat) (ls : List (List Nat)) (L : List Nat) :
    outerSum ((s :: ls) ++ [L]) =
      (outerSum (s :: ls)).flatMap fun a => L.map fun v => a + v := by
  show ((ls ++ [L]).foldl _ s) = _
  rw [List.foldl_append]
  rfl

theorem mem_structSupport_iff :
    ∀ (quads : List (List Int × List Int × Nat × Nat)) (d scale x : Nat),
      quads ≠ [] → (∀ q ∈ quads, 0 < q.2.2.2 ∧ q.1.length = q.2.2.2) →
      (x ∈ outerSum (structSupportAux quads d scale).1.reverse ↔
        ∃ e, x = scale * e ∧ suppCond quads d e) := by
  intro quads
  induction quads with
  | nil => intro d scale x hne _; exact absurd rfl hne
  | cons q rest ih =>
    intro d scale x _ hq
    obtain ⟨st, sp, nd, nt⟩ := q
    have hnt : 0 < nt := (hq (st,sp,nd,nt) (by simp)).1
    have hstlen : st.length = nt := (hq (st,sp,nd,nt) (by simp)).2
    have hsupb : ∀ s ∈ axisSupport st sp nd (d % nd), s < nt := by
      intro s hs
      have := axisSupport_lt_length s hs
      omega
    rw [show (structSupportAux ((st,sp,nd,nt) :: rest) d scale).1 =
      ((axisSupport st sp nd (d % nd)).map fun s => s * scale) ::
        (structSupportAux rest (d / nd) (scale * nt)).1 from rfl]
    simp only [show ∀ e, suppCond ((st,sp,nd,nt) :: rest) d e =
      ((e % nt) ∈ axisSupport st sp nd (d % nd) ∧ suppCond rest (d / nd) (e / nt))
      from fun e => rfl]
    cases rest with
    | nil =>
      rw [show (structSupportAux ([] : List (List Int × List Int × Nat × Nat))
        (d / nd) (scale * nt)).1 = [] from rfl]
      rw [show ([(axisSupport st sp nd (d % nd)).map fun s => s * scale] :
        List (List Nat)).reverse = [(axisSupport st sp nd (d % nd)).map
          fun s => s * scale] from rfl]
      rw [show outerSum [(axisSupport st sp nd (d % nd)).map fun s => s * scale] =
        (axisSupport st sp nd (d % nd)).map fun s => s * scale from rfl]
      rw [List.mem_map]
      constructor
      · rintro ⟨s, hs, rfl⟩
        have hslt : s < nt := hsupb s hs
        refine ⟨s, by ring, ?_, ?_⟩
        · rwa [Nat.mod_eq_of_lt hslt]
        · rw [show suppCond [] (d / nd) (s / nt) = (s / nt = 0) from rfl]
          exact Nat.div_eq_of_lt hslt
      · rintro ⟨e, rfl, hmem, hcond⟩
        rw [show suppCond [] (d / nd) (e / nt) = (e / nt = 0) from rfl] at hcond
        have helt : e < nt := by
          rcases Nat.lt_or_ge e nt with h | h
          · exact h
          · exact absurd hcond (by
              have hdd : nt / nt ≤ e / nt := Nat.div_le_div_right h
              rw [Nat.div_self (by omega)] at hdd
              omega)
        rw [Nat.mod_eq_of_lt helt] at hmem
        exact ⟨e, hmem, by ring⟩
    | cons r rest2 =>
      have hrest_ne : (r :: rest2) ≠ [] := by simp
      have hrest_hq : ∀ q ∈ (r :: rest2), 0 < q.2.2.2 ∧ q.1.length = q.2.2.2 :=
        fun q hqq => hq q (by simp [hqq])
      have hauxcons : ∃ s2 ls2, (structSupportAux (r :: rest2) (d / nd) (scale * nt)).1 =
          s2 :: ls2 := by
        obtain ⟨rst, rsp, rnd, rnt⟩ := r
        exact ⟨_, _, rfl⟩
      obtain ⟨s2, ls2, heq2⟩ := hauxcons
      rw [heq2]
      rw [show ((((axisSupport st sp nd (d % nd)).map fun s => s * scale) ::
        (s2 :: ls2)).reverse : List (List Nat)) =
        (s2 :: ls2).reverse ++ [(axisSupport st sp nd (d % nd)).map fun s => s * scale]
        from by simp]
      have hrev : ∃ t2 ts2, (s2 :: ls2).reverse = t2 :: ts2 := by
        cases h : (s2 :: ls2).reverse with
        | nil =>
          have := congrArg List.length h
          simp at this
        | cons t2 ts2 => exact ⟨t2, ts2, rfl⟩
      obtain ⟨t2, ts2, hrev2⟩ := hrev
      rw [hrev2, outerSum_append_singleton, List.mem_flatMap]
      constructor
      · rintro ⟨a, ha, hmem⟩
        rw [← hrev2, ← heq2] at ha
        rcases List.mem_map.mp hmem with ⟨sv, hsv, rfl⟩
        rcases List.mem_map.mp hsv with ⟨s, hs, rfl⟩
        rcases (ih (d / nd) (scale * nt) a hrest_ne hrest_hq).mp ha with
          ⟨e2, rfl, hcond2⟩
        have hslt : s < nt := hsupb s hs
        refine ⟨s + nt * e2, by ring, ?_, ?_⟩
        · rw [Nat.add_mul_mod_self_left, Nat.mod_eq_of_lt hslt]
          exact hs
        · rw [Nat.add_mul_div_left _ _ (by omega : 0 < nt), Nat.div_eq_of_lt hslt,
            Nat.zero_add]
          exact hcond2
      · rintro ⟨e, rfl, hmem, hcond⟩
        refine ⟨scale * nt * (e / nt), ?_, ?_⟩
        · rw [← hrev2, ← heq2]
          exact (ih (d / nd) (scale * nt) _ hrest_ne hrest_hq).mpr
            ⟨e / nt, rfl, hcond⟩
        · refine List.mem_map.mpr ⟨(e % nt) * scale,
            List.mem_map.mpr ⟨e % nt, hmem, rfl⟩, ?_⟩
          have h := Nat.div_add_mod e nt
          calc scale * nt * (e / nt) + e % nt * scale
              = scale * (nt * (e / nt) + e % nt) := by ring
            _ = scale * e := by rw [h]

-- ### The structured round trip

theorem zip4_map_proj {α β γ δ : Type} :
    ∀ (dl : List δ) (a : List α) (bl : List β) (c : List γ),
      a.length = dl.length → bl.length = dl.length → c.length = dl.length →
      (a.zip (bl.zip (c.zip dl))).map (fun q => q.2.2.2) = dl := by
  intro dl
  induction dl with
  | nil =>
    intro a bl c ha _ _
    cases a with
    | nil => rfl
    | cons _ _ => simp at ha
  | cons x dl ih =>
    intro a bl c ha hb hc
    cases a with
    | nil => simp at ha
    | cons a0 a =>
      cases bl with
      | nil => simp at hb
      | cons b0 bl =>
        cases c with
        | nil => simp at hc
        | cons c0 c =>
          show x :: (a.zip (bl.zip (c.zip dl))).map (fun q => q.2.2.2) = x :: dl
          rw [ih a bl c (by simpa using ha) (by simpa using hb) (by simpa using hc)]

theorem zip4_map_proj_nd {α β γ δ : Type} :
    ∀ (c : List γ) (a : List α) (bl : List β) (dl : List δ),
      a.length = c.length → bl.length = c.length → dl.length = c.length →
      (a.zip (bl.zip (c.zip dl))).map (fun q => q.2.2.1) = c := by
  intro c
  induction c with
  | nil =>
    intro a bl dl ha _ _
    cases a with
    | nil => rfl
    | cons _ _ => simp at ha
  | cons x c ih =>
    intro a bl dl ha hb hd
    cases a with
    | nil => simp at ha
    | cons a0 a =>
      cases bl with
      | nil => simp at hb
      | cons b0 bl =>
        cases dl with
        | nil => simp at hd
        | cons d0 dl =>
          show x :: (a.zip (bl.zip (c.zip dl))).map (fun q => q.2.2.1) = x :: c
          rw [ih a bl dl (by simpa using ha) (by simpa using hb) (by simpa using hd)]

/-- The axis-by-axis support condition coincides with the axis-by-axis dof
condition (the heart of the support/dofs round trip, per axis), for in-range
dof and element indices. -/
theorem suppCond_iff_dofsCond :
    ∀ (quads : List (List Int × List Int × Nat × Nat)),
      (∀ q ∈ quads, q.1.Pairwise (· ≤ ·) ∧ q.2.1.Pairwise (· ≤ ·) ∧
        (∀ x ∈ q.1, 0 ≤ x) ∧ 0 < q.2.2.1 ∧ 0 < q.2.2.2 ∧
        q.1.length = q.2.2.2 ∧ q.2.1.length = q.2.2.2) →
      ∀ d e, d < prodND quads → e < prodNT quads →
        (suppCond quads d e ↔ dofsCond quads d e) := by
  intro quads
  induction quads with
  | nil =>
    intro _ d e hd he
    have hd0 : d = 0 := by simpa [prodND] using hd
    have he0 : e = 0 := by simpa [prodNT] using he
    subst hd0; subst he0
    show (0 = 0) ↔ (0 = 0)
    rfl
  | cons q rest ih =>
    intro hq d e hd he
    obtain ⟨st, sp, nd, nt⟩ := q
    have h1 : st.Pairwise (· ≤ ·) := (hq (st,sp,nd,nt) (by simp)).1
    have h2 : sp.Pairwise (· ≤ ·) := (hq (st,sp,nd,nt) (by simp)).2.1
    have h3 : ∀ x ∈ st, 0 ≤ x := (hq (st,sp,nd,nt) (by simp)).2.2.1
    have h4 : 0 < nd := (hq (st,sp,nd,nt) (by simp)).2.2.2.1
    have h5 : 0 < nt := (hq (st,sp,nd,nt) (by simp)).2.2.2.2.1
    have h6 : st.length = nt := (hq (st,sp,nd,nt) (by simp)).2.2.2.2.2.1
    have h7 : sp.length = nt := (hq (st,sp,nd,nt) (by simp)).2.2.2.2.2.2
    have hdexp : prodND ((st,sp,nd,nt) :: rest) = nd * prodND rest := by simp [prodND]
    have hteexp : prodNT ((st,sp,nd,nt) :: rest) = nt * prodNT rest := by simp [prodNT]
    have hd2 : d / nd < prodND rest := by
      rw [hdexp] at hd
      exact Nat.div_lt_of_lt_mul (by omega)
    have he2 : e / nt < prodNT rest := by
      rw [hteexp] at he
      exact Nat.div_lt_of_lt_mul (by omega)
    show ((e % nt) ∈ axisSupport st sp nd (d % nd) ∧ suppCond rest (d / nd) (e / nt)) ↔
      (((d % nd : Nat) : Int) ∈ axisDofs st sp nd (e % nt) ∧
        dofsCond rest (d / nd) (e / nt))
    rw [mem_axisSupport_iff h6 h7 h1 h2 h3 h4 (Nat.mod_lt d h4) (Nat.mod_lt e h5),
      ih (fun p hp => hq p (by simp [hp])) (d / nd) (e / nt) hd2 he2]

/-- Round trip for `StructuredBasis`: an element is in the searchsorted-based
support of a dof exactly when the dof is among the element's outer-product
dofs, including periodic (wraparound) axes. -/
theorem StructuredBasis.structured_roundtrip (b : StructuredBasis)
    (hl1 : b.start_dofs.length = b.transforms_shape.length)
    (hl2 : b.stop_dofs.length = b.transforms_shape.length)
    (hl3 : b.dofs_shape.length = b.transforms_shape.length)
    (hne : b.transforms_shape ≠ [])
    (hax : ∀ q ∈ b.axes4, q.1.Pairwise (· ≤ ·) ∧ q.2.1.Pairwise (· ≤ ·) ∧
      (∀ x ∈ q.1, 0 ≤ x) ∧ 0 < q.2.2.1 ∧ 0 < q.2.2.2 ∧
      q.1.length = q.2.2.2 ∧ q.2.1.length = q.2.2.2)
    (e d : Nat) (he : e < b.nelems) (hd : d < b.ndofs) :
    e ∈ b.get_support d ↔ (d : Int) ∈ b.get_dofs e := by
  have hlen4 : b.axes4.length = b.transforms_shape.length := by
    unfold StructuredBasis.axes4
    simp [List.length_zip, hl1, hl2, hl3]
  have haxne : b.axes4 ≠ [] := by
    intro hcon
    apply hne
    have hlen0 : b.axes4.length = 0 := by rw [hcon]; rfl
    rw [hlen4] at hlen0
    exact List.length_eq_zero.mp hlen0
  have hrevne : b.axes4.reverse ≠ [] := by
    simpa using haxne
  have haxrev : ∀ q ∈ b.axes4.reverse, q.1.Pairwise (· ≤ ·) ∧ q.2.1.Pairwise (· ≤ ·) ∧
      (∀ x ∈ q.1, 0 ≤ x) ∧ 0 < q.2.2.1 ∧ 0 < q.2.2.2 ∧
      q.1.length = q.2.2.2 ∧ q.2.1.length = q.2.2.2 := by
    intro q hqr
    exact hax q (List.mem_reverse.mp hqr)
  have hproj : b.axes4.map (fun q => q.2.2.2) = b.transforms_shape := by
    unfold StructuredBasis.axes4
    exact zip4_map_proj b.transforms_shape _ _ _ hl1 hl2 hl3
  have hprojnd : b.axes4.map (fun q => q.2.2.1) = b.dofs_shape := by
    unfold StructuredBasis.axes4
    exact zip4_map_proj_nd b.dofs_shape _ _ _ (by omega) (by omega) (by omega)
  have hdrev : d < prodND b.axes4.reverse := by
    have : prodND b.axes4.reverse = prodND b.axes4 := by
      unfold prodND
      rw [List.map_reverse, List.prod_reverse]
    rw [this]
    unfold prodND
    rw [hprojnd]
    exact hd
  have herev : e < prodNT b.axes4.reverse := by
    have : prodNT b.axes4.reverse = prodNT b.axes4 := by
      unfold prodNT
      rw [List.map_reverse, List.prod_reverse]
    rw [this]
    unfold prodNT
    rw [hproj]
    exact he
  have step1 : e ∈ b.get_support d ↔ suppCond b.axes4.reverse d e := by
    unfold StructuredBasis.get_support
    rw [mem_structSupport_iff b.axes4.reverse d 1 e hrevne
      (fun q hq => ⟨(haxrev q hq).2.2.2.2.1, (haxrev q hq).2.2.2.2.2.1⟩)]
    constructor
    · rintro ⟨e2, he2, hcond⟩
      rwa [show e = e2 by omega]
    · intro hcond
      exact ⟨e, by omega, hcond⟩
  have step2 : suppCond b.axes4.reverse d e ↔ dofsCond b.axes4.reverse d e :=
    suppCond_iff_dofsCond b.axes4.reverse haxrev d e hdrev herev
  have hnd4 : ∀ q ∈ b.axes4, 0 < q.2.2.1 := fun q hq => (hax q hq).2.2.2.1
  have step3 : dofsCond b.axes4.reverse d e ↔
      dofsChain b.axes4 (getIndicesAux (b.axes4.map fun q => q.2.2.2) e).1 (d : Int) :=
    (dofsChain_digits_iff b.axes4 d e hnd4).symm
  have hixlen : b.axes4.length =
      (getIndicesAux b.transforms_shape e).1.length := by
    rw [getIndicesAux_length, hlen4]
  have step4 : (d : Int) ∈ b.get_dofs e ↔
      dofsChain b.axes4 (getIndicesAux b.transforms_shape e).1 (d : Int) := by
    unfold StructuredBasis.get_dofs
    rw [structDofs_acc_mem b.axes4 _ [0] _ hixlen]
    constructor
    · rintro ⟨a, ha, y, hy, heq⟩
      rcases List.mem_singleton.mp ha with rfl
      rw [show (0:Int) * (prodND b.axes4 : Int) + y = y by ring] at heq
      rwa [heq]
    · intro hchain
      exact ⟨0, List.mem_singleton.mpr rfl, (d : Int), hchain, by ring⟩
  rw [step1, step2, step3, hproj, step4]

-- ### Sortedness of the structured support

theorem pairwise_lt_map_mul_right {l : List Nat} (hl : l.Pairwise (· < ·))
    {s : Nat} (hs : 0 < s) : (l.map fun x => x * s).Pairwise (· < ·) := by
  rw [List.pairwise_map]
  exact hl.imp fun hab => (Nat.mul_lt_mul_right hs).mpr hab

theorem outerStep_pairwise (A t : List Nat) (D B : Nat)
    (hA : A.Pairwise (· < ·)) (hAd : ∀ a ∈ A, D ∣ a) (hAb : ∀ a ∈ A, a < B)
    (hDB : D ∣ B)
    (ht : t.Pairwise (· < ·)) (htv : ∀ v ∈ t, v < D) :
    ((A.flatMap fun a => t.map fun v => a + v).Pairwise (· < ·)) ∧
      (∀ x ∈ A.flatMap fun a => t.map fun v => a + v, x < B) := by
  induction A with
  | nil => exact ⟨List.Pairwise.nil, by simp⟩
  | cons a A ih =>
    have haD : D ∣ a := hAd a (by simp)
    have haB : a < B := hAb a (by simp)
    have hAtail : A.Pairwise (· < ·) := (List.pairwise_cons.mp hA).2
    have hlt : ∀ a2 ∈ A, a < a2 := (List.pairwise_cons.mp hA).1
    obtain ⟨ihp, ihb⟩ := ih hAtail (fun x hx => hAd x (by simp [hx]))
      (fun x hx => hAb x (by simp [hx]))
    rw [show ((a :: A).flatMap fun a => t.map fun v => a + v) =
      (t.map fun v => a + v) ++ (A.flatMap fun a => t.map fun v => a + v) from rfl]
    constructor
    · rw [List.pairwise_append]
      refine ⟨?_, ihp, ?_⟩
      · rw [List.pairwise_map]
        exact ht.imp fun hab => by omega
      · intro x hx y hy
        rcases List.mem_map.mp hx with ⟨v, hv, rfl⟩
        rcases List.mem_flatMap.mp hy with ⟨a2, ha2, hy2⟩
        rcases List.mem_map.mp hy2 with ⟨v2, hv2, rfl⟩
        have h1 : v < D := htv v hv
        have h2 : a < a2 := hlt a2 ha2
        have h3 : D ∣ a2 := hAd a2 (by simp [ha2])
        have h4 : a + D ≤ a2 := by
          rcases haD with ⟨c1, rfl⟩
          rcases h3 with ⟨c2, rfl⟩
          have hc : c1 < c2 := by
            by_contra hcon
            push_neg at hcon
            exact absurd (Nat.mul_le_mul_left D hcon) (by omega)
          calc D * c1 + D = D * (c1 + 1) := by ring
            _ ≤ D * c2 := Nat.mul_le_mul_left D (by omega)
        omega
    · intro x hx
      rcases List.mem_append.mp hx with hx1 | hx2
      · rcases List.mem_map.mp hx1 with ⟨v, hv, rfl⟩
        have h1 : v < D := htv v hv
        have h5 : a + D ≤ B := by
          rcases haD with ⟨c1, hc1⟩
          rcases hDB with ⟨c2, hc2⟩
          subst hc1; subst hc2
          have hc : c1 < c2 := by
            by_contra hcon
            push_neg at hcon
            exact absurd (Nat.mul_le_mul_left D hcon) (by omega)
          calc D * c1 + D = D * (c1 + 1) := by ring
            _ ≤ D * c2 := Nat.mul_le_mul_left D (by omega)
        omega
      · exact ihb x hx2

theorem structSupport_sorted :
    ∀ (quads : List (List Int × List Int × Nat × Nat)) (d scale : Nat),
      0 < scale → (∀ q ∈ quads, 0 < q.2.2.2 ∧ q.1.length = q.2.2.2) →
      (outerSum (structSupportAux quads d scale).1.reverse).Pairwise (· < ·) ∧
      (∀ x ∈ outerSum (structSupportAux quads d scale).1.reverse,
        scale ∣ x ∧ x < scale * prodNT quads) := by
  intro quads
  induction quads with
  | nil =>
    intro d scale _ _
    exact ⟨List.Pairwise.nil, by
      intro x hx
      rw [show (structSupportAux ([] : List (List Int × List Int × Nat × Nat))
        d scale).1 = [] from rfl] at hx
      simp [outerSum] at hx⟩
  | cons q rest ih =>
    intro d scale hscale hq
    obtain ⟨st, sp, nd, nt⟩ := q
    have hnt : 0 < nt := (hq (st,sp,nd,nt) (by simp)).1
    have hstlen : st.length = nt := (hq (st,sp,nd,nt) (by simp)).2
    have hsupb : ∀ s ∈ axisSupport st sp nd (d % nd), s < nt := by
      intro s hs
      have := axisSupport_lt_length s hs
      omega
    have hsupp : (axisSupport st sp nd (d % nd)).Pairwise (· < ·) :=
      npUniqueNat_pairwise _
    have hscaled_p : ((axisSupport st sp nd (d % nd)).map fun s => s * scale).Pairwise
        (· < ·) := pairwise_lt_map_mul_right hsupp hscale
    have hscaled_v : ∀ x ∈ (axisSupport st sp nd (d % nd)).map fun s => s * scale,
        scale ∣ x ∧ x < scale * nt := by
      intro x hx
      rcases List.mem_map.mp hx with ⟨s, hs, rfl⟩
      exact ⟨⟨s, Nat.mul_comm s scale⟩, by
        have := hsupb s hs
        calc s * scale < nt * scale := (Nat.mul_lt_mul_right hscale).mpr this
          _ = scale * nt := Nat.mul_comm nt scale⟩
    rw [show (structSupportAux ((st,sp,nd,nt) :: rest) d scale).1 =
      ((axisSupport st sp nd (d % nd)).map fun s => s * scale) ::
        (structSupportAux rest (d / nd) (scale * nt)).1 from rfl]
    have hprodexp : prodNT ((st,sp,nd,nt) :: rest) = nt * prodNT rest := by
      simp [prodNT]
    cases hrest : (structSupportAux rest (d / nd) (scale * nt)).1 with
    | nil =>
      have hrestnil : rest = [] := by
        cases rest with
        | nil => rfl
        | cons r rest2 =>
          obtain ⟨rst, rsp, rnd, rnt⟩ := r
          simp [structSupportAux] at hrest
      subst hrestnil
      rw [show ([(axisSupport st sp nd (d % nd)).map fun s => s * scale] :
        List (List Nat)).reverse = [(axisSupport st sp nd (d % nd)).map
          fun s => s * scale] from rfl]
      rw [show outerSum [(axisSupport st sp nd (d % nd)).map fun s => s * scale] =
        (axisSupport st sp nd (d % nd)).map fun s => s * scale from rfl]
      refine ⟨hscaled_p, ?_⟩
      intro x hx
      have := hscaled_v x hx
      rw [hprodexp]
      simp [prodNT] at this ⊢
      exact ⟨this.1, by omega⟩
    | cons s2 ls2 =>
      have hrest_hq : ∀ p ∈ rest, 0 < p.2.2.2 ∧ p.1.length = p.2.2.2 :=
        fun p hp => hq p (by simp [hp])
      obtain ⟨ihp, ihv⟩ := ih (d / nd) (scale * nt) (by positivity) hrest_hq
      rw [hrest] at ihp ihv
      rw [show ((((axisSupport st sp nd (d % nd)).map fun s => s * scale) ::
        (s2 :: ls2)).reverse : List (List Nat)) =
        (s2 :: ls2).reverse ++ [(axisSupport st sp nd (d % nd)).map fun s => s * scale]
        from by simp]
      have hrev : ∃ t2 ts2, (s2 :: ls2).reverse = t2 :: ts2 := by
        cases h : (s2 :: ls2).reverse with
        | nil =>
          have := congrArg List.length h
          simp at this
        | cons t2 ts2 => exact ⟨t2, ts2, rfl⟩
      obtain ⟨t2, ts2, hrev2⟩ := hrev
      rw [hrev2, outerSum_append_singleton]
      rw [← hrev2]
      have hstep := outerStep_pairwise (outerSum (s2 :: ls2).reverse)
        ((axisSupport st sp nd (d % nd)).map fun s => s * scale)
        (scale * nt) (scale * nt * prodNT rest)
        ihp (fun a ha => (ihv a ha).1) (fun a ha => (ihv a ha).2)
        ⟨prodNT rest, rfl⟩
        hscaled_p (fun v hv => (hscaled_v v hv).2)
      refine ⟨hstep.1, ?_⟩
      intro x hx
      constructor
      · rcases List.mem_flatMap.mp hx with ⟨a, ha, hx2⟩
        rcases List.mem_map.mp hx2 with ⟨v, hv, rfl⟩
        have h1 : scale * nt ∣ a := (ihv a ha).1
        have h2 : scale ∣ v := (hscaled_v v hv).1
        exact Nat.dvd_add (dvd_trans ⟨nt, rfl⟩ h1) h2
      · have := hstep.2 x hx
        rw [hprodexp]
        calc x < scale * nt * prodNT rest := this
          _ = scale * (nt * prodNT rest) := by ring

/-- `StructuredBasis.get_support` returns a strictly increasing (sorted and
duplicate-free) array of element indices. -/
theorem StructuredBasis.structured_support_pairwise (b : StructuredBasis)
    (hax : ∀ q ∈ b.axes4, 0 < q.2.2.2 ∧ q.1.length = q.2.2.2) (d : Nat) :
    (b.get_support d).Pairwise (· < ·) := by
  unfold StructuredBasis.get_support
  exact (structSupport_sorted b.axes4.reverse d 1 (by omega)
    (fun q hq => hax q (List.mem_reverse.mp hq))).1

-- ### Distinctness and row counts of the structured dofs

theorem axisDofs_length (st sp : List Int) (nd : Nat) (ix : Nat) :
    (axisDofs st sp nd ix).length = (sp.getD ix 0 - st.getD ix 0).toNat := by
  unfold axisDofs intArange
  simp

theorem axisDofs_nodup {st sp : List Int} {nd : Nat} {ix : Nat} (hnd : 0 < nd)
    (hspan : sp.getD ix 0 - st.getD ix 0 ≤ (nd : Int)) :
    (axisDofs st sp nd ix).Nodup := by
  unfold axisDofs
  apply List.Nodup.map_on
  · intro j1 h1 j2 h2 heq
    rw [mem_intArange] at h1 h2
    have hsub : (j1 - j2) % (nd : Int) = 0 := by
      rw [Int.sub_emod, heq]
      simp
    have hdvd : (nd : Int) ∣ (j1 - j2) := Int.dvd_of_emod_eq_zero hsub
    rcases hdvd with ⟨c, hc⟩
    have hc0 : c = 0 := by
      by_contra hcne
      rcases Int.lt_or_lt_of_ne hcne with hneg | hpos
      · have ha1 : (nd : Int) * c ≤ (nd : Int) * (-1) :=
          mul_le_mul_of_nonneg_left (by omega) (by omega)
        have ha2 : (nd : Int) * (-1) = -nd := by ring
        omega
      · have ha1 : (nd : Int) * 1 ≤ (nd : Int) * c :=
          mul_le_mul_of_nonneg_left (by omega) (by omega)
        have ha2 : (nd : Int) * 1 = nd := by ring
        omega
    rw [hc0, mul_zero] at hc
    omega
  · unfold intArange
    apply List.Nodup.map_on
    · intro k1 _ k2 _ h
      omega
    · exact List.nodup_range _

theorem length_flatMap_const {α β : Type} (l : List α) (f : α → List β) (n : Nat)
    (h : ∀ a ∈ l, (f a).length = n) : (l.flatMap f).length = l.length * n := by
  induction l with
  | nil => simp
  | cons a t ih =>
    rw [show ((a :: t).flatMap f) = f a ++ t.flatMap f from rfl, List.length_append,
      ih (fun x hx => h x (by simp [hx])), h a (by simp), List.length_cons]
    ring

theorem structDofs_length :
    ∀ (quads : List (List Int × List Int × Nat × Nat)) (ixs : List Nat)
      (acc : List Int), quads.length = ixs.length →
      (structDofs quads ixs acc).length =
        acc.length * (((quads.zip ixs).map fun p =>
          (axisDofs p.1.1 p.1.2.1 p.1.2.2.1 p.2).length).prod) := by
  intro quads
  induction quads with
  | nil =>
    intro ixs acc hlen
    have : ixs = [] := by
      cases ixs with
      | nil => rfl
      | cons _ _ => simp at hlen
    subst this
    simp [structDofs]
  | cons q rest ih =>
    intro ixs acc hlen
    obtain ⟨st, sp, nd, nt⟩ := q
    cases ixs with
    | nil => simp at hlen
    | cons ix ixs =>
      rw [show structDofs ((st,sp,nd,nt) :: rest) (ix :: ixs) acc =
        structDofs rest ixs (acc.flatMap fun a =>
          (axisDofs st sp nd ix).map fun v => a * nd + v) from rfl]
      rw [ih ixs _ (by simpa using hlen)]
      rw [length_flatMap_const _ _ (axisDofs st sp nd ix).length
        (fun a _ => by rw [List.length_map])]
      rw [show (((st,sp,nd,nt) :: rest).zip (ix :: ixs)) =
        ((st,sp,nd,nt), ix) :: rest.zip ixs from rfl]
      rw [List.map_cons, List.prod_cons]
      ring

theorem nodup_step_mul_add (acc : List Int) (t : List Int) (nd : Nat)
    (hacc : acc.Nodup) (haccnn : ∀ a ∈ acc, 0 ≤ a)
    (ht : t.Nodup) (htb : ∀ v ∈ t, 0 ≤ v ∧ v < (nd : Int)) :
    ((acc.flatMap fun a => t.map fun v => a * nd + v).Nodup) ∧
      (∀ x ∈ acc.flatMap fun a => t.map fun v => a * nd + v, 0 ≤ x) := by
  induction acc with
  | nil => exact ⟨List.Pairwise.nil, by simp⟩
  | cons a acc ih =>
    have hann : 0 ≤ a := haccnn a (by simp)
    have hane : a ∉ acc := (List.nodup_cons.mp hacc).1
    obtain ⟨ihn, ihnn⟩ := ih (List.nodup_cons.mp hacc).2
      (fun x hx => haccnn x (by simp [hx]))
    rw [show ((a :: acc).flatMap fun a => t.map fun v => a * nd + v) =
      (t.map fun v => a * nd + v) ++ (acc.flatMap fun a => t.map fun v => a * nd + v)
      from rfl]
    constructor
    · rw [List.nodup_append]
      refine ⟨?_, ihn, ?_⟩
      · apply List.Nodup.map_on
        · intro v1 _ v2 _ h
          omega
        · exact ht
      · intro x hx hy
        rcases List.mem_map.mp hx with ⟨v, hv, rfl⟩
        rcases List.mem_flatMap.mp hy with ⟨a2, ha2, hy2⟩
        rcases List.mem_map.mp hy2 with ⟨v2, hv2, heq⟩
        have hb1 := htb v hv
        have hb2 := htb v2 hv2
        have ha2nn := haccnn a2 (by simp [ha2])
        have haa2 : a = a2 := by
          by_contra hne
          rcases Int.lt_or_lt_of_ne hne with hlt | hlt
          · have : a * nd + nd ≤ a2 * nd := by
              have : (a + 1) * (nd : Int) ≤ a2 * nd := by
                apply mul_le_mul_of_nonneg_right (by omega) (by omega)
              linarith [this]
            omega
          · have : a2 * nd + nd ≤ a * nd := by
              have : (a2 + 1) * (nd : Int) ≤ a * nd := by
                apply mul_le_mul_of_nonneg_right (by omega) (by omega)
              linarith [this]
            omega
        subst haa2
        exact hane ha2
    · intro x hx
      rcases List.mem_append.mp hx with hx1 | hx2
      · rcases List.mem_map.mp hx1 with ⟨v, hv, rfl⟩
        have := htb v hv
        have : (0:Int) ≤ a * nd := by positivity
        omega
      · exact ihnn x hx2

theorem structDofs_nodup :
    ∀ (quads : List (List Int × List Int × Nat × Nat)) (ixs : List Nat)
      (acc : List Int),
      acc.Nodup → (∀ a ∈ acc, 0 ≤ a) →
      (∀ p ∈ quads.zip ixs, 0 < p.1.2.2.1 ∧
        (axisDofs p.1.1 p.1.2.1 p.1.2.2.1 p.2).Nodup) →
      (structDofs quads ixs acc).Nodup := by
  intro quads
  induction quads with
  | nil =>
    intro ixs acc hacc _ _
    cases ixs <;> exact hacc
  | cons q rest ih =>
    intro ixs acc hacc haccnn hax
    obtain ⟨st, sp, nd, nt⟩ := q
    cases ixs with
    | nil => exact hacc
    | cons ix ixs =>
      have h1 : 0 < nd := (hax ((st,sp,nd,nt), ix) (by simp)).1
      have h2 : (axisDofs st sp nd ix).Nodup := (hax ((st,sp,nd,nt), ix) (by simp)).2
      have hstep := nodup_step_mul_add acc (axisDofs st sp nd ix) nd hacc haccnn h2
        (axisDofs_bounds h1)
      exact ih ixs _ hstep.1 hstep.2
        (fun p hp => hax p (by
          rw [show (((st,sp,nd,nt) :: rest).zip (ix :: ixs)) =
            ((st,sp,nd,nt), ix) :: rest.zip ixs from rfl]
          simp [hp]))

theorem poly_outer_product_length (a b : List (List Int)) :
    (poly_outer_product a b).length = a.length * b.length := by
  unfold poly_outer_product
  rw [length_flatMap_const _ _ b.length (fun ra _ => by rw [List.length_map])]

theorem foldl_poly_outer_length (cs : List (List (List Int))) :
    ∀ c : List (List Int),
      (cs.foldl poly_outer_product c).length = c.length * (cs.map List.length).prod := by
  induction cs with
  | nil => intro c; simp
  | cons x cs ih =>
    intro c
    rw [show ((x :: cs).foldl poly_outer_product c) =
      cs.foldl poly_outer_product (poly_outer_product c x) from rfl, ih,
      poly_outer_product_length, List.map_cons, List.prod_cons]
    ring

-- ### Per-variant distinctness and row-count lemmas

theorem indexOf_inj_of_pairwise {a : List Nat} (_ha : a.Pairwise (· < ·))
    {x y : Nat} (hx : x ∈ a) (hy : y ∈ a) (h : a.indexOf x = a.indexOf y) :
    x = y := by
  have hix : a.indexOf x < a.length := List.indexOf_lt_length.mpr hx
  have hiy : a.indexOf y < a.length := List.indexOf_lt_length.mpr hy
  have hgx : a.get ⟨a.indexOf x, hix⟩ = x := List.indexOf_get hix
  have hgy : a.get ⟨a.indexOf y, hiy⟩ = y := List.indexOf_get hiy
  rw [← hgx, ← hgy]
  congr 1
  exact Fin.ext h

theorem filter_zip_length {α β : Type} (p : β → Bool) :
    ∀ (xs : List α) (ys : List β), xs.length = ys.length →
      ((xs.zip ys).filter fun q => p q.2).length = (ys.filter p).length := by
  intro xs
  induction xs with
  | nil =>
    intro ys h
    cases ys with
    | nil => rfl
    | cons _ _ => simp at h
  | cons x xs ih =>
    intro ys h
    cases ys with
    | nil => simp at h
    | cons y ys =>
      rw [show ((x :: xs).zip (y :: ys)) = (x, y) :: xs.zip ys from rfl]
      by_cases hp : p y = true
      · simp [List.filter_cons, hp, ih ys (by simpa using h)]
      · have hp' : p y = false := by simpa using hp
        simp [List.filter_cons, hp', ih ys (by simpa using h)]

/-- `MaskedBasis.get_dofs` is duplicate-free and matches the masked
coefficient row count, given a well-behaved parent element. -/
theorem MaskedBasis.masked_dofs_nodup_length (m : MaskedBasis) (e : Nat)
    (hinc : m.indices.Pairwise (· < ·))
    (hpnd : (m.parent.get_dofs e).Nodup)
    (hplen : (m.parent.get_coefficients e).length = (m.parent.get_dofs e).length) :
    (m.get_dofs e).Nodup ∧ (m.get_dofs e).length = (m.get_coefficients e).length := by
  constructor
  · unfold MaskedBasis.get_dofs sorted_index_mask
    apply List.Nodup.map_on
    · intro v1 h1 v2 h2 heq
      exact indexOf_inj_of_pairwise hinc
        (contains_true_iff.mp (List.of_mem_filter h1))
        (contains_true_iff.mp (List.of_mem_filter h2)) heq
    · exact List.Nodup.filter _ hpnd
  · unfold MaskedBasis.get_dofs MaskedBasis.get_coefficients sorted_index_mask
      sorted_contains
    rw [boolMask_map_eq_filter_zip _ _ _ hplen, List.length_map, List.length_map,
      filter_zip_length _ _ _ hplen]

theorem searchsortedLeft_inj_on_sorted {a : List Nat} (ha : a.Pairwise (· < ·))
    {x y : Nat} (hx : x ∈ a) (hy : y ∈ a)
    (h : searchsortedLeft a x = searchsortedLeft a y) : x = y := by
  have h1 : searchsortedLeft a x = a.indexOf x := countP_lt_pairwise ha hx
  have h2 : searchsortedLeft a y = a.indexOf y := countP_lt_pairwise ha hy
  exact indexOf_inj_of_pairwise ha hx hy (by rw [← h1, ← h2, h])

/-- `PrunedBasis.get_dofs` is duplicate-free and matches the parent row count,
given a well-behaved parent element. -/
theorem PrunedBasis.pruned_dofs_nodup_length (b : PrunedBasis) (e : Nat)
    (he : e < b.transmap.length)
    (hpnd : (b.parent.get_dofs (b.transmap.getD e 0)).Nodup)
    (hplen : (b.parent.get_coefficients (b.transmap.getD e 0)).length =
      (b.parent.get_dofs (b.transmap.getD e 0)).length) :
    (b.get_dofs e).Nodup ∧ (b.get_dofs e).length = (b.get_coefficients e).length := by
  have hdm : b.dofmap.Pairwise (· < ·) := npUniqueNat_pairwise _
  have hmem : ∀ v ∈ b.parent.get_dofs (b.transmap.getD e 0), v ∈ b.dofmap := by
    intro v hv
    unfold PrunedBasis.dofmap
    refine npUniqueNat_mem.mpr (List.mem_flatMap.mpr ⟨b.transmap.getD e 0, ?_, hv⟩)
    rw [List.getD_eq_getElem?_getD, List.getElem?_eq_getElem he]
    exact List.getElem_mem _
  constructor
  · unfold PrunedBasis.get_dofs
    apply List.Nodup.map_on
    · intro v1 h1 v2 h2 heq
      exact searchsortedLeft_inj_on_sorted hdm (hmem v1 h1) (hmem v2 h2) heq
    · exact hpnd
  · unfold PrunedBasis.get_dofs PrunedBasis.get_coefficients
    rw [List.length_map, hplen]

theorem zip_map_prod_congr {α β ι : Type} :
    ∀ (A : List α) (B : List β) (I : List ι) (f : α → ι → Nat) (g : β → ι → Nat),
      A.length = B.length →
      (∀ p ∈ A.zip B, ∀ ix, f p.1 ix = g p.2 ix) →
      ((A.zip I).map fun p => f p.1 p.2).prod = ((B.zip I).map fun p => g p.1 p.2).prod := by
  intro A
  induction A with
  | nil =>
    intro B I f g hl _
    cases B with
    | nil => rfl
    | cons _ _ => simp at hl
  | cons a A ih =>
    intro B I f g hl hfg
    cases B with
    | nil => simp at hl
    | cons b B =>
      cases I with
      | nil => rfl
      | cons i I =>
        rw [show ((a :: A).zip (i :: I)) = (a, i) :: A.zip I from rfl,
          show ((b :: B).zip (i :: I)) = (b, i) :: B.zip I from rfl,
          List.map_cons, List.map_cons, List.prod_cons, List.prod_cons]
        rw [hfg (a, b) (by
          rw [show ((a :: A).zip (b :: B)) = (a, b) :: A.zip B from rfl]
          simp) i]
        rw [ih B I f g (by simpa using hl) (fun p hp ix => hfg p (by
          rw [show ((a :: A).zip (b :: B)) = (a, b) :: A.zip B from rfl]
          simp [hp]) ix)]

/-- `DiscontBasis.get_dofs` is duplicate-free and matches the coefficient row
count. -/
theorem DiscontBasis.discont_dofs_nodup_length (b : DiscontBasis) (e : Nat)
    (he : e < b.nelems) :
    (b.get_dofs e).Nodup ∧ (b.get_dofs e).length = (b.get_coefficients e).length := by
  constructor
  · unfold DiscontBasis.get_dofs
    exact (List.pairwise_lt_range' _ _ 1 (by omega)).imp fun hab => ne_of_lt hab
  · unfold DiscontBasis.get_dofs DiscontBasis.get_coefficients
    rw [List.length_range']
    rw [b.offsets_getD e (by omega), b.offsets_getD (e+1) (by omega)]
    have hlt : e < (b.coeffs.map List.length).length := by
      simpa [DiscontBasis.nelems] using he
    have h1 : ((b.coeffs.map List.length).take (e+1)).sum =
        ((b.coeffs.map List.length).take e).sum + (b.coeffs.getD e []).length := by
      rw [List.take_succ, List.sum_append]
      congr 1
      rw [List.getElem?_eq_getElem hlt]
      have : (b.coeffs.map List.length)[e] = (b.coeffs.getD e []).length := by
        rw [List.getElem_map]
        congr 1
        rw [List.getD_eq_getElem?_getD,
          List.getElem?_eq_getElem (show e < b.coeffs.length by
            simpa [DiscontBasis.nelems] using he)]
        rfl
      simp [this]
    omega

/-- `StructuredBasis.get_dofs` is duplicate-free (given per-axis spans not
exceeding the axis dof count) and its length matches the leading axis of the
outer-product coefficients. -/
theorem StructuredBasis.structured_dofs_nodup_length (b : StructuredBasis)
    (hl1 : b.start_dofs.length = b.transforms_shape.length)
    (hl2 : b.stop_dofs.length = b.transforms_shape.length)
    (hl3 : b.dofs_shape.length = b.transforms_shape.length)
    (hne : b.transforms_shape ≠ [])
    (hnd : ∀ q ∈ b.axes4, 0 < q.2.2.1)
    (hspan : ∀ q ∈ b.axes4, ∀ ix, q.2.1.getD ix 0 - q.1.getD ix 0 ≤ (q.2.2.1 : Int))
    (hcl : b.coeffs.length = b.transforms_shape.length)
    (hclen : ∀ p ∈ b.axes4.zip b.coeffs, ∀ ix,
      (p.2.getD ix []).length = (p.1.2.1.getD ix 0 - p.1.1.getD ix 0).toNat)
    (e : Nat) :
    (b.get_dofs e).Nodup ∧ (b.get_dofs e).length = (b.get_coefficients e).length := by
  have hlen4 : b.axes4.length = b.transforms_shape.length := by
    unfold StructuredBasis.axes4
    simp [List.length_zip, hl1, hl2, hl3]
  have hixlen : (getIndicesAux b.transforms_shape e).1.length =
      b.transforms_shape.length := getIndicesAux_length _ _
  constructor
  · unfold StructuredBasis.get_dofs
    apply structDofs_nodup b.axes4 _ [0] (by simp) (by simp)
    intro p hp
    have hpmem := List.of_mem_zip hp
    exact ⟨hnd p.1 hpmem.1, axisDofs_nodup (hnd p.1 hpmem.1) (hspan p.1 hpmem.1 p.2)⟩
  · unfold StructuredBasis.get_dofs StructuredBasis.get_coefficients
    rw [structDofs_length b.axes4 _ [0] (by rw [hlen4, hixlen])]
    rw [List.length_singleton, Nat.one_mul]
    have hcoefflen : (b.coeffs.zip (getIndicesAux b.transforms_shape e).1).length =
        b.transforms_shape.length := by
      rw [List.length_zip, hcl, hixlen]
      simp
    cases hmatch : (b.coeffs.zip (getIndicesAux b.transforms_shape e).1).map
        (fun p => p.1.getD p.2 []) with
    | nil =>
      exfalso
      apply hne
      have h0 := congrArg List.length hmatch
      rw [List.length_map, hcoefflen] at h0
      exact List.length_eq_zero.mp h0
    | cons c cs =>
      rw [foldl_poly_outer_length]
      have hprodeq : c.length * (cs.map List.length).prod =
          ((c :: cs).map List.length).prod := by
        rw [List.map_cons, List.prod_cons]
      rw [hprodeq, ← hmatch, List.map_map]
      exact zip_map_prod_congr b.axes4 b.coeffs _
        (fun q ix => (axisDofs q.1 q.2.1 q.2.2.1 ix).length)
        (fun cl ix => (cl.getD ix []).length)
        (by omega)
        (fun p hp ix => by
          show (axisDofs p.1.1 p.1.2.1 p.1.2.2.1 ix).length = (p.2.getD ix []).length
          rw [axisDofs_length]
          exact (hclen p hp ix).symm)

-- ### Claim theorems: C1 and C2

/-- C1: For every Basis instance of any variant (PlainBasis with the default
support computation, DiscontBasis, MaskedBasis, StructuredBasis, PrunedBasis),
and for every in-range element index `e` and dof index `d`: `e` is a member of
`get_support(d)` if and only if `d` is a member of `get_dofs(e)`, and
`get_support(d)` is sorted and duplicate-free (strictly increasing).  Wrapping
variants (Masked, Pruned) are settled relative to an arbitrary parent basis
satisfying the same contract; the well-formedness hypotheses are the
constructor checks and the documented preconditions of each variant. -/
theorem basis_support_roundtrip :
    (∀ b : PlainBasis, (∀ e < b.nelems, ∀ dd ∈ b.get_dofs e, dd < b.ndofs) →
      ∀ e < b.nelems, ∀ d < b.ndofs,
        ((e ∈ computedSupport b.nelems b.get_dofs d ↔ d ∈ b.get_dofs e) ∧
          (computedSupport b.nelems b.get_dofs d).Pairwise (· < ·))) ∧
    (∀ b : DiscontBasis, ∀ e < b.nelems, ∀ d < b.ndofs,
        ((e ∈ b.get_support d ↔ d ∈ b.get_dofs e) ∧
          (b.get_support d).Pairwise (· < ·))) ∧
    (∀ m : MaskedBasis, m.valid → m.parent.roundtrip →
      (∀ dp < m.parent.ndofs, (m.parent.get_support dp).Pairwise (· < ·)) →
      ∀ e < m.parent.nelems, ∀ d < m.ndofs,
        ((e ∈ m.get_support d ↔ d ∈ m.get_dofs e) ∧
          (m.get_support d).Pairwise (· < ·))) ∧
    (∀ b : StructuredBasis,
      b.start_dofs.length = b.transforms_shape.length →
      b.stop_dofs.length = b.transforms_shape.length →
      b.dofs_shape.length = b.transforms_shape.length →
      b.transforms_shape ≠ [] →
      (∀ q ∈ b.axes4, q.1.Pairwise (· ≤ ·) ∧ q.2.1.Pairwise (· ≤ ·) ∧
        (∀ x ∈ q.1, 0 ≤ x) ∧ 0 < q.2.2.1 ∧ 0 < q.2.2.2 ∧
        q.1.length = q.2.2.2 ∧ q.2.1.length = q.2.2.2) →
      ∀ e < b.nelems, ∀ d < b.ndofs,
        ((e ∈ b.get_support d ↔ (d : Int) ∈ b.get_dofs e) ∧
          (b.get_support d).Pairwise (· < ·))) ∧
    (∀ b : PrunedBasis, b.transmap.Pairwise (· < ·) →
      (∀ t ∈ b.transmap, t < b.parent.nelems) →
      (∀ e < b.parent.nelems, ∀ v ∈ b.parent.get_dofs e, v < b.parent.ndofs) →
      b.parent.roundtrip →
      (∀ dp < b.parent.ndofs, (b.parent.get_support dp).Pairwise (· < ·)) →
      ∀ e < b.transmap.length, ∀ d < b.dofmap.length,
        ((e ∈ b.get_support d ↔ d ∈ b.get_dofs e) ∧
          (b.get_support d).Pairwise (· < ·))) := by
  refine ⟨?_, ?_, ?_, ?_, ?_⟩
  · intro b _ e he d _
    exact ⟨computedSupport_roundtrip b.nelems b.get_dofs e d he,
      computedSupport_pairwise b.nelems b.get_dofs d⟩
  · intro b e he d hd
    exact ⟨b.discont_roundtrip e d he hd, b.discont_support_pairwise d⟩
  · intro m hv hpar hps e he d hd
    refine ⟨m.masked_roundtrip hv hpar e d he hd, ?_⟩
    unfold MaskedBasis.get_support
    have hd' : d < m.indices.length := hd
    have hmem : m.indices.getD d 0 ∈ m.indices := by
      rw [List.getD_eq_getElem?_getD, List.getElem?_eq_getElem hd']
      exact List.getElem_mem _
    exact hps _ (hv.2 _ hmem)
  · intro b hl1 hl2 hl3 hne hax e he d hd
    refine ⟨b.structured_roundtrip hl1 hl2 hl3 hne hax e d he hd, ?_⟩
    exact b.structured_support_pairwise
      (fun q hq => ⟨(hax q hq).2.2.2.2.1, (hax q hq).2.2.2.2.2.1⟩) d
  · intro b htm htb hpd hpar hps e he d hd
    refine ⟨b.pruned_roundtrip htm htb hpd hpar e d he hd, ?_⟩
    unfold PrunedBasis.get_support
    have hdmmem : b.dofmap.getD d 0 ∈ b.dofmap := by
      rw [List.getD_eq_getElem?_getD, List.getElem?_eq_getElem hd]
      exact List.getElem_mem _
    have hdmlt : b.dofmap.getD d 0 < b.parent.ndofs := by
      rcases List.mem_flatMap.mp (npUniqueNat_mem.mp hdmmem) with ⟨t, htmem, hvd⟩
      exact hpd t (htb t htmem) _ hvd
    exact sorted_index_mask_pairwise htm (hps _ hdmlt)

theorem basis_support_roundtrip_witness :
    ((1 ∈ computedSupport 4 plainT.get_dofs 3 ↔ 3 ∈ plainT.get_dofs 1) ∧
      (computedSupport 4 plainT.get_dofs 3).Pairwise (· < ·)) ∧
    ((1 ∈ discontT.get_support 2 ↔ 2 ∈ discontT.get_dofs 1) ∧
      (discontT.get_support 2).Pairwise (· < ·)) ∧
    ((3 ∈ maskedT.get_support 1 ↔ 1 ∈ maskedT.get_dofs 3) ∧
      (maskedT.get_support 1).Pairwise (· < ·)) ∧
    ((3 ∈ structT.get_support 0 ↔ ((0 : Nat) : Int) ∈ structT.get_dofs 3) ∧
      (structT.get_support 0).Pairwise (· < ·)) ∧
    ((1 ∈ prunedT.get_support 2 ↔ 2 ∈ prunedT.get_dofs 1) ∧
      (prunedT.get_support 2).Pairwise (· < ·)) := by
  obtain ⟨h1, h2, h3, h4, h5⟩ := basis_support_roundtrip
  refine ⟨?_, ?_, ?_, ?_, ?_⟩
  · exact h1 plainT (by decide) 1 (by decide) 3 (by decide)
  · exact h2 discontT 1 (by decide) 2 (by decide)
  · exact h3 maskedT ⟨by decide, by decide⟩
      (by decide : ∀ e < (4:Nat), ∀ dd < (4:Nat),
        (e ∈ parentT.get_support dd ↔ dd ∈ parentT.get_dofs e))
      (by decide) 3 (by decide) 1 (by decide)
  · exact h4 structT (by decide) (by decide) (by decide) (by decide) (by decide)
      3 (by decide) 0 (by decide)
  · exact h5 prunedT (by decide) (by decide) (by decide)
      (by decide : ∀ e < (4:Nat), ∀ dd < (4:Nat),
        (e ∈ parentT.get_support dd ↔ dd ∈ parentT.get_dofs e))
      (by decide) 1 (by decide) 2 (by decide)

/-- C2 (counterexample): the claim fails as stated for a `PlainBasis` built
from arbitrary per-element tables: the instance `c2cex` satisfies all of
`PlainBasis.__init__`'s assertions, element 0 is in range, and the coefficient
row count matches, but the sorted dof array of element 0 is not strictly
increasing (the table holds a duplicate). -/
theorem basis_dofs_unique_counterexample :
    c2cex.valid ∧ 0 < c2cex.nelems ∧
      (c2cex.get_dofs 0).length = (c2cex.get_coefficients 0).length ∧
      ¬ (sortedList (c2cex.get_dofs 0)).Pairwise (· < ·) := by decide

/-- C2 (amended): for every Basis variant and in-range element `e`,
`sorted(get_dofs(e))` is strictly increasing and the dof count equals the
leading-axis length of `get_coefficients(e)` — provided the underlying data is
duplicate-free: for `PlainBasis` the per-element table must itself be
duplicate-free (the constructor does not check this, see the counterexample),
for `StructuredBasis` each axis span `stop-start` must not exceed the axis dof
count and the coefficient tables must have matching lengths, and the wrapping
variants require the same of their parent.  `DiscontBasis` needs no extra
condition. -/
theorem basis_dofs_unique_amended :
    (∀ b : PlainBasis, b.valid → ∀ e < b.nelems, (b.get_dofs e).Nodup →
      ((sortedList (b.get_dofs e)).Pairwise (· < ·) ∧
        (b.get_dofs e).length = (b.get_coefficients e).length)) ∧
    (∀ b : DiscontBasis, ∀ e < b.nelems,
      ((sortedList (b.get_dofs e)).Pairwise (· < ·) ∧
        (b.get_dofs e).length = (b.get_coefficients e).length)) ∧
    (∀ m : MaskedBasis, m.indices.Pairwise (· < ·) → ∀ e : Nat,
      (m.parent.get_dofs e).Nodup →
      (m.parent.get_coefficients e).length = (m.parent.get_dofs e).length →
      ((sortedList (m.get_dofs e)).Pairwise (· < ·) ∧
        (m.get_dofs e).length = (m.get_coefficients e).length)) ∧
    (∀ b : StructuredBasis,
      b.start_dofs.length = b.transforms_shape.length →
      b.stop_dofs.length = b.transforms_shape.length →
      b.dofs_shape.length = b.transforms_shape.length →
      b.transforms_shape ≠ [] →
      (∀ q ∈ b.axes4, 0 < q.2.2.1 ∧ q.1.length = q.2.2.2 ∧ q.2.1.length = q.2.2.2) →
      (∀ q ∈ b.axes4, ∀ ix < q.2.2.2,
        q.2.1.getD ix 0 - q.1.getD ix 0 ≤ (q.2.2.1 : Int)) →
      b.coeffs.length = b.transforms_shape.length →
      (∀ p ∈ b.axes4.zip b.coeffs, p.2.length = p.1.2.2.2 ∧ ∀ ix < p.1.2.2.2,
        (p.2.getD ix []).length = (p.1.2.1.getD ix 0 - p.1.1.getD ix 0).toNat) →
      ∀ e : Nat,
      ((sortedList (b.get_dofs e)).Pairwise (· < ·) ∧
        (b.get_dofs e).length = (b.get_coefficients e).length)) ∧
    (∀ b : PrunedBasis, ∀ e < b.transmap.length,
      (b.parent.get_dofs (b.transmap.getD e 0)).Nodup →
      (b.parent.get_coefficients (b.transmap.getD e 0)).length =
        (b.parent.get_dofs (b.transmap.getD e 0)).length →
      ((sortedList (b.get_dofs e)).Pairwise (· < ·) ∧
        (b.get_dofs e).length = (b.get_coefficients e).length)) := by
  refine ⟨?_, ?_, ?_, ?_, ?_⟩
  · intro b hv e he hnd
    refine ⟨(pairwise_lt_sortedList_iff _).mpr hnd, ?_⟩
    have h1 := hv.1
    have h2 := (hv.2 e (by
      unfold PlainBasis.nelems at he
      omega : e < b.dofs.length)).symm
    exact h2
  · intro b e he
    obtain ⟨hnd, hlen⟩ := b.discont_dofs_nodup_length e he
    exact ⟨(pairwise_lt_sortedList_iff _).mpr hnd, hlen⟩
  · intro m hinc e hnd hlen
    obtain ⟨hnd2, hlen2⟩ := m.masked_dofs_nodup_length e hinc hnd hlen
    exact ⟨(pairwise_lt_sortedList_iff _).mpr hnd2, hlen2⟩
  · intro b hl1 hl2 hl3 hne hnd hspan hcl hclen e
    have hspan2 : ∀ q ∈ b.axes4, ∀ ix,
        q.2.1.getD ix 0 - q.1.getD ix 0 ≤ (q.2.2.1 : Int) := by
      intro q hq ix
      rcases Nat.lt_or_ge ix q.2.2.2 with hix | hix
      · exact hspan q hq ix hix
      · have hst : q.1.getD ix 0 = 0 :=
          List.getD_eq_default _ _ (by rw [(hnd q hq).2.1]; omega)
        have hsp : q.2.1.getD ix 0 = 0 :=
          List.getD_eq_default _ _ (by rw [(hnd q hq).2.2]; omega)
        rw [hst, hsp]
        have := (hnd q hq).1
        omega
    have hclen2 : ∀ p ∈ b.axes4.zip b.coeffs, ∀ ix,
        (p.2.getD ix []).length = (p.1.2.1.getD ix 0 - p.1.1.getD ix 0).toNat := by
      intro p hp ix
      have hq := hnd p.1 (List.of_mem_zip hp).1
      rcases Nat.lt_or_ge ix p.1.2.2.2 with hix | hix
      · exact (hclen p hp).2 ix hix
      · have hc0 : p.2.getD ix [] = [] :=
          List.getD_eq_default _ _ (by rw [(hclen p hp).1]; omega)
        have hst : p.1.1.getD ix 0 = 0 :=
          List.getD_eq_default _ _ (by rw [hq.2.1]; omega)
        have hsp : p.1.2.1.getD ix 0 = 0 :=
          List.getD_eq_default _ _ (by rw [hq.2.2]; omega)
        rw [hc0, hst, hsp]
        rfl
    obtain ⟨hnd2, hlen2⟩ := b.structured_dofs_nodup_length hl1 hl2 hl3 hne
      (fun q hq => (hnd q hq).1) hspan2 hcl hclen2 e
    exact ⟨(pairwise_lt_sortedList_iff _).mpr hnd2, hlen2⟩
  · intro b e he hnd hlen
    obtain ⟨hnd2, hlen2⟩ := b.pruned_dofs_nodup_length e he hnd hlen
    exact ⟨(pairwise_lt_sortedList_iff _).mpr hnd2, hlen2⟩

theorem basis_dofs_unique_amended_witness :
    ((sortedList (plainT.get_dofs 1)).Pairwise (· < ·) ∧
      (plainT.get_dofs 1).length = (plainT.get_coefficients 1).length) ∧
    ((sortedList (discontT.get_dofs 2)).Pairwise (· < ·) ∧
      (discontT.get_dofs 2).length = (discontT.get_coefficients 2).length) ∧
    ((sortedList (maskedT.get_dofs 1)).Pairwise (· < ·) ∧
      (maskedT.get_dofs 1).length = (maskedT.get_coefficients 1).length) ∧
    ((sortedList (structT.get_dofs 3)).Pairwise (· < ·) ∧
      (structT.get_dofs 3).length = (structT.get_coefficients 3).length) ∧
    ((sortedList (prunedT.get_dofs 1)).Pairwise (· < ·) ∧
      (prunedT.get_dofs 1).length = (prunedT.get_coefficients 1).length) := by
  obtain ⟨h1, h2, h3, h4, h5⟩ := basis_dofs_unique_amended
  refine ⟨?_, ?_, ?_, ?_, ?_⟩
  · exact h1 plainT (by decide) 1 (by decide) (by decide)
  · exact h2 discontT 2 (by decide)
  · exact h3 maskedT (by decide) 1 (by decide) (by decide)
  · exact h4 structT (by decide) (by decide) (by decide) (by decide) (by decide)
      (by decide) (by decide) (by decide) 3
  · exact h5 prunedT 1 (by decide) (by decide) (by decide)

-- ### Claim theorem: C5

/-- C5: For every `MaskedBasis` built from a parent basis and a strictly
increasing index array (the constructor checks), and every element index `e`
in range: `get_coefficients(e)` equals the parent coefficient rows restricted
to exactly those whose same-position parent dof is a member of the index
array, kept in the parent's order (`maskedCoefficientsSpec`).  The hypothesis
`hlen` is the parent's basic shape contract: one coefficient row per dof. -/
theorem masked_coefficients_filter (m : MaskedBasis) (hv : m.valid)
    (e : Nat) (he : e < m.parent.nelems)
    (hlen : (m.parent.get_coefficients e).length = (m.parent.get_dofs e).length) :
    m.get_coefficients e =
      maskedCoefficientsSpec m.indices (m.parent.get_dofs e)
        (m.parent.get_coefficients e) :=
  m.coefficients_spec e hlen

theorem masked_coefficients_filter_witness :
    maskedT.get_coefficients 1 =
      maskedCoefficientsSpec maskedT.indices (maskedT.parent.get_dofs 1)
        (maskedT.parent.get_coefficients 1) :=
  masked_coefficients_filter maskedT ⟨by decide, by decide⟩ 1 (by decide) (by decide)

theorem npUnique_mem_int {l : List Int} {v : Int} : v ∈ npUnique l ↔ v ∈ l := by
  simp [npUnique, List.mem_dedup, List.mem_insertionSort]

theorem npUnique_sorted (l : List Int) : (npUnique l).Pairwise (· ≤ ·) :=
  (List.sorted_insertionSort (· ≤ ·) l).sublist (List.dedup_sublist _)

theorem sorted_headI_le {u : List Int} (hs : u.Pairwise (· ≤ ·)) {v : Int}
    (hv : v ∈ u) : u.headI ≤ v := by
  cases u with
  | nil => cases hv
  | cons h t =>
    rcases List.mem_cons.mp hv with rfl | hvt
    · exact le_refl _
    · exact (List.pairwise_cons.mp hs).1 v hvt

theorem le_getLastD_self : ∀ (t : List Int) (c : Int), t.Pairwise (· ≤ ·) →
    (∀ x ∈ t, c ≤ x) → c ≤ t.getLastD c := by
  intro t
  induction t with
  | nil => intro c _ _; exact le_refl _
  | cons x s ih =>
    intro c hp hall
    rw [List.getLastD_cons]
    exact le_trans (hall x (List.mem_cons_self x s))
      (ih x (List.pairwise_cons.mp hp).2 (List.pairwise_cons.mp hp).1)

theorem sorted_le_getLastD : ∀ (u : List Int) (d : Int), u.Pairwise (· ≤ ·) →
    ∀ v ∈ u, v ≤ u.getLastD d := by
  intro u
  induction u with
  | nil => intro d _ v hv; cases hv
  | cons h t ih =>
    intro d hp v hv
    rw [List.getLastD_cons]
    rcases List.mem_cons.mp hv with rfl | hvt
    · exact le_getLastD_self t v (List.pairwise_cons.mp hp).2
        (List.pairwise_cons.mp hp).1
    · exact ih h (List.pairwise_cons.mp hp).2 v hvt

-- ### Claim theorems: C6

/-- C6 (counterexample): a negative scalar index inside Python wrapping range
is silently adjusted, not rejected: on a basis with 4 dofs (the PlainBasis of
the test suite), `get_support(-1)` returns the support of dof 3 rather than
raising IndexError. -/
theorem basis_index_errors_counterexample :
    getSupportDispatch 4 4 plainT.get_dofs (.scalar (-1)) =
      .ok (computedSupport 4 plainT.get_dofs 3) := rfl

/-- C6 (amended): the constructor and index checks as the code performs them.
`MaskedBasis.__init__` raises ValueError for a non-one-dimensional, a
non-strictly-increasing, or an out-of-range indices array.  `get_support`
raises IndexError for a scalar outside `[-ndofs, ndofs)` — but a negative
scalar inside that range wraps around to dof `ndofs + i` (the correction to
the claim); it raises IndexError for an integer array of wrong dimensionality
or with any entry outside `[0, ndofs)`, for a boolean array whose shape is not
`(ndofs,)`, and for an argument of any other type, and
`MaskedBasis.get_support` rejects integer arrays with negative entries.
`get_dofs` behaves the same way over element indices: IndexError for a scalar
outside `[-nelems, nelems)` with the same silent wrap for a negative scalar
inside that range, and IndexError for an integer array of wrong
dimensionality or with any entry outside `[0, nelems)`, for a boolean array
whose shape is not `(nelems,)`, and for an argument of any other type. -/
theorem basis_index_errors_amended :
    (∀ (plen ndim : Nat) (idxs : List Int), ndim ≠ 1 →
      ∃ msg, maskedBasisInitChecks plen ndim idxs = .error (.valueError msg)) ∧
    (∀ (plen : Nat) (idxs : List Int), idxs ≠ [] → ¬ List.Chain' (· < ·) idxs →
      ∃ msg, maskedBasisInitChecks plen 1 idxs = .error (.valueError msg)) ∧
    (∀ (plen : Nat) (idxs : List Int), idxs ≠ [] →
      (idxs.headI < 0 ∨ (plen : Int) ≤ idxs.getLastD 0) →
      ∃ msg, maskedBasisInitChecks plen 1 idxs = .error (.valueError msg)) ∧
    (∀ (nd ne : Nat) (gd : Nat → List Nat) (i : Int), (i < -(nd : Int) ∨ (nd : Int) ≤ i) →
      ∃ msg, getSupportDispatch nd ne gd (.scalar i) = .error (.indexError msg)) ∧
    (∀ (nd ne : Nat) (gd : Nat → List Nat) (i : Int), -(nd : Int) ≤ i → i < 0 →
      getSupportDispatch nd ne gd (.scalar i) =
        .ok (computedSupport ne gd (i + (nd : Int)).toNat)) ∧
    (∀ (nd ne ndim : Nat) (gd : Nat → List Nat) (entries : List Int), ndim ≠ 1 →
      ∃ msg, getSupportDispatch nd ne gd (.intarr ndim entries) =
        .error (.indexError msg)) ∧
    (∀ (nd ne : Nat) (gd : Nat → List Nat) (entries : List Int),
      (∃ v ∈ entries, v < 0 ∨ (nd : Int) ≤ v) →
      ∃ msg, getSupportDispatch nd ne gd (.intarr 1 entries) =
        .error (.indexError msg)) ∧
    (∀ (nd ne : Nat) (gd : Nat → List Nat) (shape : List Nat) (entries : List Bool), shape ≠ [nd] →
      ∃ msg, getSupportDispatch nd ne gd (.boolarr shape entries) =
        .error (.indexError msg)) ∧
    (∀ (nd ne : Nat) (gd : Nat → List Nat), ∃ msg, getSupportDispatch nd ne gd DofArg.other =
      .error (.indexError msg)) ∧
    (∀ m : MaskedBasis, ∀ (pd : DofArg → Except PyErr (List Nat)) (entries : List Int),
      (∃ v ∈ entries, v < 0) →
      maskedGetSupportIntArr m pd 1 entries =
        .error (.indexError "dof out of bounds")) ∧
    (∀ (b : PlainBasis) (i : Int),
      (i < -(b.dofs.length : Int) ∨ (b.dofs.length : Int) ≤ i) →
      ∃ msg, getDofsDispatch b (.scalar i) = .error (.indexError msg)) ∧
    (∀ (b : PlainBasis) (i : Int), -(b.dofs.length : Int) ≤ i → i < 0 →
      getDofsDispatch b (.scalar i) =
        .ok (b.dofs.getD (i + (b.dofs.length : Int)).toNat [])) ∧
    (∀ (b : PlainBasis) (ndim : Nat) (entries : List Int), ndim ≠ 1 →
      ∃ msg, getDofsDispatch b (.intarr ndim entries) =
        .error (.indexError msg)) ∧
    (∀ (b : PlainBasis) (entries : List Int),
      (∃ v ∈ entries, v < 0 ∨ (b.nelems : Int) ≤ v) →
      ∃ msg, getDofsDispatch b (.intarr 1 entries) =
        .error (.indexError msg)) ∧
    (∀ (b : PlainBasis) (shape : List Nat) (entries : List Bool),
      shape ≠ [b.nelems] →
      ∃ msg, getDofsDispatch b (.boolarr shape entries) =
        .error (.indexError msg)) ∧
    (∀ b : PlainBasis, ∃ msg, getDofsDispatch b DofArg.other =
      .error (.indexError msg)) := by
  refine ⟨?_, ?_, ?_, ?_, ?_, ?_, ?_, ?_, ?_, ?_, ?_, ?_, ?_, ?_, ?_, ?_⟩
  · intro plen ndim idxs h
    exact ⟨"indices should have one dimension", by
      unfold maskedBasisInitChecks
      rw [if_pos h]⟩
  · intro plen idxs hne hch
    have hemp : idxs.isEmpty = false := by
      cases idxs with
      | nil => exact absurd rfl hne
      | cons a l => rfl
    exact ⟨"indices should be strictly monotonic increasing", by
      unfold maskedBasisInitChecks
      rw [if_neg (by simp), if_pos ⟨by simp [hemp], hch⟩]⟩
  · intro plen idxs hne hrange
    have hemp : idxs.isEmpty = false := by
      cases idxs with
      | nil => exact absurd rfl hne
      | cons a l => rfl
    by_cases hch : ¬ (idxs.isEmpty : Prop) ∧ ¬ List.Chain' (· < ·) idxs
    · exact ⟨"indices should be strictly monotonic increasing", by
        unfold maskedBasisInitChecks
        rw [if_neg (by simp), if_pos hch]⟩
    · exact ⟨"indices out of range", by
        unfold maskedBasisInitChecks
        rw [if_neg (by simp), if_neg hch, if_pos ⟨by simp [hemp], hrange⟩]⟩
  · intro nd ne gd i hcase
    have hlen : ((List.range nd).map (computedSupport ne gd)).length = nd := by simp
    have hnone : pyGet ((List.range nd).map (computedSupport ne gd)) i = none := by
      unfold pyGet
      rw [hlen]
      rcases hcase with h | h
      · rw [if_neg (by omega), if_pos (by omega)]
      · rw [if_pos (by omega)]
        refine List.get?_eq_none.mpr ?_
        rw [hlen]
        omega
    refine ⟨"tuple index out of range", ?_⟩
    simp only [getSupportDispatch, hnone]
  · intro nd ne gd i h1 h2
    have hnd : 0 < nd := by omega
    have hlen : ((List.range nd).map (computedSupport ne gd)).length = nd := by simp
    have hlt : (i + (nd : Int)).toNat < nd := by omega
    have hsome : pyGet ((List.range nd).map (computedSupport ne gd)) i =
        some (computedSupport ne gd (i + (nd : Int)).toNat) := by
      unfold pyGet
      rw [hlen]
      rw [if_neg (by omega), if_neg (by omega), List.get?_map,
        List.get?_range hlt]
      rfl
    simp only [getSupportDispatch, hsome]
  · intro nd ne ndim gd entries h
    exact ⟨"dof has invalid number of dimensions", by
      simp only [getSupportDispatch]
      unfold getSupportIntArr
      rw [if_pos h]⟩
  · intro nd ne gd entries hex
    obtain ⟨v, hv, hcase⟩ := hex
    have hne : entries ≠ [] := by
      intro h
      rw [h] at hv
      cases hv
    have hemp : entries.isEmpty = false := by
      cases entries with
      | nil => exact absurd rfl hne
      | cons a l => rfl
    have hvu : v ∈ npUnique entries := npUnique_mem_int.mpr hv
    have hcond : (npUnique entries).headI < 0 ∨
        (nd : Int) ≤ (npUnique entries).getLastD 0 := by
      rcases hcase with h | h
      · exact Or.inl (lt_of_le_of_lt (sorted_headI_le (npUnique_sorted entries) hvu) h)
      · exact Or.inr (le_trans h
          (sorted_le_getLastD (npUnique entries) 0 (npUnique_sorted entries) v hvu))
    exact ⟨"dof out of bounds", by
      simp only [getSupportDispatch]
      unfold getSupportIntArr
      rw [if_neg (by simp), if_neg (by simp [hemp]), if_pos hcond]⟩
  · intro nd ne gd shape entries h
    exact ⟨"dof has invalid shape", by
      simp only [getSupportDispatch]
      rw [if_pos h]⟩
  · intro nd ne gd
    exact ⟨"invalid dof", rfl⟩
  · intro m pd entries hex
    obtain ⟨v, hv, hvlt⟩ := hex
    have hany : entries.any (fun v => decide (v < 0)) = true :=
      List.any_eq_true.mpr ⟨v, hv, by simpa using hvlt⟩
    unfold maskedGetSupportIntArr
    rw [if_pos ⟨rfl, hany⟩]
  · intro b i hcase
    refine ⟨"tuple index out of range", ?_⟩
    have hnone : pyGet b.dofs i = none := by
      unfold pyGet
      rcases hcase with h | h
      · rw [if_neg (by omega), if_pos (by omega)]
      · rw [if_pos (by omega)]
        exact List.get?_eq_none.mpr (by omega)
    simp only [getDofsDispatch, hnone]
  · intro b i h1 h2
    have hlt : (i + (b.dofs.length : Int)).toNat < b.dofs.length := by omega
    have hsome : pyGet b.dofs i =
        some (b.dofs.getD (i + (b.dofs.length : Int)).toNat []) := by
      unfold pyGet
      rw [if_neg (by omega), if_neg (by omega), List.get?_eq_getElem?,
        List.getElem?_eq_getElem hlt, List.getD_eq_getElem?_getD,
        List.getElem?_eq_getElem hlt]
      rfl
    simp only [getDofsDispatch, hsome]
  · intro b ndim entries h
    exact ⟨"invalid ielem", by
      simp only [getDofsDispatch]
      unfold getDofsIntArr
      rw [if_pos h]⟩
  · intro b entries hex
    obtain ⟨v, hv, hcase⟩ := hex
    have hne2 : entries ≠ [] := by
      intro h
      rw [h] at hv
      cases hv
    have hemp : entries.isEmpty = false := by
      cases entries with
      | nil => exact absurd rfl hne2
      | cons a l => rfl
    have hvu : v ∈ npUnique entries := npUnique_mem_int.mpr hv
    have hcond : (npUnique entries).headI < 0 ∨
        (b.nelems : Int) ≤ (npUnique entries).getLastD 0 := by
      rcases hcase with h | h
      · exact Or.inl (lt_of_le_of_lt (sorted_headI_le (npUnique_sorted entries) hvu) h)
      · exact Or.inr (le_trans h
          (sorted_le_getLastD (npUnique entries) 0 (npUnique_sorted entries) v hvu))
    exact ⟨"ielem out of bounds", by
      simp only [getDofsDispatch]
      unfold getDofsIntArr
      rw [if_neg (by simp), if_neg (by simp [hemp]), if_pos hcond]⟩
  · intro b shape entries h
    exact ⟨"ielem has invalid shape", by
      simp only [getDofsDispatch]
      rw [if_pos h]⟩
  · intro b
    exact ⟨"invalid index", rfl⟩

theorem basis_index_errors_amended_witness :
    (∃ msg, maskedBasisInitChecks 4 2 [0, 2] = .error (.valueError msg)) ∧
    (∃ msg, maskedBasisInitChecks 4 1 [2, 0] = .error (.valueError msg)) ∧
    (∃ msg, maskedBasisInitChecks 4 1 [0, 5] = .error (.valueError msg)) ∧
    (∃ msg, getSupportDispatch 4 4 plainT.get_dofs (.scalar 7) =
      .error (.indexError msg)) ∧
    (getSupportDispatch 4 4 plainT.get_dofs (.scalar (-2)) =
      .ok (computedSupport 4 plainT.get_dofs ((-2 : Int) + (4 : Int)).toNat)) ∧
    (∃ msg, getSupportDispatch 4 4 plainT.get_dofs (.intarr 2 [0]) =
      .error (.indexError msg)) ∧
    (∃ msg, getSupportDispatch 4 4 plainT.get_dofs (.intarr 1 [-1, 2]) =
      .error (.indexError msg)) ∧
    (∃ msg, getSupportDispatch 4 4 plainT.get_dofs
      (.boolarr [3] [true, true, true]) = .error (.indexError msg)) ∧
    (∃ msg, getSupportDispatch 4 4 plainT.get_dofs DofArg.other =
      .error (.indexError msg)) ∧
    (maskedGetSupportIntArr maskedT (getSupportDispatch 4 4 plainT.get_dofs)
      1 [-3] = .error (.indexError "dof out of bounds")) ∧
    (∃ msg, getDofsDispatch plainT (.scalar 9) = .error (.indexError msg)) ∧
    (getDofsDispatch plainT (.scalar (-1)) =
      .ok (plainT.dofs.getD ((-1 : Int) + (plainT.dofs.length : Int)).toNat [])) ∧
    (∃ msg, getDofsDispatch plainT (.intarr 2 [0]) = .error (.indexError msg)) ∧
    (∃ msg, getDofsDispatch plainT (.intarr 1 [5]) = .error (.indexError msg)) ∧
    (∃ msg, getDofsDispatch plainT (.boolarr [2] [true, true]) =
      .error (.indexError msg)) ∧
    (∃ msg, getDofsDispatch plainT DofArg.other = .error (.indexError msg)) := by
  obtain ⟨h1, h2, h3, h4, h5, h6, h7, h8, h9, h10, h11, h12, h13, h14, h15, h16⟩ :=
    basis_index_errors_amended
  refine ⟨?_, ?_, ?_, ?_, ?_, ?_, ?_, ?_, ?_, ?_, ?_, ?_, ?_, ?_, ?_, ?_⟩
  · exact h1 4 2 [0, 2] (by decide)
  · exact h2 4 [2, 0] (by decide)
      (by
        intro h
        exact absurd (List.chain'_cons.mp h).1 (by decide))
  · exact h3 4 [0, 5] (by decide) (by decide)
  · exact h4 4 4 plainT.get_dofs 7 (by decide)
  · exact h5 4 4 plainT.get_dofs (-2) (by decide) (by decide)
  · exact h6 4 4 2 plainT.get_dofs [0] (by decide)
  · exact h7 4 4 plainT.get_dofs [-1, 2] ⟨-1, by decide, Or.inl (by decide)⟩
  · exact h8 4 4 plainT.get_dofs [3] [true, true, true] (by decide)
  · exact h9 4 4 plainT.get_dofs
  · exact h10 maskedT (getSupportDispatch 4 4 plainT.get_dofs) [-3]
      ⟨-3, by decide, by decide⟩
  · exact h11 plainT 9 (by decide)
  · exact h12 plainT (-1) (by decide) (by decide)
  · exact h13 plainT 2 [0] (by decide)
  · exact h14 plainT [5] ⟨5, List.mem_cons_self _ _, Or.inr (by decide)⟩
  · exact h15 plainT [2] [true, true] (by decide)
  · exact h16 plainT

theorem dictPop_none {k : Nat} : ∀ {l : List (Nat × Facet)},
    dictPop k l = none → keyCount k l = 0 := by
  intro l
  induction l with
  | nil => intro _; rfl
  | cons p rest ih =>
    obtain ⟨k0, v0⟩ := p
    intro h
    by_cases h0 : k0 = k
    · simp [dictPop, h0] at h
    · cases hrec : dictPop k rest with
      | none =>
        unfold keyCount
        rw [List.countP_cons]
        have := ih hrec
        unfold keyCount at this
        simp [h0, this]
      | some pr => simp [dictPop, h0, hrec] at h

theorem dictPop_some {k : Nat} : ∀ {l : List (Nat × Facet)} {v : Facet}
    {l2 : List (Nat × Facet)}, dictPop k l = some (v, l2) →
    (k, v) ∈ l ∧ (∀ p ∈ l2, p ∈ l) ∧
      ∀ q, keyCount q l = keyCount q l2 + (if q = k then 1 else 0) := by
  intro l
  induction l with
  | nil => intro v l2 h; simp [dictPop] at h
  | cons p rest ih =>
    obtain ⟨k0, v0⟩ := p
    intro v l2 h
    by_cases h0 : k0 = k
    · rw [dictPop, if_pos h0] at h
      obtain ⟨hv, hl⟩ : v0 = v ∧ rest = l2 := by
        constructor <;> [exact congrArg (·.1) (Option.some.inj h);
          exact congrArg (·.2) (Option.some.inj h)]
      subst hv; subst hl; subst h0
      refine ⟨List.mem_cons_self _ _, fun p hp => List.mem_cons_of_mem _ hp, ?_⟩
      intro q
      unfold keyCount
      rw [List.countP_cons]
      by_cases hq : q = k0
      · simp [hq]
      · have hq2 : ¬ k0 = q := fun h => hq h.symm
        simp [hq, hq2]
    · cases hrec : dictPop k rest with
      | none => rw [dictPop, if_neg h0, hrec] at h; cases h
      | some pr =>
        obtain ⟨r, rest2⟩ := pr
        rw [dictPop, if_neg h0, hrec] at h
        obtain ⟨hv, hl⟩ : r = v ∧ (k0, v0) :: rest2 = l2 := by
          constructor <;> [exact congrArg (·.1) (Option.some.inj h);
            exact congrArg (·.2) (Option.some.inj h)]
        subst hv; subst hl
        obtain ⟨hmem, hsub, hcnt⟩ := ih hrec
        refine ⟨List.mem_cons_of_mem _ hmem, ?_, ?_⟩
        · intro p hp
          rcases List.mem_cons.mp hp with rfl | hp2
          · exact List.mem_cons_self _ _
          · exact List.mem_cons_of_mem _ (hsub p hp2)
        · intro q
          unfold keyCount
          rw [List.countP_cons, List.countP_cons]
          have := hcnt q
          unfold keyCount at this
          omega

/-- The matching invariant of `edge_search`: as long as all facets sharing a
key carry equal references, the scan succeeds, the remaining boundary edges
hold each key with the parity of its total multiplicity, and the interfaces
hold each key half (rounded down) as many times. -/
theorem edgeScan_ok : ∀ (fs : List Facet) (edges : List (Nat × Facet))
    (ifaces : List (Facet × Facet)),
    (∀ p ∈ edges, p.1 = p.2.key) →
    (∀ k, keyCount k edges ≤ 1) →
    (∀ f ∈ fs, ∀ g ∈ fs, f.key = g.key → f.ref = g.ref) →
    (∀ f ∈ fs, ∀ p ∈ edges, f.key = p.1 → f.ref = p.2.ref) →
    ∃ bnd ifc, edgeScan fs edges ifaces = .ok (bnd, ifaces ++ ifc) ∧
      (∀ k, facetCount k bnd = (facetCount k fs + keyCount k edges) % 2) ∧
      (∀ k, ifaceCount k ifc = (facetCount k fs + keyCount k edges) / 2) := by
  intro fs
  induction fs with
  | nil =>
    intro edges ifaces hkey hle _ _
    refine ⟨edges.map Prod.snd, [], by simp [edgeScan], ?_, ?_⟩
    · intro k
      have h1 : facetCount k (edges.map Prod.snd) = keyCount k edges := by
        unfold facetCount keyCount
        rw [List.countP_map]
        apply List.countP_congr
        intro p hp
        simp [Function.comp, hkey p hp]
      have h2 := hle k
      have h0 : facetCount k ([] : List Facet) = 0 := rfl
      rw [h1, h0]
      omega
    · intro k
      have h2 := hle k
      have h0 : facetCount k ([] : List Facet) = 0 := rfl
      have h3 : ifaceCount k ([] : List (Facet × Facet)) = 0 := rfl
      rw [h0, h3]
      omega
  | cons f rest ih =>
    intro edges ifaces hkey hle hff hfe
    have hff2 : ∀ a ∈ rest, ∀ b ∈ rest, a.key = b.key → a.ref = b.ref :=
      fun a ha b hb => hff a (List.mem_cons_of_mem f ha) b (List.mem_cons_of_mem f hb)
    have hA : ∀ k, facetCount k (f :: rest) =
        facetCount k rest + (if f.key = k then 1 else 0) := by
      intro k
      unfold facetCount
      rw [List.countP_cons]
      by_cases hk : f.key = k <;> simp [hk]
    cases hpop : dictPop f.key edges with
    | none =>
      have hkey2 : ∀ p ∈ edges ++ [(f.key, f)], p.1 = p.2.key := by
        intro p hp
        rcases List.mem_append.mp hp with h | h
        · exact hkey p h
        · have : p = (f.key, f) := by simpa using h
          rw [this]
      have hcnt0 : keyCount f.key edges = 0 := dictPop_none hpop
      have hB : ∀ k, keyCount k (edges ++ [(f.key, f)]) =
          keyCount k edges + (if f.key = k then 1 else 0) := by
        intro k
        unfold keyCount
        rw [List.countP_append]
        by_cases hk : f.key = k <;> simp [hk]
      have hle2 : ∀ k, keyCount k (edges ++ [(f.key, f)]) ≤ 1 := by
        intro k
        rw [hB k]
        by_cases hk : f.key = k
        · subst hk
          rw [hcnt0]
          simp
        · have := hle k
          simp [hk]
          omega
      have hfe2 : ∀ g ∈ rest, ∀ p ∈ edges ++ [(f.key, f)],
          g.key = p.1 → g.ref = p.2.ref := by
        intro g hg p hp hkp
        rcases List.mem_append.mp hp with h | h
        · exact hfe g (List.mem_cons_of_mem f hg) p h hkp
        · have hpf : p = (f.key, f) := by simpa using h
          subst hpf
          exact hff g (List.mem_cons_of_mem f hg) f (List.mem_cons_self f rest)
            (by simpa using hkp)
      obtain ⟨bnd, ifc, hscan, hbnd, hifc⟩ :=
        ih (edges ++ [(f.key, f)]) ifaces hkey2 hle2 hff2 hfe2
      refine ⟨bnd, ifc, ?_, ?_, ?_⟩
      · rw [show edgeScan (f :: rest) edges ifaces =
          edgeScan rest (edges ++ [(f.key, f)]) ifaces by simp [edgeScan, hpop]]
        exact hscan
      · intro k
        rw [hbnd k, hA k, hB k]
        by_cases hk : f.key = k <;> simp [hk] <;> omega
      · intro k
        rw [hifc k, hA k, hB k]
        by_cases hk : f.key = k <;> simp [hk] <;> omega
    | some pr =>
      obtain ⟨opp, edges2⟩ := pr
      obtain ⟨hmem, hsub, hcnt⟩ := dictPop_some hpop
      have hrefeq : f.ref = opp.ref :=
        hfe f (List.mem_cons_self f rest) (f.key, opp) hmem rfl
      have hkey2 : ∀ p ∈ edges2, p.1 = p.2.key := fun p hp => hkey p (hsub p hp)
      have hle2 : ∀ k, keyCount k edges2 ≤ 1 := by
        intro k
        have h1 := hle k
        have h2 := hcnt k
        by_cases hk : k = f.key
        · subst hk
          simp at h2
          omega
        · simp [hk] at h2
          omega
      have hfe2 : ∀ g ∈ rest, ∀ p ∈ edges2, g.key = p.1 → g.ref = p.2.ref :=
        fun g hg p hp => hfe g (List.mem_cons_of_mem f hg) p (hsub p hp)
      obtain ⟨bnd, ifc, hscan, hbnd, hifc⟩ :=
        ih edges2 (ifaces ++ [(f, opp)]) hkey2 hle2 hff2 hfe2
      refine ⟨bnd, (f, opp) :: ifc, ?_, ?_, ?_⟩
      · rw [show edgeScan (f :: rest) edges ifaces =
          edgeScan rest edges2 (ifaces ++ [(f, opp)]) by simp [edgeScan, hpop, hrefeq]]
        rw [hscan, List.append_assoc]
        rfl
      · intro k
        rw [hbnd k, hA k]
        have h2 := hcnt k
        by_cases hk : f.key = k
        · subst hk
          simp at h2 ⊢
          omega
        · have hk2 : ¬ k = f.key := fun h => hk h.symm
          simp [hk] at h2 ⊢
          simp [hk2] at h2
          omega
      · intro k
        have hC : ifaceCount k ((f, opp) :: ifc) =
            ifaceCount k ifc + (if f.key = k then 1 else 0) := by
          unfold ifaceCount
          rw [List.countP_cons]
          by_cases hk : f.key = k <;> simp [hk]
        rw [hC, hifc k, hA k]
        have h2 := hcnt k
        by_cases hk : f.key = k
        · subst hk
          simp at h2 ⊢
          omega
        · have hk2 : ¬ k = f.key := fun h => hk h.symm
          simp [hk] at h2 ⊢
          simp [hk2] at h2
          omega

-- ### Claim theorems: C4

/-- C4 (counterexample): a facet key of multiplicity three does not raise an
error.  Three facets share key 0 with equal references; `edge_search` pairs
the first two into an interface, stores the third again, and returns
successfully with one boundary facet and one interface. -/
theorem edge_matching_counterexample :
    facetCount 0 [⟨0, 7, 1⟩, ⟨0, 7, 2⟩, ⟨0, 7, 3⟩] = 3 ∧
    edgeScan [⟨0, 7, 1⟩, ⟨0, 7, 2⟩, ⟨0, 7, 3⟩] [] [] =
      .ok ([⟨0, 7, 3⟩], [(⟨0, 7, 2⟩, ⟨0, 7, 1⟩)]) :=
  ⟨rfl, rfl⟩

/-- C4 (amended): for any facet list whose facets with equal keys carry equal
references, `edge_search` succeeds (no multiplicity is an error), and for
every key the boundary holds the key with the parity of its total
multiplicity while the interfaces hold it multiplicity-div-two times.  In
particular a key seen exactly once yields exactly one boundary facet and no
interface, and a key seen exactly twice yields no boundary facet and exactly
one interface — but a key seen more than twice is paired greedily instead of
raising an error.  The only fatal condition is the assertion on paired
facets: two facets with an equal key but different references raise the
reference-equality assertion as an exception. -/
theorem edge_matching_amended (fs : List Facet)
    (href : ∀ f ∈ fs, ∀ g ∈ fs, f.key = g.key → f.ref = g.ref) :
    (∃ bnd ifc, edgeScan fs [] [] = .ok (bnd, ifc) ∧
      ∀ k, facetCount k bnd = facetCount k fs % 2 ∧
        ifaceCount k ifc = facetCount k fs / 2) ∧
    (∀ f g : Facet, f.key = g.key → ¬ f.ref = g.ref →
      edgeScan [f, g] [] [] =
        .error "edge.reference equals oppedge.reference") := by
  constructor
  · obtain ⟨bnd, ifc, hscan, hbnd, hifc⟩ :=
      edgeScan_ok fs [] [] (fun p hp => absurd hp (List.not_mem_nil p))
        (fun k => Nat.le_of_eq rfl |>.trans (Nat.zero_le 1))
        href (fun f _ p hp => absurd hp (List.not_mem_nil p))
    refine ⟨bnd, ifc, by simpa using hscan, ?_⟩
    intro k
    have h0 : keyCount k ([] : List (Nat × Facet)) = 0 := rfl
    constructor
    · rw [hbnd k, h0, Nat.add_zero]
    · rw [hifc k, h0, Nat.add_zero]
  · intro f g hkey href2
    have h2 : dictPop g.key [(f.key, f)] = some (f, []) := by
      unfold dictPop
      rw [if_pos hkey]
    have h1 : edgeScan [f, g] [] [] = edgeScan [g] [(f.key, f)] [] := by
      simp [edgeScan, dictPop]
    rw [h1]
    simp only [edgeScan, h2]
    rw [if_neg (fun h => href2 h.symm)]

theorem edge_matching_amended_witness :
    (∃ bnd ifc,
      edgeScan [⟨0, 7, 1⟩, ⟨0, 7, 2⟩, ⟨0, 7, 3⟩, ⟨1, 5, 4⟩] [] [] =
        .ok (bnd, ifc) ∧
      ∀ k, facetCount k bnd =
          facetCount k [⟨0, 7, 1⟩, ⟨0, 7, 2⟩, ⟨0, 7, 3⟩, ⟨1, 5, 4⟩] % 2 ∧
        ifaceCount k ifc =
          facetCount k [⟨0, 7, 1⟩, ⟨0, 7, 2⟩, ⟨0, 7, 3⟩, ⟨1, 5, 4⟩] / 2) ∧
    (edgeScan [⟨0, 1, 1⟩, ⟨0, 2, 2⟩] [] [] =
      .error "edge.reference equals oppedge.reference") := by
  have h := edge_matching_amended [⟨0, 7, 1⟩, ⟨0, 7, 2⟩, ⟨0, 7, 3⟩, ⟨1, 5, 4⟩]
    (by decide)
  exact ⟨h.1, h.2 ⟨0, 1, 1⟩ ⟨0, 2, 2⟩ rfl (by decide)⟩

theorem facetCount_chain (k : Nat) (a b : Nat → Nat) : ∀ ts : List Nat,
    facetCount k ((ts.map fun t => Seg.mk (a t) (b t)).flatMap segFacets) =
      ts.countP (fun t => decide (a t = k)) +
        ts.countP (fun t => decide (b t = k)) := by
  intro ts
  induction ts with
  | nil => rfl
  | cons t rest ih =>
    have hsegs : (((t :: rest).map fun t => Seg.mk (a t) (b t)).flatMap segFacets) =
        segFacets ⟨a t, b t⟩ ++
          ((rest.map fun t => Seg.mk (a t) (b t)).flatMap segFacets) := by
      simp
    unfold facetCount at ih ⊢
    rw [hsegs, List.countP_append, ih]
    simp only [segFacets, List.countP_cons, List.countP_nil]
    by_cases h1 : a t = k <;> by_cases h2 : b t = k <;>
      simp [h1, h2] <;> omega

theorem rotate_countP (p : Nat → Bool) (L : Nat) (hL : 0 < L) :
    (List.range L).countP (fun t => p ((t + 1) % L)) =
      (List.range L).countP p := by
  obtain ⟨M, rfl⟩ : ∃ M, L = M + 1 := ⟨L - 1, by omega⟩
  have hRHS : (List.range (M + 1)).countP p =
      (if p 0 then 1 else 0) + (List.range M).countP (fun t => p (t + 1)) := by
    rw [List.range_succ_eq_map, List.countP_cons, List.countP_map]
    have h3 : (List.range M).countP (p ∘ Nat.succ) =
        (List.range M).countP (fun t => p (t + 1)) :=
      List.countP_congr (fun t _ => Iff.rfl)
    rw [h3]
    by_cases h0 : p 0 <;> simp [h0] <;> omega
  have hLHS : (List.range (M + 1)).countP (fun t => p ((t + 1) % (M + 1))) =
      (List.range M).countP (fun t => p (t + 1)) + (if p 0 then 1 else 0) := by
    rw [List.range_succ, List.countP_append]
    congr 1
    · exact List.countP_congr (fun t ht => by
        rw [Nat.mod_eq_of_lt (by have := List.mem_range.mp ht; omega)])
    · rw [List.countP_cons, List.countP_nil, Nat.mod_self]
      by_cases h0 : p 0 <;> simp [h0]
  rw [hLHS, hRHS]
  omega

/-- Every facet produced by a segment list carries the point reference 0. -/
theorem segFacets_ref (segs : List Seg) :
    ∀ f ∈ segs.flatMap segFacets, f.ref = 0 := by
  intro f hf
  rcases List.mem_flatMap.mp hf with ⟨s, _, hfs⟩
  unfold segFacets at hfs
  rcases List.mem_cons.mp hfs with h | h2
  · rw [h]
  · rcases List.mem_cons.mp h2 with h | h3
    · rw [h]
    · cases h3

-- ### Claim theorem: C7

/-- C7: for every structured `m x n` topology (m, n ≥ 1), taking the boundary
of the boundary never returns a topology of length 0: the facet matching over
the boundary loop does leave zero unmatched facets (every vertex key is shared
by exactly two segments, the mathematical content of the claim), but the
generic `Topology.boundary` property then calls `Topology(edges)` without
`ndims`, and `Topology.__init__` evaluates `self.elements[0].ndims` on the
empty element tuple, raising IndexError (the `none` outcome) instead of
producing an empty topology. -/
theorem boundary_of_boundary_crashes (m n : Nat) (hm : 0 < m) (hn : 0 < n) :
    ∃ ifc, edgeScan ((structBoundarySegs m n).flatMap segFacets) [] [] =
        .ok ([], ifc) ∧
      boundaryOfBoundary (structBoundarySegs m n) = .ok none := by
  have hL : 0 < 2 * (m + n) := by omega
  have hcount : ∀ k, facetCount k ((structBoundarySegs m n).flatMap segFacets) =
      2 * (List.range (2 * (m + n))).countP
        (fun t => decide (rectLoop m n t = k)) := by
    intro k
    unfold structBoundarySegs
    rw [facetCount_chain k (rectLoop m n)
      (fun t => rectLoop m n ((t + 1) % (2 * (m + n)))),
      rotate_countP (fun j => decide (rectLoop m n j = k)) _ hL]
    omega
  have href : ∀ f ∈ (structBoundarySegs m n).flatMap segFacets,
      ∀ g ∈ (structBoundarySegs m n).flatMap segFacets,
      f.key = g.key → f.ref = g.ref := by
    intro f hf g hg _
    rw [segFacets_ref _ f hf, segFacets_ref _ g hg]
  obtain ⟨bnd, ifc, hscan, hbnd, _⟩ :=
    edgeScan_ok ((structBoundarySegs m n).flatMap segFacets) [] []
      (fun p hp => absurd hp (List.not_mem_nil p))
      (fun k => Nat.le_of_eq rfl |>.trans (Nat.zero_le 1))
      href (fun f _ p hp => absurd hp (List.not_mem_nil p))
  have hbnd0 : ∀ k, facetCount k bnd = 0 := by
    intro k
    rw [hbnd k]
    have h0 : keyCount k ([] : List (Nat × Facet)) = 0 := rfl
    rw [h0, Nat.add_zero, hcount k]
    omega
  have hbndnil : bnd = [] := by
    cases hb : bnd with
    | nil => rfl
    | cons f rest =>
      have := hbnd0 f.key
      rw [hb] at this
      unfold facetCount at this
      rw [List.countP_cons] at this
      simp at this
  subst hbndnil
  have hscan2 : edgeScan ((structBoundarySegs m n).flatMap segFacets) [] [] =
      .ok ([], ifc) := by simpa using hscan
  refine ⟨ifc, hscan2, ?_⟩
  unfold boundaryOfBoundary
  rw [hscan2]
  rfl

theorem boundary_of_boundary_crashes_witness :
    ∃ ifc, edgeScan ((structBoundarySegs 1 1).flatMap segFacets) [] [] =
        .ok ([], ifc) ∧
      boundaryOfBoundary (structBoundarySegs 1 1) = .ok none :=
  boundary_of_boundary_crashes 1 1 (by decide) (by decide)

theorem trimmed_elements_spec : ∀ (base : List Element) (rs : List (Finset Nat)),
    base.length = rs.length →
    trimmedTopologyElements base rs =
      (List.range base.length).filterMap fun i =>
        if rs.getD i ∅ = ∅ then none
        else some ⟨rs.getD i ∅, (base.getD i ⟨∅, 0, 0⟩).transform,
          (base.getD i ⟨∅, 0, 0⟩).opposite⟩ := by
  intro base
  induction base with
  | nil => intro rs h; rfl
  | cons e base ih =>
    intro rs h
    cases rs with
    | nil => simp at h
    | cons r rs =>
      have hlen : base.length = rs.length := by simpa using h
      have hcomp : ((fun i =>
          if (r :: rs).getD i ∅ = ∅ then none
          else some (⟨(r :: rs).getD i ∅,
            ((e :: base).getD i ⟨∅, 0, 0⟩).transform,
            ((e :: base).getD i ⟨∅, 0, 0⟩).opposite⟩ : Element)) ∘ Nat.succ) =
          (fun i => if rs.getD i ∅ = ∅ then none
          else some ⟨rs.getD i ∅, (base.getD i ⟨∅, 0, 0⟩).transform,
            (base.getD i ⟨∅, 0, 0⟩).opposite⟩) := by
        funext i
        simp [Function.comp, List.getD_cons_succ]
      unfold trimmedTopologyElements
      rw [List.zip_cons_cons, List.length_cons, List.range_succ_eq_map,
        List.filterMap_cons, List.filterMap_map, hcomp]
      by_cases hr : r = ∅
      · rw [List.filter_cons_of_neg (by simp [hr])]
        simp only [List.getD_cons_zero, if_pos hr]
        exact ih rs hlen
      · rw [List.filter_cons_of_pos (by simp [hr]), List.map_cons]
        simp only [List.getD_cons_zero, if_neg hr]
        exact congrArg _ (ih rs hlen)

theorem volume_trimmedElements (mu : Nat → Int) :
    ∀ (base : List Element) (rs : List (Finset Nat)),
    topoVolume mu (trimmedTopologyElements base rs) =
      ((base.zip rs).map fun p => p.2.sum mu).sum := by
  intro base
  induction base with
  | nil => intro rs; rfl
  | cons e base ih =>
    intro rs
    cases rs with
    | nil => rfl
    | cons r rs =>
      have htail := ih rs
      unfold trimmedTopologyElements topoVolume at htail ⊢
      rw [List.zip_cons_cons]
      by_cases hr : r = ∅
      · rw [List.filter_cons_of_neg (by simp [hr])]
        simp only [List.map_cons, List.sum_cons, htail, hr]
        simp
      · rw [List.filter_cons_of_pos (by simp [hr])]
        simp only [List.map_cons, List.sum_cons, htail]

theorem zip_map_inverse : ∀ (base : List Element) (rs : List (Finset Nat)),
    base.zip (trimmedInverseRefs base rs) =
      (base.zip rs).map fun p => (p.1, p.1.reference \ p.2) := by
  intro base
  induction base with
  | nil => intro rs; rfl
  | cons e base ih =>
    intro rs
    cases rs with
    | nil => rfl
    | cons r rs =>
      show (e :: base).zip
          (((e, r) :: base.zip rs).map fun p => p.1.reference \ p.2) = _
      rw [List.map_cons, List.zip_cons_cons]
      rw [List.zip_cons_cons, List.map_cons]
      exact congrArg _ (ih rs)

theorem sum_zip_partition (mu : Nat → Int) :
    ∀ (base : List Element) (rs : List (Finset Nat)),
    (∀ p ∈ base.zip rs, p.2 ⊆ p.1.reference) →
    ((base.zip rs).map fun p => p.2.sum mu).sum +
      ((base.zip rs).map fun p => (p.1.reference \ p.2).sum mu).sum =
      ((base.zip rs).map fun p => p.1.reference.sum mu).sum := by
  intro base
  induction base with
  | nil => intro rs _; rfl
  | cons e base ih =>
    intro rs hsub
    cases rs with
    | nil => rfl
    | cons r rs =>
      rw [List.zip_cons_cons] at hsub ⊢
      simp only [List.map_cons, List.sum_cons]
      have hsr : r ⊆ e.reference := hsub (e, r) (List.mem_cons_self _ _)
      have hrec := ih rs (fun p hp => hsub p (List.mem_cons_of_mem _ hp))
      have hpart : r.sum mu + (e.reference \ r).sum mu = e.reference.sum mu := by
        rw [add_comm]
        exact Finset.sum_sdiff hsr
      linarith [hrec, hpart]

theorem topoVolume_zip (mu : Nat → Int) : ∀ (base : List Element)
    (rs : List (Finset Nat)), rs.length = base.length →
    topoVolume mu base = ((base.zip rs).map fun p => p.1.reference.sum mu).sum := by
  intro base
  induction base with
  | nil => intro rs _; rfl
  | cons e base ih =>
    intro rs hlen
    cases rs with
    | nil => simp at hlen
    | cons r rs =>
      have hlen2 : rs.length = base.length := by simpa using hlen
      unfold topoVolume at ih ⊢
      rw [List.zip_cons_cons, List.map_cons, List.map_cons, List.sum_cons,
        List.sum_cons, ih rs hlen2]

-- ### Claim theorems: C10 and C8

/-- C10: `TrimmedTopology.__init__` requires exactly one reference per base
element and only Reference entries — a reference list of any other length, or
one containing a non-Reference value, fails the constructor assertions.  On
valid input the element sequence consists, in base-topology order, of exactly
those base elements whose trimmed reference is nonempty, each keeping the base
transform and opposite and carrying the trimmed reference; elements trimmed to
empty are silently omitted. -/
theorem trimmed_topology_init :
    (∀ (base : List Element) (refs : List RefVal), refs.length ≠ base.length →
      trimmedTopologyInit base refs = none) ∧
    (∀ (base : List Element) (refs : List RefVal),
      (∃ rv ∈ refs, rv.isRef = false) → trimmedTopologyInit base refs = none) ∧
    (∀ (base : List Element) (rs : List (Finset Nat)), rs.length = base.length →
      trimmedTopologyInit base (rs.map RefVal.ref) =
        some ((List.range base.length).filterMap fun i =>
          if rs.getD i ∅ = ∅ then none
          else some ⟨rs.getD i ∅, (base.getD i ⟨∅, 0, 0⟩).transform,
            (base.getD i ⟨∅, 0, 0⟩).opposite⟩)) := by
  refine ⟨?_, ?_, ?_⟩
  · intro base refs h
    unfold trimmedTopologyInit
    rw [if_pos h]
  · intro base refs hex
    obtain ⟨rv, hrv, hfalse⟩ := hex
    unfold trimmedTopologyInit
    by_cases hlen : refs.length ≠ base.length
    · rw [if_pos hlen]
    · have hnall : ¬ (refs.all RefVal.isRef = true) := by
        intro hall
        have := List.all_eq_true.mp hall rv hrv
        rw [hfalse] at this
        cases this
      rw [if_neg hlen, if_pos hnall]
  · intro base rs hlen
    unfold trimmedTopologyInit
    have h1 : ¬ ((rs.map RefVal.ref).length ≠ base.length) := by
      simp [hlen]
    have h2 : ¬ ¬ ((rs.map RefVal.ref).all RefVal.isRef = true) := by
      intro hc
      apply hc
      apply List.all_eq_true.mpr
      intro x hx
      rcases List.mem_map.mp hx with ⟨r, _, rfl⟩
      rfl
    rw [if_neg h1, if_neg h2]
    have hmaps : (rs.map RefVal.ref).map RefVal.toRef = rs := by
      rw [List.map_map]
      have hid : (RefVal.toRef ∘ RefVal.ref) = id := funext (fun r => rfl)
      rw [hid, List.map_id]
    rw [hmaps, trimmed_elements_spec base rs hlen.symm]

theorem trimmed_topology_init_witness :
    (trimmedTopologyInit [⟨{0}, 0, 0⟩] [] = none) ∧
    (trimmedTopologyInit [⟨{0}, 0, 0⟩] [RefVal.other] = none) ∧
    (trimmedTopologyInit [⟨{0, 1}, 0, 5⟩, ⟨{2}, 1, 6⟩]
        (([{0}, ∅] : List (Finset Nat)).map RefVal.ref) =
      some ((List.range ([⟨{0, 1}, 0, 5⟩, ⟨{2}, 1, 6⟩] : List Element).length).filterMap
        fun i =>
          if ([{0}, ∅] : List (Finset Nat)).getD i ∅ = ∅ then none
          else some ⟨([{0}, ∅] : List (Finset Nat)).getD i ∅,
            (([⟨{0, 1}, 0, 5⟩, ⟨{2}, 1, 6⟩] : List Element).getD i
              ⟨∅, 0, 0⟩).transform,
            (([⟨{0, 1}, 0, 5⟩, ⟨{2}, 1, 6⟩] : List Element).getD i
              ⟨∅, 0, 0⟩).opposite⟩)) := by
  obtain ⟨h1, h2, h3⟩ := trimmed_topology_init
  refine ⟨?_, ?_, ?_⟩
  · exact h1 [⟨{0}, 0, 0⟩] [] (by decide)
  · exact h2 [⟨{0}, 0, 0⟩] [RefVal.other] ⟨RefVal.other, List.mem_cons_self _ _, rfl⟩
  · exact h3 [⟨{0, 1}, 0, 5⟩, ⟨{2}, 1, 6⟩] [{0}, ∅] rfl

/-- C8: trimming a topology and trimming by the complement partitions the
volume exactly: with per-element trimmed references contained in the base
references, both `TrimmedTopology` constructions succeed and for every
measure on atomic pieces the trimmed volume plus the inverse
(complement) volume equals the base volume. -/
theorem trim_partition (mu : Nat → Int) (base : List Element)
    (rs : List (Finset Nat)) (hlen : rs.length = base.length)
    (hsub : ∀ p ∈ base.zip rs, p.2 ⊆ p.1.reference) :
    ∃ T T2, trimmedTopology base rs = some T ∧
      trimmedTopology base (trimmedInverseRefs base rs) = some T2 ∧
      topoVolume mu T + topoVolume mu T2 = topoVolume mu base := by
  have hlen2 : (trimmedInverseRefs base rs).length = base.length := by
    unfold trimmedInverseRefs
    rw [List.length_map, List.length_zip, hlen]
    exact Nat.min_self _
  refine ⟨trimmedTopologyElements base rs,
    trimmedTopologyElements base (trimmedInverseRefs base rs),
    by unfold trimmedTopology; rw [if_pos hlen],
    by unfold trimmedTopology; rw [if_pos hlen2], ?_⟩
  rw [volume_trimmedElements, volume_trimmedElements, zip_map_inverse,
    topoVolume_zip mu base rs hlen, List.map_map]
  have hfun : ((fun p => p.2.sum mu) ∘
      (fun (p : Element × Finset Nat) => (p.1, p.1.reference \ p.2))) =
      (fun (p : Element × Finset Nat) => (p.1.reference \ p.2).sum mu) :=
    funext (fun p => rfl)
  rw [hfun]
  exact sum_zip_partition mu base rs hsub

theorem trim_partition_witness :
    ∃ T T2,
      trimmedTopology [⟨{0, 1}, 0, 10⟩, ⟨{2}, 1, 11⟩]
        ([{0}, ∅] : List (Finset Nat)) = some T ∧
      trimmedTopology [⟨{0, 1}, 0, 10⟩, ⟨{2}, 1, 11⟩]
        (trimmedInverseRefs [⟨{0, 1}, 0, 10⟩, ⟨{2}, 1, 11⟩]
          ([{0}, ∅] : List (Finset Nat))) = some T2 ∧
      topoVolume (fun i => (i : Int) + 1) T +
        topoVolume (fun i => (i : Int) + 1) T2 =
        topoVolume (fun i => (i : Int) + 1)
          [⟨{0, 1}, 0, 10⟩, ⟨{2}, 1, 11⟩] :=
  trim_partition (fun i => (i : Int) + 1) [⟨{0, 1}, 0, 10⟩, ⟨{2}, 1, 11⟩]
    [{0}, ∅] rfl (by decide)

-- ### Claim theorem: C9

/-- C9: gmsh parsing fails with a fatal exception and no partial result
whenever the MeshFormat section is missing or empty (ValueError), whenever it
declares a binary file type (ValueError), whenever the declared version is
outside the 2.x and 4.x families (ValueError), and whenever an element line
carries an unknown element type code (KeyError from the `etype2nd` table,
raised for the offending code). -/
theorem gmsh_parse_errors :
    (∀ sections : List (String × String),
      lookupAssoc "MeshFormat" sections = none →
      ∃ msg, parsegmshFormat sections = .error (.valueError msg)) ∧
    (∀ sections : List (String × String),
      lookupAssoc "MeshFormat" sections = some "" →
      ∃ msg, parsegmshFormat sections = .error (.valueError msg)) ∧
    (∀ (sections : List (String × String)) content version filetype datasize,
      lookupAssoc "MeshFormat" sections = some content → content ≠ "" →
      splitWS content = [version, filetype, datasize] → filetype ≠ "0" →
      ∃ msg, parsegmshFormat sections = .error (.valueError msg)) ∧
    (∀ (sections : List (String × String)) content version datasize,
      lookupAssoc "MeshFormat" sections = some content → content ≠ "" →
      splitWS content = [version, "0", datasize] →
      pyStartsWith version "2." = false → pyStartsWith version "4." = false →
      ∃ msg, parsegmshFormat sections = .error (.valueError msg)) ∧
    (∀ (lines : List ElemLine) nodes tagmap,
      (∀ l ∈ lines, 1 ≤ l.ntags) →
      (∃ l ∈ lines, lookupAssoc l.etype etype2nd = none) →
      ∃ key, elemScan lines nodes tagmap = .error (.keyError key) ∧
        lookupAssoc key etype2nd = none) := by
  refine ⟨?_, ?_, ?_, ?_, ?_⟩
  · intro sections h
    refine ⟨"invalid or incomplete gmsh data", ?_⟩
    unfold parsegmshFormat
    rw [h]
  · intro sections h
    refine ⟨"invalid or incomplete gmsh data", ?_⟩
    unfold parsegmshFormat
    rw [h]
    rfl
  · intro sections content version filetype datasize hsec hne hsplit hft
    refine ⟨"binary gmsh data is not supported", ?_⟩
    simp only [parsegmshFormat, hsec]
    rw [if_neg hne]
    simp only [hsplit]
    simp [hft]
  · intro sections content version datasize hsec hne hsplit h2 h4
    refine ⟨"gmsh version is not supported", ?_⟩
    simp only [parsegmshFormat, hsec]
    rw [if_neg hne]
    simp only [hsplit]
    simp [h2, h4]
  · intro lines
    induction lines with
    | nil =>
      intro nodes tagmap _ hex
      rcases hex with ⟨l, hl, _⟩
      cases hl
    | cons line rest ih =>
      intro nodes tagmap hok hex
      cases hlu : lookupAssoc line.etype etype2nd with
      | none =>
        refine ⟨line.etype, ?_, hlu⟩
        simp only [elemScan, hlu]
      | some nd =>
        have hok0 : ¬ (line.ntags < 1) := by
          have := hok line (List.mem_cons_self _ _)
          omega
        rcases hex with ⟨l, hl, hnone⟩
        rcases List.mem_cons.mp hl with rfl | hl2
        · rw [hnone] at hlu
          cases hlu
        · simp only [elemScan, hlu, if_neg hok0]
          exact ih _ _ (fun x hx => hok x (List.mem_cons_of_mem _ hx))
            ⟨l, hl2, hnone⟩

theorem gmsh_parse_errors_witness :
    (∃ msg, parsegmshFormat [("Nodes", "3")] = .error (.valueError msg)) ∧
    (∃ msg, parsegmshFormat [("MeshFormat", "")] = .error (.valueError msg)) ∧
    (∃ msg, parsegmshFormat [("MeshFormat", "2.2 1 8")] =
      .error (.valueError msg)) ∧
    (∃ msg, parsegmshFormat [("MeshFormat", "3.0 0 8")] =
      .error (.valueError msg)) ∧
    (∃ key, elemScan [⟨"1", "99", 1, "5", ["7", "8"]⟩] [] [] =
      .error (.keyError key) ∧ lookupAssoc key etype2nd = none) := by
  obtain ⟨h1, h2, h3, h4, h5⟩ := gmsh_parse_errors
  refine ⟨?_, ?_, ?_, ?_, ?_⟩
  · exact h1 [("Nodes", "3")] (by decide)
  · exact h2 [("MeshFormat", "")] (by decide)
  · exact h3 [("MeshFormat", "2.2 1 8")] "2.2 1 8" "2.2" "1" "8" (by decide)
      (by decide) (by decide) (by decide)
  · exact h4 [("MeshFormat", "3.0 0 8")] "3.0 0 8" "3.0" "8" (by decide)
      (by decide) (by decide) (by decide) (by decide)
  · exact h5 [⟨"1", "99", 1, "5", ["7", "8"]⟩] [] []
      (by
        intro l hl
        rcases List.mem_cons.mp hl with rfl | hl2
        · exact le_refl 1
        · cases hl2)
      ⟨⟨"1", "99", 1, "5", ["7", "8"]⟩, List.mem_cons_self _ _, by decide⟩

theorem intArange_self (a : Int) : intArange a a = [] := by
  simp [intArange]

theorem intArange_append_right (a b : Int) (hab : a ≤ b) :
    intArange a (b + 1) = intArange a b ++ [b] := by
  unfold intArange
  have h1 : (b + 1 - a).toNat = (b - a).toNat + 1 := by omega
  rw [h1, List.range_succ, List.map_append]
  have h2 : a + ((b - a).toNat : Int) = b := by omega
  rw [List.map_singleton, h2]

theorem filter_renumber_enum (p : Nat → Bool) (off : Int) : ∀ n : Nat,
    ((List.range n).filter p).map
        (fun d => off - 1 + (((List.range (d + 1)).countP p : Nat) : Int)) =
      intArange off (off + (((List.range n).countP p : Nat) : Int)) := by
  intro n
  induction n with
  | zero => simp [intArange]
  | succ n ih =>
    rw [List.range_succ, List.filter_append, List.map_append,
      List.countP_append]
    by_cases hp : p n = true
    · have hc : (List.range (n + 1)).countP p = (List.range n).countP p + 1 := by
        rw [countP_range_succ, if_pos hp]
      have hone : List.countP p [n] = 1 := by
        rw [List.countP_cons, List.countP_nil, if_pos hp]
      rw [List.filter_singleton, hp, cond_true, List.map_singleton, ih,
        hone, hc]
      have h3 : off + (((List.range n).countP p + 1 : Nat) : Int) =
          (off + (((List.range n).countP p : Nat) : Int)) + 1 := by
        push_cast
        ring
      have h4 : off - 1 + (((List.range n).countP p + 1 : Nat) : Int) =
          off + (((List.range n).countP p : Nat) : Int) := by
        push_cast
        ring
      rw [h3, h4, intArange_append_right off _ (by omega)]
    · have hpf : p n = false := by
        cases hb : p n with
        | false => rfl
        | true => exact absurd hb hp
      have hzero : List.countP p [n] = 0 := by
        rw [List.countP_cons, List.countP_nil, if_neg hp]
      rw [List.filter_singleton, hpf, cond_false, List.map_nil,
        List.append_nil, ih, hzero, Nat.add_zero]

theorem intArange_add_append (a b : Int) (hab : a ≤ b) : ∀ k : Nat,
    intArange a b ++ intArange b (b + (k : Int)) = intArange a (b + (k : Int)) := by
  intro k
  induction k with
  | zero => rw [Nat.cast_zero, add_zero, intArange_self, List.append_nil]
  | succ k ih =>
    have hb : b ≤ b + (k : Int) := by omega
    have ha : a ≤ b + (k : Int) := by omega
    rw [Nat.cast_add_one, ← add_assoc, intArange_append_right b _ hb,
      intArange_append_right a _ ha, ← List.append_assoc, ih]

theorem intArange_append (a b c : Int) (hab : a ≤ b) (hbc : b ≤ c) :
    intArange a b ++ intArange b c = intArange a c := by
  have hc : c = b + ((c - b).toNat : Int) := by omega
  rw [hc]
  exact intArange_add_append a b hab _

theorem keep_iff (elems : List HElem) (d : Nat) :
    keep elems d = true ↔
      ((¬ ∃ e ∈ elems, e.cls = ElemClass.finer ∧ d ∈ e.dofs) ∧
        ∃ e ∈ elems, e.cls = ElemClass.inSelf ∧ d ∈ e.dofs) := by
  unfold keep supported touched
  rw [Bool.and_eq_true]
  constructor
  · intro h
    obtain ⟨hs, ht⟩ := h
    constructor
    · intro hex
      obtain ⟨e, he, hcls, hd⟩ := hex
      have hX : elems.any (fun e => decide (e.cls = ElemClass.finer) &&
          e.dofs.contains d) = true :=
        List.any_eq_true.mpr ⟨e, he, by
          rw [Bool.and_eq_true]
          exact ⟨decide_eq_true hcls, contains_true_iff.mpr hd⟩⟩
      rw [hX] at hs
      exact absurd hs (by decide)
    · obtain ⟨e, he, hb⟩ := List.any_eq_true.mp ht
      rw [Bool.and_eq_true] at hb
      exact ⟨e, he, of_decide_eq_true hb.1, contains_true_iff.mp hb.2⟩
  · intro h
    obtain ⟨hnf, e, he, hcls, hd⟩ := h
    constructor
    · rw [Bool.not_eq_true']
      cases hany : elems.any (fun e => decide (e.cls = ElemClass.finer) &&
          e.dofs.contains d) with
      | false => rfl
      | true =>
        obtain ⟨e2, he2, hb2⟩ := List.any_eq_true.mp hany
        rw [Bool.and_eq_true] at hb2
        exact absurd ⟨e2, he2, of_decide_eq_true hb2.1,
          contains_true_iff.mp hb2.2⟩ hnf
    · exact List.any_eq_true.mpr ⟨e, he, by
        rw [Bool.and_eq_true]
        exact ⟨decide_eq_true hcls, contains_true_iff.mpr hd⟩⟩

theorem hierarchicalDofs_enum : ∀ (levels : List HLevel) (n : Nat),
    hierarchicalDofs levels n =
      intArange (n : Int) ((n : Int) + (totalKeep levels : Int)) := by
  intro levels
  induction levels with
  | nil =>
    intro n
    have h0 : ((totalKeep ([] : List HLevel) : Nat) : Int) = 0 := rfl
    rw [h0, add_zero, intArange_self]
    rfl
  | cons lvl rest ih =>
    intro n
    have ht2 : totalKeep (lvl :: rest) = levelKeepCount lvl + totalKeep rest := rfl
    show (((List.range lvl.nfuncs).filter (keep lvl.elems)).map
        (renumber n lvl.elems)) ++
        hierarchicalDofs rest (n + levelKeepCount lvl) = _
    rw [ih (n + levelKeepCount lvl)]
    have h1 : ((List.range lvl.nfuncs).filter (keep lvl.elems)).map
        (renumber n lvl.elems) =
        intArange (n : Int) ((n : Int) + (levelKeepCount lvl : Int)) :=
      filter_renumber_enum (keep lvl.elems) (n : Int) lvl.nfuncs
    rw [h1]
    have h2 : ((n + levelKeepCount lvl : Nat) : Int) =
        (n : Int) + (levelKeepCount lvl : Int) := by
      push_cast
      ring
    rw [h2]
    have h3 : (n : Int) + (levelKeepCount lvl : Int) + (totalKeep rest : Int) =
        (n : Int) + (totalKeep (lvl :: rest) : Int) := by
      rw [ht2]
      push_cast
      ring
    rw [h3]
    refine intArange_append _ _ _ (by omega) ?_
    rw [← h3]
    omega

-- ### Claim theorem: C3

/-- C3 (amended): the hierarchical basis law as the code implements it.  The
retained functions of a level are exactly `keep = supported AND touched`,
where `supported` means no element of that level lying strictly inside a
selected coarser element carries the function (the loop clears the dofs of
level elements whose proper ancestor is selected — which differs from the
claim's words "no selected element finer than level L supports it", see the
counterexample), and `touched` means at least one element of exactly the
selection at that level carries it.  The renumbered kept dofs of all levels,
threading the running dof count, enumerate `[0, totalKeep)` consecutively in
level order; and every kept dof is carried by at least one element of the
selection (the touched element, so the final `check.all()` assertion
holds). -/
theorem hierarchical_basis_law :
    (∀ (elems : List HElem) (d : Nat),
      keep elems d = true ↔
        ((¬ ∃ e ∈ elems, e.cls = ElemClass.finer ∧ d ∈ e.dofs) ∧
          ∃ e ∈ elems, e.cls = ElemClass.inSelf ∧ d ∈ e.dofs)) ∧
    (∀ levels : List HLevel,
      hierarchicalDofs levels 0 = intArange 0 (totalKeep levels)) ∧
    (∀ (elems : List HElem) (d : Nat), keep elems d = true →
      ∃ e ∈ elems, e.cls = ElemClass.inSelf ∧ d ∈ e.dofs) := by
  refine ⟨keep_iff, ?_, ?_⟩
  · intro levels
    have h := hierarchicalDofs_enum levels 0
    rw [Nat.cast_zero, zero_add] at h
    exact h
  · intro elems d h
    exact ((keep_iff elems d).mp h).2

theorem hierarchical_basis_law_witness :
    (keep hlvl0.elems 0 = true ↔
      ((¬ ∃ e ∈ hlvl0.elems, e.cls = ElemClass.finer ∧ 0 ∈ e.dofs) ∧
        ∃ e ∈ hlvl0.elems, e.cls = ElemClass.inSelf ∧ 0 ∈ e.dofs)) ∧
    (hierarchicalDofs [hlvl0, hlvl1] 0 =
      intArange 0 (totalKeep [hlvl0, hlvl1])) ∧
    (∃ e ∈ hlvl1.elems, e.cls = ElemClass.inSelf ∧ 2 ∈ e.dofs) := by
  obtain ⟨h1, h2, h3⟩ := hierarchical_basis_law
  exact ⟨h1 hlvl0.elems 0, h2 [hlvl0, hlvl1],
    h3 hlvl1.elems 2 (by decide)⟩

/-- C3 (counterexample): the claim's retention law, read as written ("no
selected element finer than level L supports it"), differs from the code's
law in both directions on the two-level scenario with selection A, B1, B2.
The code retains level-0 dof 1 (the hat shared by A and B: A touches it and
no level-0 element lies inside a selected coarser element), while the
claim's predicate rejects it because the selected elements B1 and B2 are
finer than level 0 and lie in its support.  Conversely the code rejects
level-1 dof 2 (the children of A, finer than the selection, clear its
`supported` flag), while the claim's predicate retains it because no
selected element is finer than level 1 and B1 supports it. -/
theorem hierarchical_basis_counterexample :
    (keep cexLvl0.elems 1 = true ∧ claimKeep cexSelection 0 1 = false) ∧
    (keep cexLvl1.elems 2 = false ∧ claimKeep cexSelection 1 2 = true) := by
  decide

end Nutils

